import Mathlib

/-!
SearchServer: a shallow embedding and its verified properties.

The development follows the C++ sources `string_processing.cpp`,
`search_server.h`, `search_server.cpp`, `document.cpp` and `request_queue.h`.

Modelling conventions.

* A `char` is a `Char` and a `std::string` / `std::string_view` is a
  `List Char`.  A view is modelled by the characters it denotes.  For UTF-8
  text every byte of a non-ASCII character is at least `0x80`, so such a
  character is never a separator, a control byte or a minus sign, and the
  byte-wise order of words agrees with the order by code point.
* `std::map<K, V>` is the list of its entries in ascending key order
  (`StdMap`), `std::set<K>` the ascending list of its elements (`StdSet`).
  The operations do not assume that their argument is sorted; that the
  containers of a server stay sorted is proved as part of the invariant.
* `double` is an arbitrary linearly ordered field `R` (exact arithmetic)
  and `log` an arbitrary function `ln : R → R`; every theorem holds for all
  `R` and `ln`, in particular for the reals with the natural logarithm, and
  the definitions evaluate for `R = ℚ`.
* `int` is `Int`; where the source does arithmetic on, or casts to, `int`
  the result is reduced to the 32-bit two's complement range by `wrap32`.
* A member function that mutates the server returns an `Outcome`: the state
  of the server when the call ends together with the exception, if any, that
  ended it.  A `const` member function returns `Except Exn _`.
* The indices are keyed by `std::string_view`s into the contents of the
  document records; a key is the `List Char` it denotes while the record
  exists.  A call that reads a key whose record has been erased ends in
  `Exn.undefined`: the behaviour of the program is undefined from there on,
  and the state the model gives for such a call is the one at that read.
* An algorithm that is given an execution policy ends the program by
  `std::terminate` when an exception leaves the function it applies; this is
  the outcome `Exn.terminate`.
* The workers of the parallel `FindAllDocuments` run to completion one after
  the other, in an order that is a parameter of the model.  `ConcurrentMap`,
  whose header is not among the sources, is a list of ordered maps, one for
  each shard.
-/

namespace SearchServer

/-! ## Exceptions and machine integers -/

/-- The ways in which a call can end without returning: the two standard
exceptions the sources can raise; the call of `std::terminate` that ends the
program when an exception leaves a function called by an algorithm that was given
an execution policy; and `undefined`, for a call that reads a string through a
`std::string_view` after the string has been destroyed, from where on the
language fixes nothing about the program. -/
inductive Exn where
  | invalid_argument
  | out_of_range
  | terminate
  | undefined
  deriving DecidableEq, Repr

/-- Reduction of an integer to the range of a 32-bit `int`. -/
def wrap32 (x : Int) : Int := (x + 2147483648) % 4294967296 - 2147483648

/-- The values of type `int`. -/
def isInt32 (x : Int) : Prop := -2147483648 ≤ x ∧ x ≤ 2147483647

instance (x : Int) : Decidable (isInt32 x) := by unfold isInt32; infer_instance

/-! ## `std::map` and `std::set` -/

/-- A `std::map<K, V>`: its entries in iteration order. -/
abbrev StdMap (K V : Type) := List (K × V)

/-- A `std::set<K>`: its elements in iteration order. -/
abbrev StdSet (K : Type) := List K

namespace StdMap

variable {K V : Type}

/-- The value stored under `k`, as `m.find(k)` gives it. -/
def find [LinearOrder K] : StdMap K V → K → Option V
  | [], _ => none
  | (k', v) :: rest, k => if k' = k then some v else find rest k

/-- Model of `m.count(k)`. -/
def count [LinearOrder K] (m : StdMap K V) (k : K) : Nat :=
  if (m.find k).isSome then 1 else 0

/-- Model of `m.at(k)`, which throws `std::out_of_range` for a missing key. -/
def atKey [LinearOrder K] (m : StdMap K V) (k : K) : Except Exn V :=
  match m.find k with
  | some v => .ok v
  | none => .error .out_of_range

/-- Stores `v` under `k` at the place the key order gives it, replacing the
value of an entry that is already there (`m[k] = v`). -/
def insert [LinearOrder K] (k : K) (v : V) : StdMap K V → StdMap K V
  | [] => [(k, v)]
  | (k', v') :: rest =>
    if k < k' then (k, v) :: (k', v') :: rest
    else if k = k' then (k, v) :: rest
    else (k', v') :: insert k v rest

/-- Model of `m.emplace(k, v)`: no effect when the key is present. -/
def emplace [LinearOrder K] (m : StdMap K V) (k : K) (v : V) : StdMap K V :=
  if (m.find k).isSome then m else m.insert k v

/-- Model of `m.erase(k)`. -/
def erase [LinearOrder K] (m : StdMap K V) (k : K) : StdMap K V :=
  m.filter (fun e => decide (e.1 ≠ k))

/-- Model of `m[k]` read as an rvalue after default construction: the stored
value, or the value-initialised one. -/
def getD [LinearOrder K] (m : StdMap K V) (k : K) (d : V) : V :=
  (m.find k).getD d

/-- Model of `m[k] += c` for a numeric value type. -/
def addTo [LinearOrder K] [Zero V] [Add V] (m : StdMap K V) (k : K) (c : V) : StdMap K V :=
  m.insert k (m.getD k 0 + c)

/-- The keys in iteration order. -/
def keys (m : StdMap K V) : List K := m.map Prod.fst

end StdMap

namespace StdSet

variable {K : Type}

/-- Model of `s.insert(k)`. -/
def insert [LinearOrder K] (k : K) : StdSet K → StdSet K
  | [] => [k]
  | k' :: rest =>
    if k < k' then k :: k' :: rest
    else if k = k' then k' :: rest
    else k' :: insert k rest

/-- Model of `s.erase(k)`. -/
def erase [DecidableEq K] (s : StdSet K) (k : K) : StdSet K :=
  s.filter (fun e => decide (e ≠ k))

/-- Model of `s.count(k) > 0`. -/
def contains [DecidableEq K] (s : StdSet K) (k : K) : Bool := decide (k ∈ s)

/-- Model of the range constructor `std::set(first, last)`. -/
def ofList [LinearOrder K] (l : List K) : StdSet K :=
  l.foldl (fun acc k => insert k acc) []

end StdSet

/-! ## `string_processing.cpp` -/

/-- A word: a `std::string` or the characters a `std::string_view` denotes. -/
abbrev Word := List Char

/-- The separator `' '`. -/
def SPACE : Char := Char.ofNat 32

/-- The minus sign `'-'`. -/
def MINUS : Char := Char.ofNat 45

/-- The loop of `SplitIntoWords`: `word` is the word being collected and
`words` the result so far; a moved-from `word` is empty. -/
def SplitIntoWordsLoop : List Char → Word → List Word → List Word
  | [], word, words => if word ≠ [] then words ++ [word] else words
  | c :: rest, word, words =>
    if c = SPACE then
      if word ≠ [] then SplitIntoWordsLoop rest [] (words ++ [word])
      else SplitIntoWordsLoop rest word words
    else SplitIntoWordsLoop rest (word ++ [c]) words

/-- Model of `SplitIntoWords(text)`. -/
def SplitIntoWords (text : List Char) : List Word :=
  SplitIntoWordsLoop text [] []

/-- Model of `str.find(' ')`: the position of the first space, `none` for `npos`. -/
def findSpace : List Char → Option Nat
  | [] => none
  | c :: rest => if c = SPACE then some 0 else (findSpace rest).map (· + 1)

/-- Model of `str.substr(0, space)`. -/
def substrTo (str : List Char) : Option Nat → List Char
  | none => str
  | some n => str.take n

/-- The `while (true)` loop of `SplitIntoWordsView`, bounded by `fuel` iterations. -/
def SplitIntoWordsViewLoop : Nat → List Char → StdSet Word → StdSet Word
  | 0, _, result => result
  | fuel + 1, str, result =>
    let space := findSpace str
    let result := StdSet.insert (substrTo str space) result
    match space with
    | none => result
    | some n => SplitIntoWordsViewLoop fuel (str.drop (n + 1)) result

/-- Model of `SplitIntoWordsView(str)`; every iteration but the last removes at
least one character, so `str.length + 1` iterations are enough. -/
def SplitIntoWordsView (str : List Char) : StdSet Word :=
  SplitIntoWordsViewLoop (str.length + 1) str []

/-! ## `document.h` and the data of `search_server.h` -/

/-- Modelled from the spec: the enumeration `DocumentStatus`, declared in
`document.h`, which is not among the sources; the spec (section 6) gives its
enumerators `ACTUAL`, `IRRELEVANT`, `BANNED`, `REMOVED`. -/
inductive DocumentStatus where
  | ACTUAL
  | IRRELEVANT
  | BANNED
  | REMOVED
  deriving DecidableEq, Repr

/-- The struct `Document`, with the members the constructor in `document.cpp`
initialises: `int id`, `double relevance`, `int rating`. -/
structure Document (R : Type) where
  id : Int
  relevance : R
  rating : Int

/-- The struct `SearchServer::DocumentData`. -/
structure DocumentData where
  content : StdSet Word
  rating : Int
  status : DocumentStatus
  deriving DecidableEq

/-- The struct `SearchServer::Query`. -/
structure Query where
  plus_words : StdSet Word
  minus_words : StdSet Word
  deriving DecidableEq

/-- The struct `SearchServer::QueryWord`. -/
structure QueryWord where
  data : Word
  is_minus : Bool
  is_stop : Bool
  deriving DecidableEq

/-- The data members of `SearchServer`.  The keys of `word_to_document_freqs_`
and of the rows of `word_frequencies_to_document` are `std::string_view`s into
the strings of `documents_[id].content`: a key of the row of `id` refers to the
content of `id`, a key of the inverted index to the content of the document that
brought the word first.  A key is given here by the characters it denotes, which
are those of the string for as long as the record of that document exists.
`RemoveDocument` is the one function that erases a record, and its model ends in
`Exn.undefined` at the first key it reads after the erasure. -/
structure Server (R : Type) where
  stop_words_ : StdSet Word
  word_to_document_freqs_ : StdMap Word (StdMap Int R)
  documents_ : StdMap Int DocumentData
  document_ids_ : StdSet Int
  word_frequencies_to_document : StdMap Int (StdMap Word R)

/-- The state and the exception, if any, with which a mutating call ends. -/
structure Outcome (R : Type) where
  state : Server R
  thrown : Option Exn

/-- A document predicate `(document_id, status, rating) ↦ bool`. -/
abbrev DocumentPredicate := Int → DocumentStatus → Int → Bool

/-- The constant `MAX_RESULT_DOCUMENT_COUNT`. -/
def MAX_RESULT_DOCUMENT_COUNT : Nat := 5

/-! ## `search_server.cpp` -/

section Operations

variable {R : Type} [LinearOrderedField R]

/-- The server the constructor builds: the set of stop words it is given (what
`MakeUniqueNonEmptyStrings`, declared in the absent `string_processing.h`,
returns) and empty containers. -/
def Server.empty (stop_words : StdSet Word) : Server R :=
  { stop_words_ := stop_words
    word_to_document_freqs_ := []
    documents_ := []
    document_ids_ := []
    word_frequencies_to_document := [] }

/-- Model of `SearchServer::IsStopWord`. -/
def IsStopWord (s : Server R) (word : Word) : Bool :=
  s.stop_words_.contains word

/-- Model of `SearchServer::IsValidWord`: no character `c` with
`c >= 0 && c < 0x20` (a byte from `0x80` on never is one). -/
def IsValidWord (word : Word) : Bool :=
  !(word.any (fun c => decide (c.toNat < 32)))

/-- The loop of `SplitIntoWordsNoStop` over the words of the text. -/
def SplitIntoWordsNoStopLoop (s : Server R) : List Word → List Word → Except Exn (List Word)
  | [], words => .ok words
  | word :: rest, words =>
    if !IsValidWord word then .error .invalid_argument
    else if !IsStopWord s word then SplitIntoWordsNoStopLoop s rest (words ++ [word])
    else SplitIntoWordsNoStopLoop s rest words

/-- Model of `SearchServer::SplitIntoWordsNoStop`. -/
def SplitIntoWordsNoStop (s : Server R) (text : List Char) : Except Exn (List Word) :=
  SplitIntoWordsNoStopLoop s (SplitIntoWords text) []

/-- The summation loop of `ComputeAverageRating`, in 32-bit arithmetic. -/
def ratingSum : List Int → Int → Int
  | [], rating_sum => rating_sum
  | rating :: rest, rating_sum => ratingSum rest (wrap32 (rating_sum + rating))

/-- Model of `SearchServer::ComputeAverageRating`; `/` on `int` truncates
toward zero and `static_cast<int>` reduces the size to 32 bits. -/
def ComputeAverageRating (ratings : List Int) : Int :=
  if ratings = [] then 0
  else Int.tdiv (ratingSum ratings 0) (wrap32 (ratings.length : Int))

/-- Model of `SearchServer::GetDocumentCount`. -/
def GetDocumentCount (s : Server R) : Int :=
  wrap32 (s.documents_.length : Int)

/-- Model of `SearchServer::ComputeWordInverseDocumentFreq`. -/
def ComputeWordInverseDocumentFreq (ln : R → R) (s : Server R) (word : Word) : Except Exn R :=
  match s.word_to_document_freqs_.atKey word with
  | .error e => .error e
  | .ok freqs => .ok (ln ((GetDocumentCount s : R) * 1 / (freqs.length : R)))

/-- One iteration of the loop of `AddDocument` over the words of the document:
`word_to_document_freqs_[str][document_id] += inv_word_count` and
`word_frequencies_to_document[document_id][str] += inv_word_count`, where
`str` views the equal word stored in the content of the document. -/
def AddDocumentStep (document_id : Int) (inv_word_count : R) (s : Server R) (word : Word) :
    Server R :=
  { s with
    word_to_document_freqs_ :=
      s.word_to_document_freqs_.insert word
        ((s.word_to_document_freqs_.getD word []).addTo document_id inv_word_count)
    word_frequencies_to_document :=
      s.word_frequencies_to_document.insert document_id
        ((s.word_frequencies_to_document.getD document_id []).addTo word inv_word_count) }

/-- Model of `SearchServer::AddDocument`.  The source adds the `double`
`1.0 / words.size()` once for every occurrence of a word; here the additions are
those of the field `R`, that is exact, so the sum for `k` occurrences among `n`
words is `k / n`, which the rounded sum of `double`s need not be. -/
def AddDocument (s : Server R) (document_id : Int) (document : List Char)
    (status : DocumentStatus) (ratings : List Int) : Outcome R :=
  if document_id < 0 ∨ s.documents_.count document_id > 0 then
    ⟨s, some .invalid_argument⟩
  else
    match SplitIntoWordsNoStop s document with
    | .error e => ⟨s, some e⟩
    | .ok words =>
      let inv_word_count : R := 1 / (words.length : R)
      let s1 : Server R := { s with
        documents_ := s.documents_.emplace document_id
          ⟨StdSet.ofList words, ComputeAverageRating ratings, status⟩ }
      let s2 := words.foldl (AddDocumentStep document_id inv_word_count) s1
      ⟨{ s2 with document_ids_ := StdSet.insert document_id s2.document_ids_ }, none⟩

/-- The loop of `RemoveDocument` over the forward-index row of the document:
`word_to_document_freqs_.at(word).erase(document_id)` for each of its words.
The key `word` of the row is a `std::string_view` into a string of
`documents_[document_id].content`, from which `AddDocument` took it.  When the
record of the document is no longer in `documents_` that string has been
destroyed, and the comparison of `word` with a key of the inverted index, which
`at` makes unless the index is empty, reads destroyed memory: the call ends in
`Exn.undefined`, in the state it has reached. -/
def RemoveDocumentLoop (document_id : Int) : List (Word × R) → Server R → Outcome R
  | [], s => ⟨s, none⟩
  | (word, _) :: rest, s =>
    if s.documents_.count document_id = 0 ∧ s.word_to_document_freqs_ ≠ [] then
      ⟨s, some .undefined⟩
    else
      match s.word_to_document_freqs_.atKey word with
      | .error e => ⟨s, some e⟩
      | .ok freqs =>
        RemoveDocumentLoop document_id rest
          { s with word_to_document_freqs_ :=
              s.word_to_document_freqs_.insert word (freqs.erase document_id) }

/-- Model of `SearchServer::RemoveDocument(int)`: the test for a row of the
forward index, `document_ids_.erase(document_id)`, `documents_.erase(document_id)`,
and only then the loop over the row, whose keys refer to the content that the
second `erase` has destroyed. -/
def RemoveDocument (s : Server R) (document_id : Int) : Outcome R :=
  if s.word_frequencies_to_document.count document_id = 0 then ⟨s, none⟩
  else
    let s1 : Server R := { s with document_ids_ := s.document_ids_.erase document_id }
    let s2 : Server R := { s1 with documents_ := s1.documents_.erase document_id }
    match s2.word_frequencies_to_document.atKey document_id with
    | .error e => ⟨s2, some e⟩
    | .ok row =>
      match RemoveDocumentLoop document_id row s2 with
      | ⟨s3, some e⟩ => ⟨s3, some e⟩
      | ⟨s3, none⟩ =>
        ⟨{ s3 with word_frequencies_to_document :=
            s3.word_frequencies_to_document.erase document_id }, none⟩

/-- Model of `SearchServer::GetWordFrequencies`: the empty static map for an id
that is not in `document_ids_`, else `word_frequencies_to_document.at(id)`. -/
def GetWordFrequencies (s : Server R) (document_id : Int) : Except Exn (StdMap Word R) :=
  if document_id ∉ s.document_ids_ then .ok []
  else s.word_frequencies_to_document.atKey document_id

/-- Model of `SearchServer::ParseQueryWord`. -/
def ParseQueryWord (s : Server R) (text : Word) : Except Exn QueryWord :=
  match text with
  | [] => .error .invalid_argument
  | c :: rest =>
    let is_minus : Bool := decide (c = MINUS)
    let word : Word := if is_minus then rest else c :: rest
    if word = [] ∨ word.head? = some MINUS ∨ !IsValidWord word then
      .error .invalid_argument
    else .ok ⟨word, is_minus, IsStopWord s word⟩

/-- The loop of `ParseQuery` over the set of words of the query text. -/
def ParseQueryLoop (s : Server R) : List Word → Query → Except Exn Query
  | [], result => .ok result
  | word :: rest, result =>
    match ParseQueryWord s word with
    | .error e => .error e
    | .ok query_word =>
      if !query_word.is_stop then
        if query_word.is_minus then
          ParseQueryLoop s rest
            { result with minus_words := StdSet.insert query_word.data result.minus_words }
        else
          ParseQueryLoop s rest
            { result with plus_words := StdSet.insert query_word.data result.plus_words }
      else ParseQueryLoop s rest result

/-- Model of `SearchServer::ParseQuery`. -/
def ParseQuery (s : Server R) (text : List Char) : Except Exn Query :=
  ParseQueryLoop s (SplitIntoWordsView text) ⟨[], []⟩

/-! ## `search_server.h`: ranking -/

/-- The inner loop of the plus-word phase of `FindAllDocuments` over the
postings `(document_id, term_freq)` of one word. -/
def plusPostingsLoop (s : Server R) (document_predicate : DocumentPredicate)
    (inverse_document_freq : R) : List (Int × R) → StdMap Int R → Except Exn (StdMap Int R)
  | [], document_to_relevance => .ok document_to_relevance
  | (document_id, term_freq) :: rest, document_to_relevance =>
    match s.documents_.atKey document_id with
    | .error e => .error e
    | .ok document_data =>
      if document_predicate document_id document_data.status document_data.rating then
        plusPostingsLoop s document_predicate inverse_document_freq rest
          (document_to_relevance.addTo document_id (term_freq * inverse_document_freq))
      else
        plusPostingsLoop s document_predicate inverse_document_freq rest document_to_relevance

/-- The loop of `FindAllDocuments` over `query.plus_words`. -/
def plusWordsLoop (ln : R → R) (s : Server R) (document_predicate : DocumentPredicate) :
    List Word → StdMap Int R → Except Exn (StdMap Int R)
  | [], document_to_relevance => .ok document_to_relevance
  | word :: rest, document_to_relevance =>
    if s.word_to_document_freqs_.count word = 0 then
      plusWordsLoop ln s document_predicate rest document_to_relevance
    else
      match ComputeWordInverseDocumentFreq ln s word with
      | .error e => .error e
      | .ok inverse_document_freq =>
        match s.word_to_document_freqs_.atKey word with
        | .error e => .error e
        | .ok freqs =>
          match plusPostingsLoop s document_predicate inverse_document_freq freqs
              document_to_relevance with
          | .error e => .error e
          | .ok document_to_relevance =>
            plusWordsLoop ln s document_predicate rest document_to_relevance

/-- The inner loop of the minus-word phase: `document_to_relevance.erase(document_id)`
for every posting of one word. -/
def minusPostingsLoop : List (Int × R) → StdMap Int R → StdMap Int R
  | [], document_to_relevance => document_to_relevance
  | (document_id, _) :: rest, document_to_relevance =>
    minusPostingsLoop rest (document_to_relevance.erase document_id)

/-- The loop of `FindAllDocuments` over `query.minus_words`. -/
def minusWordsLoop (s : Server R) : List Word → StdMap Int R → Except Exn (StdMap Int R)
  | [], document_to_relevance => .ok document_to_relevance
  | word :: rest, document_to_relevance =>
    if s.word_to_document_freqs_.count word = 0 then
      minusWordsLoop s rest document_to_relevance
    else
      match s.word_to_document_freqs_.atKey word with
      | .error e => .error e
      | .ok freqs => minusWordsLoop s rest (minusPostingsLoop freqs document_to_relevance)

/-- The last loop of `FindAllDocuments`: one `Document` for each entry of
`document_to_relevance`, in ascending order of the ids. -/
def matchedLoop (s : Server R) : List (Int × R) → List (Document R) →
    Except Exn (List (Document R))
  | [], matched_documents => .ok matched_documents
  | (document_id, relevance) :: rest, matched_documents =>
    match s.documents_.atKey document_id with
    | .error e => .error e
    | .ok document_data =>
      matchedLoop s rest (matched_documents ++ [⟨document_id, relevance, document_data.rating⟩])

/-- Model of the sequential `SearchServer::FindAllDocuments(query, predicate)`. -/
def FindAllDocuments (ln : R → R) (s : Server R) (query : Query)
    (document_predicate : DocumentPredicate) : Except Exn (List (Document R)) :=
  match plusWordsLoop ln s document_predicate query.plus_words [] with
  | .error e => .error e
  | .ok document_to_relevance =>
    match minusWordsLoop s query.minus_words document_to_relevance with
    | .error e => .error e
    | .ok document_to_relevance => matchedLoop s document_to_relevance []

/-- The comparator `FindTopDocuments` passes to `sort`: `lhs` goes before `rhs`. -/
def documentBefore (lhs rhs : Document R) : Bool :=
  if |lhs.relevance - rhs.relevance| < 1 / 1000000 then decide (lhs.rating > rhs.rating)
  else decide (lhs.relevance > rhs.relevance)

/-- Insertion of `x` into a list ordered by `comp`: before the first element
that `comp` puts after `x`. -/
def sortInsert {α : Type} (comp : α → α → Bool) (x : α) : List α → List α
  | [] => [x]
  | y :: rest => if comp x y then x :: y :: rest else y :: sortInsert comp x rest

/-- Model of `std::sort(first, last, comp)`: a sort by insertion.  The library
fixes the result only for a comparator that is a strict weak order on the
elements, and then only up to the order of equivalent elements: `std::sort` is
not stable, while this sort keeps equivalent elements in their order, so the
theorems use of it only that its result is a permutation of the input and, for a
comparator that is transitive on the input, ordered. -/
def stdSort {α : Type} (comp : α → α → Bool) (l : List α) : List α :=
  l.foldl (fun sorted x => sortInsert comp x sorted) []

/-- Model of `SearchServer::FindTopDocuments(policy, raw_query, predicate)` with
the sequential policy. -/
def FindTopDocuments (ln : R → R) (s : Server R) (raw_query : List Char)
    (document_predicate : DocumentPredicate) : Except Exn (List (Document R)) :=
  match ParseQuery s raw_query with
  | .error e => .error e
  | .ok query =>
    match FindAllDocuments ln s query document_predicate with
    | .error e => .error e
    | .ok matched_documents =>
      let matched_documents := stdSort documentBefore matched_documents
      if matched_documents.length > MAX_RESULT_DOCUMENT_COUNT then
        .ok (matched_documents.take MAX_RESULT_DOCUMENT_COUNT)
      else .ok matched_documents

/-- The predicate of `FindTopDocuments(raw_query, status)`. -/
def statusPredicate (status : DocumentStatus) : DocumentPredicate :=
  fun _ document_status _ => decide (document_status = status)

end Operations

/-! ## `search_server.h`: `MatchDocument` -/

section Matching

variable {R : Type} [LinearOrderedField R]

/-- The predicate both algorithms of `MatchDocument` apply to a word of the
query: `word_to_document_freqs_.at(word).count(document_id)`, converted to `bool`. -/
def wordIsPosted (s : Server R) (document_id : Int) (word : Word) : Except Exn Bool :=
  match s.word_to_document_freqs_.atKey word with
  | .error e => .error e
  | .ok freqs => .ok (decide (freqs.count document_id ≠ 0))

/-- Model of `std::any_of(std::execution::seq, first, last, pred)` with the
predicate of `MatchDocument`: the words are tested in order up to the first one
that satisfies the predicate; an exception that leaves the predicate ends the
program by `std::terminate`. -/
def anyOfPosted (s : Server R) (document_id : Int) : List Word → Except Exn Bool
  | [] => .ok false
  | word :: rest =>
    match wordIsPosted s document_id word with
    | .error _ => .error .terminate
    | .ok true => .ok true
    | .ok false => anyOfPosted s document_id rest

/-- Model of `std::copy_if(std::execution::seq, first, last,
std::back_inserter(matched_words), pred)` with the predicate of `MatchDocument`;
an exception that leaves the predicate ends the program by `std::terminate`. -/
def copyIfPosted (s : Server R) (document_id : Int) :
    List Word → List Word → Except Exn (List Word)
  | [], matched_words => .ok matched_words
  | word :: rest, matched_words =>
    match wordIsPosted s document_id word with
    | .error _ => .error .terminate
    | .ok true => copyIfPosted s document_id rest (matched_words ++ [word])
    | .ok false => copyIfPosted s document_id rest matched_words

/-- Model of `SearchServer::MatchDocument(policy, raw_query, document_id)`, which
`MatchDocument(raw_query, document_id)` calls with `std::execution::seq`. -/
def MatchDocument (s : Server R) (raw_query : List Char) (document_id : Int) :
    Except Exn (List Word × DocumentStatus) :=
  match ParseQuery s raw_query with
  | .error e => .error e
  | .ok query =>
    match anyOfPosted s document_id query.minus_words with
    | .error e => .error e
    | .ok true =>
      match s.documents_.atKey document_id with
      | .error e => .error e
      | .ok document_data => .ok ([], document_data.status)
    | .ok false =>
      match copyIfPosted s document_id query.plus_words [] with
      | .error e => .error e
      | .ok matched_words =>
        match s.documents_.atKey document_id with
        | .error e => .error e
        | .ok document_data => .ok (matched_words, document_data.status)

end Matching

/-! ## `request_queue.h` -/

/-- The data members of `RequestQueue` that `AddFindRequest` changes: the deque
`requests_`, front first, each `QueryResult` given by its member `is_empty`, and
the two counters. -/
structure RequestQueue where
  requests_ : List Bool
  current_time_ : Int
  empty_requests_count_ : Int
  deriving DecidableEq

/-- The constant `RequestQueue::sec_in_day_`. -/
def sec_in_day_ : Int := 1440

/-- A new `RequestQueue`, by the default member initialisers of the class: an
empty deque, `current_time_ = 0` and `empty_requests_count_ = 0`. -/
def RequestQueue.init : RequestQueue := ⟨[], 0, 0⟩

section Requests

variable {R : Type} [LinearOrderedField R]

/-- Model of the template `RequestQueue::AddFindRequest(raw_query,
document_predicate)` on the server `search_server_` refers to: the queue after
the call, and the result or the exception of the call.  The predicate is not
passed on: the body calls `FindTopDocuments(raw_query)`, which selects the
documents with the status `ACTUAL`.  The increments and the decrement of the two
`int` counters are reduced by `wrap32`.  For an empty deque, on which `front()`
and `pop_front()` have no defined behaviour, the model leaves the deque and the
counter as they are. -/
def AddFindRequest (ln : R → R) (search_server : Server R) (q : RequestQueue)
    (raw_query : List Char) (_document_predicate : DocumentPredicate) :
    RequestQueue × Except Exn (List (Document R)) :=
  let q1 : RequestQueue := { q with current_time_ := wrap32 (q.current_time_ + 1) }
  let q2 : RequestQueue :=
    if q1.current_time_ > sec_in_day_ then
      { q1 with
        empty_requests_count_ :=
          if q1.requests_.head? = some true then wrap32 (q1.empty_requests_count_ - 1)
          else q1.empty_requests_count_
        requests_ := q1.requests_.tail }
    else q1
  match FindTopDocuments ln search_server raw_query (statusPredicate .ACTUAL) with
  | .error e => (q2, .error e)
  | .ok result =>
    let q3 : RequestQueue :=
      if result.isEmpty then
        { q2 with empty_requests_count_ := wrap32 (q2.empty_requests_count_ + 1) }
      else q2
    ({ q3 with requests_ := q3.requests_ ++ [result.isEmpty] }, .ok result)

end Requests

/-! ## `document.cpp`: equality of documents -/

section DocumentEquality

variable {R : Type} [LinearOrderedField R]

/-- Model of `operator==(const Document&, const Document&)`: equal ids, relevances
less than `1e-6` apart, equal ratings. -/
def Document.equal (lhs rhs : Document R) : Bool :=
  decide (lhs.id = rhs.id) && decide (|lhs.relevance - rhs.relevance| < 1 / 1000000) &&
    decide (lhs.rating = rhs.rating)

/-- Model of `operator==` of two `std::vector<Document>`: the same length and
elements that `operator==` of `Document` identifies. -/
def documentsEqual : List (Document R) → List (Document R) → Bool
  | [], [] => true
  | lhs :: rest1, rhs :: rest2 => Document.equal lhs rhs && documentsEqual rest1 rest2
  | _, _ => false

end DocumentEquality

/-! ## `concurrent_map.h` -/

/-- Modelled from the spec: the class template `ConcurrentMap` of
`concurrent_map.h`, which is not among the sources, at its instance
`ConcurrentMap<int, double>`.  Section 4.3 of the spec gives it `bucket_count`
shards, each an ordered map under a lock of its own.  The locks, which make each
of the operations below indivisible, have no counterpart here. -/
structure ConcurrentMap (R : Type) where
  buckets_ : List (StdMap Int R)

namespace ConcurrentMap

variable {R : Type}

/-- Modelled from the spec: `ConcurrentMap(bucket_count)` creates `bucket_count`
empty shards. -/
def create (bucket_count : Nat) : ConcurrentMap R := ⟨List.replicate bucket_count []⟩

/-- Modelled from the spec: a key is routed to the shard `key mod bucket_count`. -/
def bucketIndex (cm : ConcurrentMap R) (key : Int) : Nat :=
  (key % (cm.buckets_.length : Int)).toNat

/-- Modelled from the spec: `cm[key].ref_to_value += delta`, where the handle
refers to the value of the key in its shard, default-constructed if absent. -/
def addTo [Zero R] [Add R] (cm : ConcurrentMap R) (key : Int) (delta : R) : ConcurrentMap R :=
  ⟨cm.buckets_.set (cm.bucketIndex key)
    ((cm.buckets_.getD (cm.bucketIndex key) []).addTo key delta)⟩

/-- Modelled from the spec: `cm.erase(key)` removes the entry of the key from its
shard, if present. -/
def erase (cm : ConcurrentMap R) (key : Int) : ConcurrentMap R :=
  ⟨cm.buckets_.set (cm.bucketIndex key)
    ((cm.buckets_.getD (cm.bucketIndex key) []).erase key)⟩

/-- Modelled from the spec: `cm.BuildOrdinaryMap()` returns one ordered map that
merges the shards, taken in turn. -/
def BuildOrdinaryMap (cm : ConcurrentMap R) : StdMap Int R :=
  cm.buckets_.foldl
    (fun result bucket => bucket.foldl (fun result entry => result.insert entry.1 entry.2) result)
    []

end ConcurrentMap

/-! ## `search_server.h`: ranking under the parallel policy -/

/-- The ranges `[part_begin, part_end)` of the words that the loop
`for (int i = 0; i < PART_COUNT; ++i, part_begin = part_end, part_end = (i ==
PART_COUNT - 1 ? words.end() : next(part_begin, part_length)))` of the parallel
`FindAllDocuments` gives to the workers it starts, in the order in which it
starts them.  An iterator is given by its distance from `words.begin()`, and
`count` is the number of iterations still to run.  The iterator `part_end` that
the step after the last iteration computes, which lies behind `words.end()` when
`part_length` is positive, is never used. -/
def partsLoop (PART_COUNT part_length : Nat) (words : List Word) :
    Nat → Nat → Nat → Nat → List (List Word)
  | 0, _, _, _ => []
  | count + 1, i, part_begin, part_end =>
    (words.drop part_begin).take (part_end - part_begin) ::
      partsLoop PART_COUNT part_length words count (i + 1) part_end
        (if i + 1 = PART_COUNT - 1 then words.length else part_end + part_length)

/-- The ranges of the `PART_COUNT` workers: `part_length = words.size() /
PART_COUNT`, and the loop starts at `part_begin = words.begin()` and
`part_end = next(part_begin, part_length)`. -/
def parts (PART_COUNT : Nat) (words : List Word) : List (List Word) :=
  partsLoop PART_COUNT (words.length / PART_COUNT) words PART_COUNT 0 0
    (words.length / PART_COUNT)

section ParallelRanking

variable {R : Type} [LinearOrderedField R]

/-- The loop of the function of the plus-word workers over the postings of one
word: `document_to_relevance[document_id].ref_to_value += term_freq *
inverse_document_freq` for the documents that satisfy the predicate. -/
def parPlusPostingsLoop (s : Server R) (document_predicate : DocumentPredicate)
    (inverse_document_freq : R) :
    List (Int × R) → ConcurrentMap R → Except Exn (ConcurrentMap R)
  | [], document_to_relevance => .ok document_to_relevance
  | (document_id, term_freq) :: rest, document_to_relevance =>
    match s.documents_.atKey document_id with
    | .error e => .error e
    | .ok document_data =>
      if document_predicate document_id document_data.status document_data.rating then
        parPlusPostingsLoop s document_predicate inverse_document_freq rest
          (document_to_relevance.addTo document_id (term_freq * inverse_document_freq))
      else
        parPlusPostingsLoop s document_predicate inverse_document_freq rest
          document_to_relevance

/-- The function the plus-word workers apply to a word. -/
def parPlusWord (ln : R → R) (s : Server R) (document_predicate : DocumentPredicate)
    (word : Word) (document_to_relevance : ConcurrentMap R) : Except Exn (ConcurrentMap R) :=
  if s.word_to_document_freqs_.count word ≠ 0 then
    match ComputeWordInverseDocumentFreq ln s word with
    | .error e => .error e
    | .ok inverse_document_freq =>
      match s.word_to_document_freqs_.atKey word with
      | .error e => .error e
      | .ok freqs =>
        parPlusPostingsLoop s document_predicate inverse_document_freq freqs
          document_to_relevance
  else .ok document_to_relevance

/-- A plus-word worker, run to completion: `std::for_each(std::execution::par,
part_begin, part_end, function)`, the words taken in order.  An exception that
leaves the function ends the program by `std::terminate`. -/
def parPlusWorker (ln : R → R) (s : Server R) (document_predicate : DocumentPredicate) :
    List Word → ConcurrentMap R → Except Exn (ConcurrentMap R)
  | [], document_to_relevance => .ok document_to_relevance
  | word :: rest, document_to_relevance =>
    match parPlusWord ln s document_predicate word document_to_relevance with
    | .error _ => .error .terminate
    | .ok document_to_relevance =>
      parPlusWorker ln s document_predicate rest document_to_relevance

/-- The plus-word phase: the 16 workers run to completion one after the other,
in the order `schedule` of their indices. -/
def parPlusPhase (ln : R → R) (s : Server R) (document_predicate : DocumentPredicate)
    (plus_words : List Word) : List Nat → ConcurrentMap R → Except Exn (ConcurrentMap R)
  | [], document_to_relevance => .ok document_to_relevance
  | i :: rest, document_to_relevance =>
    match parPlusWorker ln s document_predicate ((parts 16 plus_words).getD i [])
        document_to_relevance with
    | .error e => .error e
    | .ok document_to_relevance =>
      parPlusPhase ln s document_predicate plus_words rest document_to_relevance

/-- The loop of the function of the minus-word workers over the postings of one
word: `document_to_relevance.erase(document_id)`. -/
def parMinusPostingsLoop : List (Int × R) → ConcurrentMap R → ConcurrentMap R
  | [], document_to_relevance => document_to_relevance
  | (document_id, _) :: rest, document_to_relevance =>
    parMinusPostingsLoop rest (document_to_relevance.erase document_id)

/-- A minus-word worker, run to completion: `std::for_each(part_begin, part_end,
function)`.  An exception of `word_to_document_freqs_.at(word)` would end the
worker and stay in its future, which nobody reads. -/
def parMinusWorker (s : Server R) : List Word → ConcurrentMap R → ConcurrentMap R
  | [], document_to_relevance => document_to_relevance
  | word :: rest, document_to_relevance =>
    if s.word_to_document_freqs_.count word > 0 then
      match s.word_to_document_freqs_.atKey word with
      | .error _ => document_to_relevance
      | .ok freqs => parMinusWorker s rest (parMinusPostingsLoop freqs document_to_relevance)
    else parMinusWorker s rest document_to_relevance

/-- The minus-word phase: the 8 workers run to completion one after the other,
in the order `schedule` of their indices. -/
def parMinusPhase (s : Server R) (minus_words : List Word) :
    List Nat → ConcurrentMap R → ConcurrentMap R
  | [], document_to_relevance => document_to_relevance
  | i :: rest, document_to_relevance =>
    parMinusPhase s minus_words rest
      (parMinusWorker s ((parts 8 minus_words).getD i []) document_to_relevance)

/-- Model of `SearchServer::FindAllDocuments(const std::execution::parallel_policy&,
query, predicate)`.  The workers of a phase run to completion one after the
other: `plus_schedule` is the order of the 16 plus-word workers and
`minus_schedule` that of the 8 minus-word workers, which start when the futures
of the plus-word workers are destroyed, that is when these workers are done. -/
def FindAllDocumentsPar (ln : R → R) (s : Server R) (query : Query)
    (document_predicate : DocumentPredicate) (plus_schedule minus_schedule : List Nat) :
    Except Exn (List (Document R)) :=
  match parPlusPhase ln s document_predicate query.plus_words plus_schedule
      (ConcurrentMap.create 10000) with
  | .error e => .error e
  | .ok document_to_relevance =>
    matchedLoop s
      (parMinusPhase s query.minus_words minus_schedule
        document_to_relevance).BuildOrdinaryMap []

/-- Model of `SearchServer::FindTopDocuments(policy, raw_query, predicate)` with
the parallel policy. -/
def FindTopDocumentsPar (ln : R → R) (s : Server R) (raw_query : List Char)
    (document_predicate : DocumentPredicate) (plus_schedule minus_schedule : List Nat) :
    Except Exn (List (Document R)) :=
  match ParseQuery s raw_query with
  | .error e => .error e
  | .ok query =>
    match FindAllDocumentsPar ln s query document_predicate plus_schedule minus_schedule with
    | .error e => .error e
    | .ok matched_documents =>
      let matched_documents := stdSort documentBefore matched_documents
      if matched_documents.length > MAX_RESULT_DOCUMENT_COUNT then
        .ok (matched_documents.take MAX_RESULT_DOCUMENT_COUNT)
      else .ok matched_documents

end ParallelRanking

/-! ## Vocabulary of the specification -/

/-- A map is well formed when its keys ascend strictly. -/
def StdMap.WF {K V : Type} [LinearOrder K] (m : StdMap K V) : Prop :=
  (StdMap.keys m).Pairwise (· < ·)

/-- A set is well formed when its elements ascend strictly. -/
def StdSet.WF {K : Type} [LinearOrder K] (s : StdSet K) : Prop := s.Pairwise (· < ·)

/-- A list of `2^31 + 1` ratings, each an `int`, whose sum `2^31 - 1` is an `int`. -/
def hugeRatings : List Int := 2147483647 :: List.replicate 2147483648 0

/-- The number of occurrences of `word` in the list `words`. -/
def occurrences : List Word → Word → Nat
  | [], _ => 0
  | w :: rest, word => (if w = word then 1 else 0) + occurrences rest word

section Vocabulary

variable {R : Type} [LinearOrderedField R]

/-- The term frequency posted under `word` for `document_id` in the inverted
index `word_to_document_freqs_`, if there is such a posting. -/
def posting (s : Server R) (word : Word) (document_id : Int) : Option R :=
  (s.word_to_document_freqs_.find word).bind (fun freqs => freqs.find document_id)

/-- The term frequency of `word` in the row of `document_id` of the forward
index `word_frequencies_to_document`, if there is such an entry. -/
def forwardEntry (s : Server R) (document_id : Int) (word : Word) : Option R :=
  (s.word_frequencies_to_document.find document_id).bind (fun row => row.find word)

/-- The document `document_id` is posted under `word`. -/
def posted (s : Server R) (word : Word) (document_id : Int) : Prop :=
  (posting s word document_id).isSome = true

instance (s : Server R) (word : Word) (document_id : Int) :
    Decidable (posted s word document_id) := by unfold posted; infer_instance

/-- The states of a server constructed with the stop words `stop`, after any
sequence of calls of `AddDocument` and `RemoveDocument`, failed calls included.
For a call of `RemoveDocument` that ends in `Exn.undefined` the state is the one
at the undefined read; what the program does from there on is not fixed by the
language, so that for the states after such a call only the facts that concern
no `std::string_view` say something about the program. -/
inductive Reachable (stop : StdSet Word) : Server R → Prop
  | init : Reachable stop (Server.empty stop)
  | add (s : Server R) (document_id : Int) (document : List Char) (status : DocumentStatus)
      (ratings : List Int) :
      Reachable stop s → Reachable stop (AddDocument s document_id document status ratings).state
  | remove (s : Server R) (document_id : Int) :
      Reachable stop s → Reachable stop (RemoveDocument s document_id).state

/-- The states of a server constructed with the stop words `stop`, after any
sequence of calls of `AddDocument`, failed calls included, and of calls of
`RemoveDocument` that return: the states the program reaches with defined
behaviour. -/
inductive ReachableDefined (stop : StdSet Word) : Server R → Prop
  | init : ReachableDefined stop (Server.empty stop)
  | add (s : Server R) (document_id : Int) (document : List Char) (status : DocumentStatus)
      (ratings : List Int) :
      ReachableDefined stop s →
        ReachableDefined stop (AddDocument s document_id document status ratings).state
  | remove (s : Server R) (document_id : Int) :
      ReachableDefined stop s → (RemoveDocument s document_id).thrown = none →
        ReachableDefined stop (RemoveDocument s document_id).state

/-- The invariant of the two indices and the document records: the containers
are sorted, the inverted and the forward index hold the same entries, and every
row of the forward index belongs to a document record. -/
structure IndexInv (s : Server R) : Prop where
  wf_inverted : s.word_to_document_freqs_.WF
  wf_postings : ∀ word freqs, s.word_to_document_freqs_.find word = some freqs → freqs.WF
  wf_forward : s.word_frequencies_to_document.WF
  wf_rows : ∀ document_id row,
    s.word_frequencies_to_document.find document_id = some row → row.WF
  wf_documents : s.documents_.WF
  lockstep : ∀ word document_id, posting s word document_id = forwardEntry s document_id word
  row_has_record : ∀ document_id,
    document_id ∈ s.word_frequencies_to_document.keys → document_id ∈ s.documents_.keys

/-- The invariant of a server between two calls: that of the indices, and the id
set is the sorted key set of the document records. -/
structure Inv (s : Server R) : Prop where
  index : IndexInv s
  wf_ids : StdSet.WF s.document_ids_
  ids_eq_records : ∀ document_id, document_id ∈ s.document_ids_ ↔ document_id ∈ s.documents_.keys

/-- The part of the invariant that concerns the id set and the document records
only: both are sorted and the id set is the key set of the records. -/
structure RecordsInv (s : Server R) : Prop where
  wf_documents : s.documents_.WF
  wf_ids : StdSet.WF s.document_ids_
  ids_eq_records : ∀ document_id, document_id ∈ s.document_ids_ ↔ document_id ∈ s.documents_.keys

/-- No row of the forward index is empty. -/
def RowsNonempty (s : Server R) : Prop :=
  ∀ document_id row, s.word_frequencies_to_document.find document_id = some row → row ≠ []

/-- The words of a text that `SplitIntoWordsNoStop` keeps. -/
def nonStopWords (s : Server R) (text : List Char) : List Word :=
  (SplitIntoWords text).filter (fun w => !IsStopWord s w)

/-- Some word of the text holds a control character (a byte below `0x20`). -/
def hasInvalidWord (text : List Char) : Prop :=
  ∃ w ∈ SplitIntoWords text, ∃ c ∈ w, c.toNat < 32

/-- The record `AddDocument` stores for a document with the non-stop words `words`. -/
def recordOf (words : List Word) (status : DocumentStatus) (ratings : List Int) : DocumentData :=
  ⟨StdSet.ofList words, ComputeAverageRating ratings, status⟩

/-- The server after `documents_.emplace(document_id, data)`. -/
def withRecord (s : Server R) (document_id : Int) (data : DocumentData) : Server R :=
  { s with documents_ := s.documents_.emplace document_id data }

/-- The state in which a successful `AddDocument` leaves the server. -/
def AddDocumentResult (s : Server R) (document_id : Int) (words : List Word)
    (status : DocumentStatus) (ratings : List Int) : Server R :=
  let s2 := words.foldl (AddDocumentStep document_id (1 / (words.length : R)))
    (withRecord s document_id (recordOf words status ratings))
  { s2 with document_ids_ := StdSet.insert document_id s2.document_ids_ }

/-- The term frequency the code stores for `word` in a document whose non-stop
words, in order and with repetitions, are `words`. -/
def termFrequency (R : Type) [LinearOrderedField R] (words : List Word) (word : Word) :
    Option R :=
  if word ∈ words then some ((occurrences words word : R) / (words.length : R)) else none

/-- The document predicate applied to the record of the document; `false` for
an id without a record. -/
def predicateHolds (s : Server R) (document_predicate : DocumentPredicate)
    (document_id : Int) : Bool :=
  match s.documents_.find document_id with
  | some data => document_predicate document_id data.status data.rating
  | none => false

/-- The rating in the record of the document. -/
def ratingOf (s : Server R) (document_id : Int) : Int :=
  match s.documents_.find document_id with
  | some data => data.rating
  | none => 0

/-- The term frequency `tf(word, doc)` of a posting. -/
def termFreq (s : Server R) (word : Word) (document_id : Int) : R :=
  (posting s word document_id).getD 0

/-- The document frequency `df(word)`: the number of postings of the word. -/
def documentFreq (s : Server R) (word : Word) : Nat :=
  (s.word_to_document_freqs_.getD word []).length

/-- The inverse document frequency `ln(N / df(word))` with `N = GetDocumentCount()`. -/
def inverseDocumentFreq (ln : R → R) (s : Server R) (word : Word) : R :=
  ln ((GetDocumentCount s : R) / (documentFreq s word : R))

/-- The sum of `tf(w, doc) * ln(N / df(w))` over the words `w` of the list under
which the document is posted. -/
def relevanceOf (ln : R → R) (s : Server R) (words : List Word) (document_id : Int) : R :=
  ((words.filter (fun w => decide (posted s w document_id))).map
    (fun w => termFreq s w document_id * inverseDocumentFreq ln s w)).sum

/-- The document matches the query: it is posted under a plus word, its record
satisfies the predicate, and it is posted under no minus word. -/
def isMatch (s : Server R) (query : Query) (document_predicate : DocumentPredicate)
    (document_id : Int) : Bool :=
  query.plus_words.any (fun w => decide (posted s w document_id)) &&
    predicateHolds s document_predicate document_id &&
    !(query.minus_words.any (fun w => decide (posted s w document_id)))

/-- The ids of the documents that match the query, in ascending order. -/
def matchingIds (s : Server R) (query : Query) (document_predicate : DocumentPredicate) :
    List Int :=
  s.documents_.keys.filter (isMatch s query document_predicate)

/-- The order the result of `FindTopDocuments` is claimed to have: `a` may stand
before `b` when its relevance is greater by at least `1e-6`, or the relevances
differ by less than `1e-6` and its rating is not smaller. -/
def inOrder (a b : Document R) : Prop :=
  (a.relevance > b.relevance ∧ |a.relevance - b.relevance| ≥ 1 / 1000000) ∨
    (|a.relevance - b.relevance| < 1 / 1000000 ∧ a.rating ≥ b.rating)

end Vocabulary

/-! ### The corpus of scenario S1, over the rationals -/

/-- The stop words of scenario S1. -/
def stopWordsS1 : StdSet Word := ["в".toList, "и".toList, "на".toList]

/-- Scenario S1 after the first document. -/
def corpusS1a : Server ℚ :=
  (AddDocument (Server.empty stopWordsS1) 1 "белый кот и модный ошейник".toList
    .ACTUAL [8, -3]).state

/-- Scenario S1 after the second document. -/
def corpusS1b : Server ℚ :=
  (AddDocument corpusS1a 2 "пушистый кот пушистый хвост".toList .ACTUAL [7, 2, 7]).state

/-- Scenario S1: the three documents. -/
def corpusS1 : Server ℚ :=
  (AddDocument corpusS1b 3 "ухоженный пёс выразительные глаза".toList
    .ACTUAL [5, -12, 2, 1]).state

set_option linter.unusedSectionVars false

/-- A server with the stop words of scenario S1 and one document, 1, whose text
holds stop words only. -/
def wordlessCorpus : Server ℚ :=
  (AddDocument (Server.empty stopWordsS1) 1 "в и на".toList .ACTUAL [5]).state

/-- The query of scenario S2, `пушистый ухоженный -кот`, parsed. -/
def queryS2 : Query := ⟨["пушистый".toList, "ухоженный".toList], ["кот".toList]⟩

/-- The query of scenario S1, `пушистый ухоженный кот`, parsed. -/
def queryS1 : Query := ⟨["кот".toList, "пушистый".toList, "ухоженный".toList], []⟩

/-- The query `кот хвост`, parsed. -/
def queryCatTail : Query := ⟨["кот".toList, "хвост".toList], []⟩

/-- The query `ухоженный хвост -кот`, parsed. -/
def queryGroomedTail : Query := ⟨["ухоженный".toList, "хвост".toList], ["кот".toList]⟩

/-- The query `ухоженный кот хвост`, parsed. -/
def queryGroomedCatTail : Query :=
  ⟨["кот".toList, "ухоженный".toList, "хвост".toList], []⟩

/-- The state in which the call `RemoveDocument(2)` on the corpus of scenario S1
ends. -/
def corpusS1Removed : Server ℚ := (RemoveDocument corpusS1 2).state

/-- The corpus of scenario S1 after `AddDocument(4, "кот попугай", ACTUAL, {1})`. -/
def corpusS1Parrot : Server ℚ :=
  (AddDocument corpusS1 4 "кот попугай".toList .ACTUAL [1]).state

/-! ### A corpus with relevances less than `1e-6` apart -/

/-- The characters of `n` words `x`, each after a space. -/
def padding : Nat → List Char
  | 0 => []
  | n + 1 => SPACE :: 'x' :: padding n

/-- The text `w x x ... x`: the word `w` followed by `n` words `x`. -/
def tieText (n : Nat) : List Char := 'w' :: padding n

/-- The state of the server after the call `AddDocument(document_id, document,
status, ratings)`. -/
def afterAdd {R : Type} [LinearOrderedField R] (s : Server R) (document_id : Int)
    (document : List Char) (status : DocumentStatus) (ratings : List Int) : Server R :=
  (AddDocument s document_id document status ratings).state

/-- A server without stop words and with document 1: the word `w` followed by 651
words `x`, rating 3. -/
def tieCorpus1 (R : Type) [LinearOrderedField R] : Server R :=
  afterAdd (Server.empty []) 1 (tieText 651) .ACTUAL [3]

/-- The server with document 2 added: `w` followed by 650 words `x`, rating 2. -/
def tieCorpus2 (R : Type) [LinearOrderedField R] : Server R :=
  afterAdd (tieCorpus1 R) 2 (tieText 650) .ACTUAL [2]

/-- The server with document 3 added: `w` followed by 649 words `x`, rating 1. -/
def tieCorpus3 (R : Type) [LinearOrderedField R] : Server R :=
  afterAdd (tieCorpus2 R) 3 (tieText 649) .ACTUAL [1]

/-- The corpus with near-tied relevances: the three documents with `w`, and
document 4 with an empty text. -/
def tieCorpus (R : Type) [LinearOrderedField R] : Server R :=
  afterAdd (tieCorpus3 R) 4 [] .ACTUAL []

/-- The query `w`, parsed. -/
def queryW : Query := ⟨[['w']], []⟩

/-- The predicate that accepts every document. -/
def anyDocument : DocumentPredicate := fun _ _ _ => true

/-! ### A corpus of `n` documents -/

/-- A server without stop words after the calls `AddDocument(k, "", ACTUAL, {})`
for `k = 0, ..., n - 1`. -/
def manyDocuments (R : Type) [LinearOrderedField R] : Nat → Server R
  | 0 => Server.empty []
  | n + 1 => afterAdd (manyDocuments R n) (n : Int) [] .ACTUAL []

/-- The way in which a call ends without returning; `none` for a call that
returns. -/
def raised {α : Type} : Except Exn α → Option Exn
  | .ok _ => none
  | .error e => some e

/-- The ids of the documents a call returns, in the order of the result; `none`
for a call that throws. -/
def returnedIds {R : Type} : Except Exn (List (Document R)) → Option (List Int)
  | .ok documents => some (documents.map Document.id)
  | .error _ => none

/-! ### The tokens of a query -/

/-- The token begins with a minus sign. -/
def isMinusToken (token : Word) : Bool := decide (token.head? = some MINUS)

/-- The body of a token of a query: the token without its leading minus sign, if
it has one. -/
def tokenBody (token : Word) : Word :=
  if isMinusToken token then token.tail else token

/-- The token makes `ParseQuery` fail: it is empty, it is the minus sign alone,
its body begins with a minus sign, or its body holds a control character (a byte
below `0x20`). -/
def badToken (token : Word) : Prop :=
  token = [] ∨ token = [MINUS] ∨ (tokenBody token).head? = some MINUS ∨
    ∃ c ∈ tokenBody token, c.toNat < 32

instance (token : Word) : Decidable (badToken token) := by
  unfold badToken
  infer_instance

/-- The words of the list joined by single spaces. -/
def joinWords : List Word → List Char
  | [] => []
  | [w] => w
  | w :: rest => w ++ SPACE :: joinWords rest

/-- The serialisation of a query: its plus words, then its minus words, each
after a minus sign, joined by single spaces. -/
def serialize (query : Query) : List Char :=
  joinWords (query.plus_words ++ query.minus_words.map (fun w => MINUS :: w))

/-! ### Sequences of calls of `AddFindRequest` -/

/-- A call `AddFindRequest(raw_query, document_predicate)`, with the state the
server of the queue has at the time of the call. -/
structure FindRequest (R : Type) where
  server : Server R
  raw_query : List Char
  document_predicate : DocumentPredicate

/-- The queue after the calls of the list, made in order, and for each call
whether the list it returned was empty; `none`, with the queue at that point,
when a call throws. -/
def runRequests {R : Type} [LinearOrderedField R] (ln : R → R) (q : RequestQueue) :
    List (FindRequest R) → RequestQueue × Option (List Bool)
  | [] => (q, some [])
  | call :: rest =>
    match AddFindRequest ln call.server q call.raw_query call.document_predicate with
    | (q1, .error _) => (q1, none)
    | (q1, .ok result) =>
      match runRequests ln q1 rest with
      | (q2, some flags) => (q2, some (result.isEmpty :: flags))
      | (q2, none) => (q2, none)

/-- The query `собака`, which no document of scenario S1 matches. -/
def emptyCall : FindRequest ℚ := ⟨corpusS1, "собака".toList, anyDocument⟩

/-- The query `кот`, which documents of scenario S1 match. -/
def fullCall : FindRequest ℚ := ⟨corpusS1, "кот".toList, anyDocument⟩

/-- The calls of scenario S5: 1439 queries without a result, one with a result,
and one more without. -/
def callsS5 : List (FindRequest ℚ) := List.replicate 1439 emptyCall ++ [fullCall, emptyCall]

/-- A call on a server without documents. -/
def idleCall : FindRequest ℚ := ⟨Server.empty [], "a".toList, anyDocument⟩

/-- The state of a `RequestQueue` after calls that returned, `history` telling
for each of them in order whether its result was empty: the time is the number
of calls, the deque holds the last 1440 entries of the history, and the counter
is the number of empty results in the deque. -/
def windowInv (q : RequestQueue) (history : List Bool) : Prop :=
  q.current_time_ = (history.length : Int) ∧
  q.requests_ = history.drop (history.length - 1440) ∧
  q.empty_requests_count_ = (q.requests_.count true : Int)

/-! ### The content of a sharded map -/

/-- The value a sharded map holds for a key: the one in the shard of the key. -/
def ConcurrentMap.lookup {R : Type} (cm : ConcurrentMap R) (key : Int) : Option R :=
  (cm.buckets_.getD (cm.bucketIndex key) []).find key

/-- A sharded map is well formed when it has a shard, every shard is sorted, and
every key is in the shard it is routed to. -/
def ConcurrentMap.WF {R : Type} (cm : ConcurrentMap R) : Prop :=
  0 < cm.buckets_.length ∧
  ∀ i, StdMap.WF (cm.buckets_.getD i []) ∧
    ∀ key ∈ StdMap.keys (cm.buckets_.getD i []), cm.bucketIndex key = i

/-! ### The pieces of a text -/

/-- The pieces into which the spaces cut a text: the runs of characters between
two neighbouring spaces, before the first space and after the last one, the
empty ones included. -/
def pieces : List Char → List Word
  | [] => [[]]
  | c :: rest =>
    if c = SPACE then [] :: pieces rest
    else
      match pieces rest with
      | [] => [[c]]
      | piece :: others => (c :: piece) :: others

/-- The text has an empty piece: it is empty, begins with a space, ends with a
space, or has two spaces in a row. -/
def hasEmptyPiece (text : List Char) : Prop :=
  text = [] ∨ text.head? = some SPACE ∨ text.getLast? = some SPACE ∨
    ∃ a b, text = a ++ SPACE :: SPACE :: b

/-! ## Facts about the container models -/

namespace StdMap

variable {K V : Type}

theorem find_isSome_iff [LinearOrder K] (m : StdMap K V) (k : K) :
    (m.find k).isSome = true ↔ k ∈ keys m := by
  induction m with
  | nil => simp [find, keys]
  | cons e rest ih =>
    obtain ⟨k', v⟩ := e
    by_cases h : k' = k
    · simp [find, keys, h]
    · have h2 : ¬ k = k' := fun h3 => h h3.symm
      simp only [find, h, if_false, ih, keys, List.map_cons, List.mem_cons, h2, false_or]

theorem find_eq_none_iff [LinearOrder K] (m : StdMap K V) (k : K) :
    m.find k = none ↔ k ∉ keys m := by
  rw [← find_isSome_iff]
  cases m.find k <;> simp

theorem mem_of_find [LinearOrder K] {m : StdMap K V} {k : K} {v : V}
    (h : m.find k = some v) : (k, v) ∈ m := by
  induction m with
  | nil => simp [find] at h
  | cons e rest ih =>
    obtain ⟨k', v'⟩ := e
    by_cases hk : k' = k
    · simp only [find, hk, if_true, Option.some.injEq] at h
      simp [hk, h]
    · simp only [find, hk, if_false] at h
      exact List.mem_cons_of_mem _ (ih h)

theorem find_of_mem [LinearOrder K] {m : StdMap K V} (hm : m.WF) {k : K} {v : V}
    (h : (k, v) ∈ m) : m.find k = some v := by
  induction m with
  | nil => simp at h
  | cons e rest ih =>
    obtain ⟨k', v'⟩ := e
    simp only [WF, keys, List.map_cons, List.pairwise_cons] at hm
    rcases List.mem_cons.mp h with h1 | h1
    · simp only [Prod.mk.injEq] at h1
      simp [find, h1.1, h1.2]
    · have hlt : k' < k := hm.1 k (List.mem_map.mpr ⟨(k, v), h1, rfl⟩)
      simp only [find, ne_of_lt hlt, if_false]
      exact ih hm.2 h1

theorem find_insert [LinearOrder K] (m : StdMap K V) (k k' : K) (v : V) :
    (m.insert k v).find k' = if k = k' then some v else m.find k' := by
  induction m with
  | nil => simp [insert, find]
  | cons e rest ih =>
    obtain ⟨k₀, v₀⟩ := e
    simp only [insert]
    by_cases h1 : k < k₀
    · simp only [h1, if_true, find]
    · simp only [h1, if_false]
      by_cases h2 : k = k₀
      · subst h2
        simp only [if_true, find]
        by_cases h3 : k = k' <;> simp [h3]
      · simp only [h2, if_false, find, ih]
        by_cases h3 : k₀ = k'
        · subst h3
          simp [h2]
        · simp [h3]

theorem find_erase [LinearOrder K] (m : StdMap K V) (k k' : K) :
    (m.erase k).find k' = if k' = k then none else m.find k' := by
  induction m with
  | nil => simp [erase, find]
  | cons e rest ih =>
    obtain ⟨k₀, v₀⟩ := e
    simp only [erase] at ih
    by_cases h1 : k₀ = k
    · subst h1
      simp only [erase, List.filter, ne_eq, not_true_eq_false, decide_False, find, ih]
      by_cases h2 : k' = k₀
      · simp [h2]
      · have : ¬ k₀ = k' := fun h => h2 h.symm
        simp [h2, this]
    · simp only [erase, List.filter, ne_eq, h1, not_false_eq_true, decide_True, find, ih]
      by_cases h2 : k₀ = k'
      · subst h2
        simp [h1]
      · simp [h2]

theorem keys_insert [LinearOrder K] (m : StdMap K V) (k k' : K) (v : V) :
    k' ∈ keys (m.insert k v) ↔ k' = k ∨ k' ∈ keys m := by
  rw [← find_isSome_iff, ← find_isSome_iff, find_insert]
  by_cases h : k = k'
  · simp [h]
  · have : ¬ k' = k := fun h2 => h h2.symm
    simp [h, this]

theorem wf_insert [LinearOrder K] {m : StdMap K V} (hm : m.WF) (k : K) (v : V) :
    (m.insert k v).WF := by
  induction m with
  | nil => simp [insert, WF, keys]
  | cons e rest ih =>
    obtain ⟨k₀, v₀⟩ := e
    have hm' := hm
    simp only [WF, keys, List.map_cons, List.pairwise_cons] at hm
    simp only [insert]
    by_cases h1 : k < k₀
    · simp only [h1, if_true, WF, keys, List.map_cons, List.pairwise_cons, List.mem_cons]
      refine ⟨?_, hm⟩
      intro a ha
      rcases ha with ha | ha
      · exact ha ▸ h1
      · exact lt_trans h1 (hm.1 a ha)
    · simp only [h1, if_false]
      by_cases h2 : k = k₀
      · subst h2
        simpa [WF, keys] using hm
      · simp only [h2, if_false]
        have h3 : k₀ < k := lt_of_le_of_ne (not_lt.mp h1) (fun h => h2 h.symm)
        have ih' := ih hm.2
        simp only [WF, keys, List.map_cons, List.pairwise_cons]
        refine ⟨?_, ih'⟩
        intro a ha
        rcases (keys_insert rest k a v).mp ha with ha | ha
        · exact ha ▸ h3
        · exact hm.1 a ha

theorem wf_erase [LinearOrder K] {m : StdMap K V} (hm : m.WF) (k : K) : (m.erase k).WF := by
  unfold WF keys erase at *
  exact hm.sublist ((List.filter_sublist m).map Prod.fst)

theorem keys_erase [LinearOrder K] (m : StdMap K V) (k k' : K) :
    k' ∈ keys (m.erase k) ↔ k' ≠ k ∧ k' ∈ keys m := by
  rw [← find_isSome_iff, ← find_isSome_iff, find_erase]
  by_cases h : k' = k <;> simp [h]

theorem wf_nodup [LinearOrder K] {m : StdMap K V} (hm : m.WF) : (keys m).Nodup :=
  hm.imp (fun h => ne_of_lt h)

end StdMap

namespace StdSet

variable {K : Type}

theorem mem_insert [LinearOrder K] (s : StdSet K) (k x : K) :
    x ∈ insert k s ↔ x = k ∨ x ∈ s := by
  induction s with
  | nil => simp [insert]
  | cons k₀ rest ih =>
    simp only [insert]
    by_cases h1 : k < k₀
    · simp [h1]
    · simp only [h1, if_false]
      by_cases h2 : k = k₀
      · subst h2
        simp
      · simp only [h2, if_false, List.mem_cons, ih]
        tauto

theorem wf_setInsert [LinearOrder K] {s : StdSet K} (hs : WF s) (k : K) : WF (insert k s) := by
  induction s with
  | nil => simp [insert, WF]
  | cons k₀ rest ih =>
    have hs' := hs
    simp only [WF, List.pairwise_cons] at hs
    simp only [insert]
    by_cases h1 : k < k₀
    · simp only [h1, if_true, WF, List.pairwise_cons, List.mem_cons]
      refine ⟨?_, hs⟩
      intro a ha
      rcases ha with ha | ha
      · exact ha ▸ h1
      · exact lt_trans h1 (hs.1 a ha)
    · simp only [h1, if_false]
      by_cases h2 : k = k₀
      · subst h2
        simpa [WF] using hs
      · simp only [h2, if_false]
        have h3 : k₀ < k := lt_of_le_of_ne (not_lt.mp h1) (fun h => h2 h.symm)
        simp only [WF, List.pairwise_cons]
        refine ⟨?_, ih hs.2⟩
        intro a ha
        rcases (mem_insert rest k a).mp ha with ha | ha
        · exact ha ▸ h3
        · exact hs.1 a ha

theorem mem_erase [DecidableEq K] (s : StdSet K) (k x : K) :
    x ∈ erase s k ↔ x ≠ k ∧ x ∈ s := by
  simp [erase, and_comm]

theorem wf_setErase [LinearOrder K] {s : StdSet K} (hs : WF s) (k : K) : WF (erase s k) := by
  unfold WF erase at *
  exact hs.sublist (List.filter_sublist s)

theorem ofList_aux [LinearOrder K] (l : List K) (acc : StdSet K) (hacc : WF acc) :
    WF (l.foldl (fun acc k => insert k acc) acc) ∧
      ∀ x, x ∈ l.foldl (fun acc k => insert k acc) acc ↔ x ∈ l ∨ x ∈ acc := by
  induction l generalizing acc with
  | nil => simp [hacc]
  | cons a rest ih =>
    obtain ⟨h1, h2⟩ := ih (insert a acc) (wf_setInsert hacc a)
    refine ⟨h1, ?_⟩
    intro x
    simp only [List.foldl_cons, h2, mem_insert, List.mem_cons]
    tauto

theorem wf_ofList [LinearOrder K] (l : List K) : WF (ofList l) :=
  (ofList_aux l [] (by simp [WF])).1

theorem mem_ofList [LinearOrder K] (l : List K) (x : K) : x ∈ ofList l ↔ x ∈ l := by
  have := (ofList_aux l [] (by simp [WF])).2 x
  simpa [ofList] using this

end StdSet

/-! ## The tokenizer of the query parser never runs out of iterations -/

theorem findSpace_lt (str : List Char) (n : Nat) (h : findSpace str = some n) :
    n < str.length := by
  induction str generalizing n with
  | nil => simp [findSpace] at h
  | cons c rest ih =>
    unfold findSpace at h
    by_cases hc : c = SPACE
    · rw [if_pos hc] at h
      have : n = 0 := by simpa using h.symm
      rw [this]
      simp
    · rw [if_neg hc] at h
      cases hf : findSpace rest with
      | none => rw [hf] at h; simp at h
      | some m =>
        rw [hf] at h
        have : n = m + 1 := by simpa using h.symm
        rw [this, List.length_cons]
        exact Nat.succ_lt_succ (ih m hf)

theorem SplitIntoWordsViewLoop_fuel_irrelevant (fuel1 fuel2 : Nat) (str : List Char)
    (result : StdSet Word) (h1 : str.length < fuel1) (h2 : str.length < fuel2) :
    SplitIntoWordsViewLoop fuel1 str result = SplitIntoWordsViewLoop fuel2 str result := by
  induction fuel1 generalizing fuel2 str result with
  | zero => omega
  | succ f1 ih =>
    cases fuel2 with
    | zero => omega
    | succ f2 =>
      simp only [SplitIntoWordsViewLoop]
      cases hf : findSpace str with
      | none => rfl
      | some n =>
        have hn := findSpace_lt str n hf
        have hlen : (str.drop (n + 1)).length < str.length := by
          rw [List.length_drop]
          omega
        exact ih f2 (str.drop (n + 1)) _ (by omega) (by omega)

/-- Every number of iterations above the length of the text gives the result of
`SplitIntoWordsView`: its bound `str.length + 1` is not reached before the loop
ends at its `break`. -/
theorem SplitIntoWordsView_fuel (fuel : Nat) (str : List Char) (h : str.length < fuel) :
    SplitIntoWordsViewLoop fuel str [] = SplitIntoWordsView str :=
  SplitIntoWordsViewLoop_fuel_irrelevant fuel (str.length + 1) str [] h (Nat.lt_succ_self _)

/-! ## The average rating (`ComputeAverageRating`) -/

theorem wrap32_of_isInt32 {x : Int} (h : isInt32 x) : wrap32 x = x := by
  unfold wrap32
  unfold isInt32 at h
  omega

theorem wrap32_add_wrap32 (a r : Int) : wrap32 (wrap32 a + r) = wrap32 (a + r) := by
  unfold wrap32
  omega

theorem ratingSum_wrap32 (ratings : List Int) (a : Int) :
    ratingSum ratings (wrap32 a) = wrap32 (a + ratings.sum) := by
  induction ratings generalizing a with
  | nil => simp [ratingSum]
  | cons r rest ih =>
    simp only [ratingSum, wrap32_add_wrap32, ih, List.sum_cons, add_assoc]

theorem ratingSum_zero (ratings : List Int) : ratingSum ratings 0 = wrap32 ratings.sum := by
  have h := ratingSum_wrap32 ratings 0
  have h0 : wrap32 0 = 0 := by decide
  rw [h0] at h
  simpa using h

/-- Claim C9, amended: for a list of fewer than `2^31` ratings whose sum is in the
range of a 32-bit `int`, `ComputeAverageRating` is `0` for the empty list and
otherwise the sum divided by the number of ratings, truncated toward zero. -/
theorem ComputeAverageRating_spec (ratings : List Int) (hsum : isInt32 ratings.sum)
    (hlen : ratings.length < 2147483648) :
    ComputeAverageRating ratings =
      if ratings = [] then 0 else Int.tdiv ratings.sum (ratings.length : Int) := by
  unfold ComputeAverageRating
  by_cases h : ratings = []
  · simp [h]
  · simp only [h, if_false]
    rw [ratingSum_zero, wrap32_of_isInt32 hsum, wrap32_of_isInt32]
    unfold isInt32
    omega

/-- Claim C9, the witnesses of scenario S1: the ratings `[8, -3]` give `2` and
`[5, -12, 2, 1]` give `-1`. -/
theorem ComputeAverageRating_spec_witness :
    ComputeAverageRating [8, -3] = 2 ∧ ComputeAverageRating [5, -12, 2, 1] = -1 :=
  ⟨(ComputeAverageRating_spec [8, -3] (by decide) (by decide)).trans (by decide),
   (ComputeAverageRating_spec [5, -12, 2, 1] (by decide) (by decide)).trans (by decide)⟩

/-- Claim C9 as stated fails for a list of `2^31 + 1` ratings: every rating and the
sum are in the range of `int`, the truncated mean is `0`, and the code, which
divides by the size cast to `int` (here `-(2^31 - 1)`), returns `-1`. -/
theorem ComputeAverageRating_huge_counterexample :
    (∀ r ∈ hugeRatings, isInt32 r) ∧ isInt32 hugeRatings.sum ∧
      Int.tdiv hugeRatings.sum (hugeRatings.length : Int) = 0 ∧
      ComputeAverageRating hugeRatings = -1 := by
  have hsum : hugeRatings.sum = 2147483647 := by
    unfold hugeRatings
    rw [List.sum_cons, List.sum_replicate, smul_zero, add_zero]
  have hlen : (hugeRatings.length : Int) = 2147483649 := by
    unfold hugeRatings
    rw [List.length_cons, List.length_replicate]
    rfl
  have hne : hugeRatings ≠ [] := List.cons_ne_nil _ _
  refine ⟨?_, ?_, ?_, ?_⟩
  · intro r hr
    unfold hugeRatings at hr
    rcases List.mem_cons.mp hr with hr | hr
    · rw [hr]; decide
    · rw [(List.mem_replicate.mp hr).2]; decide
  · rw [hsum]; decide
  · rw [hsum, hlen]; decide
  · unfold ComputeAverageRating
    simp only [hne, if_false]
    rw [ratingSum_zero, hsum, hlen]
    decide

/-! ## Postings, forward entries and the states a server can reach -/

section Index

variable {R : Type} [LinearOrderedField R]

theorem StdMap.find_addTo {K V : Type} [LinearOrder K] [Zero V] [Add V] (m : StdMap K V)
    (k k' : K) (c : V) :
    (m.addTo k c).find k' = if k = k' then some ((m.find k).getD 0 + c) else m.find k' := by
  simp only [StdMap.addTo, StdMap.find_insert, StdMap.getD]

theorem StdMap.wf_addTo {K V : Type} [LinearOrder K] [Zero V] [Add V] {m : StdMap K V}
    (hm : m.WF) (k : K) (c : V) : (m.addTo k c).WF :=
  StdMap.wf_insert hm k _

theorem StdMap.wf_nil {K V : Type} [LinearOrder K] : StdMap.WF ([] : StdMap K V) := by
  simp [StdMap.WF, StdMap.keys]

theorem StdMap.find_getD_nil {K K2 V : Type} [LinearOrder K] [LinearOrder K2]
    (m : StdMap K (StdMap K2 V)) (k : K) (k2 : K2) :
    (m.getD k []).find k2 = (m.find k).bind (fun inner => inner.find k2) := by
  unfold StdMap.getD
  cases m.find k <;> simp [StdMap.find]

theorem posting_AddDocumentStep (s : Server R) (document_id : Int) (c : R) (word w : Word)
    (i : Int) :
    posting (AddDocumentStep document_id c s word) w i =
      if w = word ∧ i = document_id then some ((posting s word document_id).getD 0 + c)
      else posting s w i := by
  simp only [posting, AddDocumentStep, StdMap.find_insert]
  by_cases h1 : word = w
  · subst h1
    simp only [if_true, Option.some_bind, StdMap.find_addTo, true_and, StdMap.find_getD_nil]
    by_cases h2 : document_id = i
    · subst h2
      simp
    · have h3 : ¬ i = document_id := fun h => h2 h.symm
      simp only [h2, h3, if_false]
  · have h3 : ¬ w = word := fun h => h1 h.symm
    simp [h1, h3]

theorem forwardEntry_AddDocumentStep (s : Server R) (document_id : Int) (c : R) (word w : Word)
    (i : Int) :
    forwardEntry (AddDocumentStep document_id c s word) i w =
      if w = word ∧ i = document_id then some ((forwardEntry s document_id word).getD 0 + c)
      else forwardEntry s i w := by
  simp only [forwardEntry, AddDocumentStep, StdMap.find_insert]
  by_cases h1 : document_id = i
  · subst h1
    simp only [if_true, Option.some_bind, StdMap.find_addTo, and_true, StdMap.find_getD_nil]
    by_cases h2 : word = w
    · subst h2
      simp
    · have h3 : ¬ w = word := fun h => h2 h.symm
      simp only [h2, h3, if_false]
  · have h3 : ¬ i = document_id := fun h => h1 h.symm
    simp [h1, h3]

end Index

/-! ## `AddDocument` keeps the invariant -/

section AddDocumentFacts

variable {R : Type} [LinearOrderedField R]

theorem AddDocumentStep_documents (s : Server R) (document_id : Int) (c : R) (word : Word) :
    (AddDocumentStep document_id c s word).documents_ = s.documents_ ∧
    (AddDocumentStep document_id c s word).document_ids_ = s.document_ids_ ∧
    (AddDocumentStep document_id c s word).stop_words_ = s.stop_words_ :=
  ⟨rfl, rfl, rfl⟩

theorem AddDocumentStep_indexInv {s : Server R} (h : IndexInv s) (document_id : Int) (c : R)
    (word : Word) (hid : document_id ∈ s.documents_.keys) :
    IndexInv (AddDocumentStep document_id c s word) where
  wf_inverted := StdMap.wf_insert h.wf_inverted _ _
  wf_postings := by
    intro w freqs hw
    simp only [AddDocumentStep, StdMap.find_insert] at hw
    by_cases h1 : word = w
    · simp only [h1, if_true, Option.some.injEq] at hw
      rw [← hw]
      apply StdMap.wf_addTo
      unfold StdMap.getD
      cases hf : s.word_to_document_freqs_.find w with
      | none => exact StdMap.wf_nil
      | some freqs0 => exact h.wf_postings w freqs0 hf
    · simp only [h1, if_false] at hw
      exact h.wf_postings w freqs hw
  wf_forward := StdMap.wf_insert h.wf_forward _ _
  wf_rows := by
    intro i row hi
    simp only [AddDocumentStep, StdMap.find_insert] at hi
    by_cases h1 : document_id = i
    · simp only [h1, if_true, Option.some.injEq] at hi
      rw [← hi]
      apply StdMap.wf_addTo
      unfold StdMap.getD
      cases hf : s.word_frequencies_to_document.find i with
      | none => exact StdMap.wf_nil
      | some row0 => exact h.wf_rows i row0 hf
    · simp only [h1, if_false] at hi
      exact h.wf_rows i row hi
  wf_documents := h.wf_documents
  lockstep := by
    intro w i
    rw [posting_AddDocumentStep, forwardEntry_AddDocumentStep, h.lockstep, h.lockstep]
  row_has_record := by
    intro i hi
    simp only [AddDocumentStep] at hi ⊢
    rcases (StdMap.keys_insert _ _ _ _).mp hi with h1 | h1
    · exact h1 ▸ hid
    · exact h.row_has_record i h1

theorem AddDocument_loop_fields (words : List Word) (s : Server R) (document_id : Int) (c : R) :
    (words.foldl (AddDocumentStep document_id c) s).documents_ = s.documents_ ∧
    (words.foldl (AddDocumentStep document_id c) s).document_ids_ = s.document_ids_ ∧
    (words.foldl (AddDocumentStep document_id c) s).stop_words_ = s.stop_words_ := by
  induction words generalizing s with
  | nil => exact ⟨rfl, rfl, rfl⟩
  | cons w rest ih =>
    simp only [List.foldl_cons]
    obtain ⟨h1, h2, h3⟩ := ih (AddDocumentStep document_id c s w)
    exact ⟨h1, h2, h3⟩

theorem AddDocument_loop_indexInv (words : List Word) {s : Server R} (h : IndexInv s)
    (document_id : Int) (c : R) (hid : document_id ∈ s.documents_.keys) :
    IndexInv (words.foldl (AddDocumentStep document_id c) s) := by
  induction words generalizing s with
  | nil => exact h
  | cons w rest ih =>
    simp only [List.foldl_cons]
    exact ih (AddDocumentStep_indexInv h document_id c w hid) hid

theorem occurrences_eq_zero {words : List Word} {word : Word} (h : word ∉ words) :
    occurrences words word = 0 := by
  induction words with
  | nil => rfl
  | cons w rest ih =>
    have h1 : ¬ w = word := fun h2 => h (h2 ▸ List.mem_cons_self _ _)
    have h2 : word ∉ rest := fun h3 => h (List.mem_cons_of_mem _ h3)
    simp [occurrences, h1, ih h2]

theorem occurrences_of_nodup {words : List Word} {word : Word} (hn : words.Nodup)
    (h : word ∈ words) : occurrences words word = 1 := by
  induction words with
  | nil => simp at h
  | cons w rest ih =>
    rw [List.nodup_cons] at hn
    by_cases h1 : w = word
    · subst h1
      simp [occurrences, occurrences_eq_zero hn.1]
    · have h2 : word ∈ rest := by
        rcases List.mem_cons.mp h with h3 | h3
        · exact absurd h3.symm h1
        · exact h3
      simp [occurrences, h1, ih hn.2 h2]

/-- The postings after the loop of `AddDocument`: the document gets, under each
of its words, the former value plus `inv_word_count` for every occurrence. -/
theorem posting_AddDocument_loop (words : List Word) (s : Server R) (document_id : Int) (c : R)
    (w : Word) (i : Int) :
    posting (words.foldl (AddDocumentStep document_id c) s) w i =
      if i = document_id ∧ w ∈ words then
        some ((posting s w document_id).getD 0 + (occurrences words w : R) * c)
      else posting s w i := by
  induction words generalizing s with
  | nil => simp
  | cons w0 rest ih =>
    simp only [List.foldl_cons, ih, posting_AddDocumentStep]
    by_cases h1 : i = document_id
    · subst h1
      by_cases h2 : w = w0
      · subst h2
        have hc : occurrences (w :: rest) w = occurrences rest w + 1 := by
          simp [occurrences, add_comm]
        by_cases h3 : w ∈ rest
        · simp only [h3, and_self, if_true, Option.getD_some, true_and,
            List.mem_cons, true_or, hc, Nat.cast_add, Nat.cast_one, Option.some.injEq]
          ring
        · have h0 : occurrences rest w = 0 := occurrences_eq_zero h3
          simp [h3, hc, h0]
      · have h2' : ¬ w0 = w := fun h => h2 h.symm
        have hc : occurrences (w0 :: rest) w = occurrences rest w := by
          simp [occurrences, h2']
        by_cases h3 : w ∈ rest
        · simp [h2, h2', h3, hc]
        · simp [h2, h2', h3]
    · simp [h1]

end AddDocumentFacts

/-! ## The outcome of `AddDocument` -/

section AddDocumentOutcome

variable {R : Type} [LinearOrderedField R]

theorem StdMap.keys_emplace {K V : Type} [LinearOrder K] (m : StdMap K V) (k k' : K) (v : V) :
    k' ∈ StdMap.keys (m.emplace k v) ↔ k' = k ∨ k' ∈ StdMap.keys m := by
  unfold StdMap.emplace
  by_cases h : (m.find k).isSome = true
  · simp only [h, if_true]
    have hk := (StdMap.find_isSome_iff m k).mp h
    constructor
    · exact fun h1 => Or.inr h1
    · rintro (h1 | h1)
      · exact h1 ▸ hk
      · exact h1
  · simp only [h, if_false]
    exact StdMap.keys_insert m k k' v

theorem StdMap.wf_emplace {K V : Type} [LinearOrder K] {m : StdMap K V} (hm : m.WF) (k : K)
    (v : V) : (m.emplace k v).WF := by
  unfold StdMap.emplace
  by_cases h : (m.find k).isSome = true
  · simpa only [h, if_true] using hm
  · simpa only [h, if_false] using StdMap.wf_insert hm k v

theorem StdMap.find_emplace {K V : Type} [LinearOrder K] (m : StdMap K V) (k k' : K) (v : V)
    (hk : k ∉ StdMap.keys m) :
    (m.emplace k v).find k' = if k = k' then some v else m.find k' := by
  unfold StdMap.emplace
  have h : ¬ (m.find k).isSome = true := fun h => hk ((StdMap.find_isSome_iff m k).mp h)
  rw [if_neg h, StdMap.find_insert]

theorem StdMap.count_pos_iff {K V : Type} [LinearOrder K] (m : StdMap K V) (k : K) :
    m.count k > 0 ↔ k ∈ StdMap.keys m := by
  rw [← StdMap.find_isSome_iff]
  unfold StdMap.count
  by_cases h : (m.find k).isSome = true <;> simp [h]

theorem StdMap.count_eq_zero_iff {K V : Type} [LinearOrder K] (m : StdMap K V) (k : K) :
    m.count k = 0 ↔ k ∉ StdMap.keys m := by
  rw [← StdMap.count_pos_iff]
  omega

theorem SplitIntoWordsNoStopLoop_eq (s : Server R) (ws acc : List Word) :
    SplitIntoWordsNoStopLoop s ws acc =
      if ws.all IsValidWord = true then
        .ok (acc ++ ws.filter (fun w => !IsStopWord s w))
      else .error .invalid_argument := by
  induction ws generalizing acc with
  | nil => simp [SplitIntoWordsNoStopLoop]
  | cons w rest ih =>
    simp only [SplitIntoWordsNoStopLoop, ih]
    by_cases h1 : IsValidWord w = true
    · by_cases h2 : IsStopWord s w = true
      · simp [h1, h2]
      · simp [h1, h2]
    · simp [h1]

theorem SplitIntoWordsNoStop_eq (s : Server R) (text : List Char) :
    SplitIntoWordsNoStop s text =
      if (SplitIntoWords text).all IsValidWord = true then .ok (nonStopWords s text)
      else .error .invalid_argument := by
  unfold SplitIntoWordsNoStop nonStopWords
  rw [SplitIntoWordsNoStopLoop_eq]
  simp

theorem all_valid_iff (text : List Char) :
    (SplitIntoWords text).all IsValidWord = true ↔ ¬ hasInvalidWord text := by
  unfold hasInvalidWord IsValidWord
  simp only [List.all_eq_true, Bool.not_eq_true', List.any_eq_false, decide_eq_true_eq]
  constructor
  · rintro h ⟨w, hw, c, hc, hlt⟩
    exact h w hw c hc hlt
  · intro h w hw c hc hlt
    exact h ⟨w, hw, c, hc, hlt⟩

/-- The two ways in which `AddDocument` ends. -/
theorem AddDocument_cases (s : Server R) (document_id : Int) (document : List Char)
    (status : DocumentStatus) (ratings : List Int) :
    ((document_id < 0 ∨ document_id ∈ s.documents_.keys ∨ hasInvalidWord document) ∧
      AddDocument s document_id document status ratings = ⟨s, some .invalid_argument⟩) ∨
    (¬ (document_id < 0 ∨ document_id ∈ s.documents_.keys ∨ hasInvalidWord document) ∧
      AddDocument s document_id document status ratings =
        ⟨AddDocumentResult s document_id (nonStopWords s document) status ratings, none⟩) := by
  unfold AddDocument
  by_cases h1 : document_id < 0
  · left
    exact ⟨Or.inl h1, if_pos (Or.inl h1)⟩
  · by_cases h2 : document_id ∈ s.documents_.keys
    · left
      exact ⟨Or.inr (Or.inl h2),
        if_pos (Or.inr ((StdMap.count_pos_iff s.documents_ document_id).mpr h2))⟩
    · have h2' : ¬ (document_id < 0 ∨ s.documents_.count document_id > 0) := by
        rintro (h | h)
        · exact h1 h
        · exact h2 ((StdMap.count_pos_iff s.documents_ document_id).mp h)
      rw [if_neg h2', SplitIntoWordsNoStop_eq]
      by_cases h3 : hasInvalidWord document
      · left
        refine ⟨Or.inr (Or.inr h3), ?_⟩
        have h4 : ¬ (SplitIntoWords document).all IsValidWord = true :=
          fun h => (all_valid_iff document).mp h h3
        rw [if_neg h4]
      · right
        refine ⟨by tauto, ?_⟩
        have h4 : (SplitIntoWords document).all IsValidWord = true :=
          (all_valid_iff document).mpr h3
        rw [if_pos h4]
        rfl

end AddDocumentOutcome

/-! ## Every reachable state satisfies the invariant: `AddDocument` -/

section AddDocumentInv

variable {R : Type} [LinearOrderedField R]

theorem Inv_empty (stop : StdSet Word) : Inv (Server.empty stop : Server R) where
  index :=
    { wf_inverted := StdMap.wf_nil
      wf_postings := by intro w f h; simp [Server.empty, StdMap.find] at h
      wf_forward := StdMap.wf_nil
      wf_rows := by intro i r h; simp [Server.empty, StdMap.find] at h
      wf_documents := StdMap.wf_nil
      lockstep := by intro w i; simp [posting, forwardEntry, Server.empty, StdMap.find]
      row_has_record := by intro i h; simp [Server.empty, StdMap.keys] at h }
  wf_ids := by simp [Server.empty, StdSet.WF]
  ids_eq_records := by intro i; simp [Server.empty, StdMap.keys]

theorem AddDocumentResult_fields (s : Server R) (document_id : Int) (words : List Word)
    (status : DocumentStatus) (ratings : List Int) :
    (AddDocumentResult s document_id words status ratings).documents_ =
      s.documents_.emplace document_id (recordOf words status ratings) ∧
    (AddDocumentResult s document_id words status ratings).document_ids_ =
      StdSet.insert document_id s.document_ids_ ∧
    (AddDocumentResult s document_id words status ratings).stop_words_ = s.stop_words_ := by
  obtain ⟨f1, f2, f3⟩ := AddDocument_loop_fields words
    (withRecord s document_id (recordOf words status ratings)) document_id
    (1 / (words.length : R))
  refine ⟨f1, ?_, f3⟩
  show StdSet.insert document_id (words.foldl (AddDocumentStep document_id
    (1 / (words.length : R))) (withRecord s document_id
      (recordOf words status ratings))).document_ids_ = _
  rw [f2]
  rfl

theorem AddDocumentResult_inv {s : Server R} (h : Inv s) (document_id : Int)
    (words : List Word) (status : DocumentStatus) (ratings : List Int) :
    Inv (AddDocumentResult s document_id words status ratings) := by
  have hid : document_id ∈ (withRecord s document_id (recordOf words status ratings)).documents_.keys :=
    (StdMap.keys_emplace s.documents_ document_id document_id _).mpr (Or.inl rfl)
  have h1 : IndexInv (withRecord s document_id (recordOf words status ratings)) :=
    { wf_inverted := h.index.wf_inverted
      wf_postings := h.index.wf_postings
      wf_forward := h.index.wf_forward
      wf_rows := h.index.wf_rows
      wf_documents := StdMap.wf_emplace h.index.wf_documents _ _
      lockstep := h.index.lockstep
      row_has_record := fun i hi =>
        (StdMap.keys_emplace s.documents_ document_id i _).mpr
          (Or.inr (h.index.row_has_record i hi)) }
  have h2 := AddDocument_loop_indexInv words h1 document_id (1 / (words.length : R)) hid
  obtain ⟨f1, f2, _⟩ := AddDocumentResult_fields s document_id words status ratings
  refine ⟨⟨h2.wf_inverted, h2.wf_postings, h2.wf_forward, h2.wf_rows, h2.wf_documents,
    h2.lockstep, h2.row_has_record⟩, ?_, ?_⟩
  · rw [f2]
    exact StdSet.wf_setInsert h.wf_ids document_id
  · intro i
    rw [f1, f2, StdSet.mem_insert, StdMap.keys_emplace, h.ids_eq_records]

theorem AddDocument_inv {s : Server R} (h : Inv s) (document_id : Int) (document : List Char)
    (status : DocumentStatus) (ratings : List Int) :
    Inv (AddDocument s document_id document status ratings).state := by
  rcases AddDocument_cases s document_id document status ratings with ⟨_, h1⟩ | ⟨_, h1⟩
  · rw [h1]; exact h
  · rw [h1]; exact AddDocumentResult_inv h _ _ _ _

end AddDocumentInv

/-! ## `RemoveDocument`: where it returns, where it does not, and the invariant -/

section RemoveDocumentInv

variable {R : Type} [LinearOrderedField R]

theorem StdMap.insert_ne_nil {K V : Type} [LinearOrder K] (m : StdMap K V) (k : K) (v : V) :
    m.insert k v ≠ [] := by
  intro h
  have h1 : (m.insert k v).find k = some v := by rw [StdMap.find_insert, if_pos rfl]
  rw [h] at h1
  simp [StdMap.find] at h1

theorem AddDocumentStep_rowsNonempty {s : Server R} (h : RowsNonempty s) (document_id : Int)
    (c : R) (word : Word) : RowsNonempty (AddDocumentStep document_id c s word) := by
  intro i row hi
  have hi' : (s.word_frequencies_to_document.insert document_id
      ((s.word_frequencies_to_document.getD document_id []).addTo word c)).find i = some row := hi
  rw [StdMap.find_insert] at hi'
  by_cases h1 : document_id = i
  · rw [if_pos h1] at hi'
    rw [← Option.some.inj hi']
    exact StdMap.insert_ne_nil _ _ _
  · rw [if_neg h1] at hi'
    exact h i row hi'

theorem AddDocument_loop_rowsNonempty (words : List Word) {s : Server R} (h : RowsNonempty s)
    (document_id : Int) (c : R) :
    RowsNonempty (words.foldl (AddDocumentStep document_id c) s) := by
  induction words generalizing s with
  | nil => exact h
  | cons w rest ih => exact ih (AddDocumentStep_rowsNonempty h document_id c w)

theorem AddDocument_rowsNonempty {s : Server R} (h : RowsNonempty s) (document_id : Int)
    (document : List Char) (status : DocumentStatus) (ratings : List Int) :
    RowsNonempty (AddDocument s document_id document status ratings).state := by
  rcases AddDocument_cases s document_id document status ratings with ⟨_, h1⟩ | ⟨_, h1⟩
  · rw [h1]; exact h
  · rw [h1]
    exact AddDocument_loop_rowsNonempty (nonStopWords s document)
      (s := withRecord s document_id (recordOf (nonStopWords s document) status ratings))
      h document_id _

/-- A call of `RemoveDocument` for an id without a row of the forward index returns
at its first test and changes nothing. -/
theorem RemoveDocument_absent (s : Server R) (document_id : Int)
    (hrow : s.word_frequencies_to_document.find document_id = none) :
    RemoveDocument s document_id = ⟨s, none⟩ := by
  unfold RemoveDocument
  have hcount : s.word_frequencies_to_document.count document_id = 0 := by
    rw [StdMap.count_eq_zero_iff, ← StdMap.find_eq_none_iff]
    exact hrow
  rw [if_pos hcount]

/-- A call of `RemoveDocument` for an id with a row of the forward index that is
not empty, on a server whose inverted index is not empty, ends at the first
lookup of the loop, which reads a string of the record erased just before: the
id and the record are gone and the two indices are as they were. -/
theorem RemoveDocument_present (s : Server R) (document_id : Int) (row : StdMap Word R)
    (hrow : s.word_frequencies_to_document.find document_id = some row) (hne : row ≠ [])
    (hinv : s.word_to_document_freqs_ ≠ []) :
    RemoveDocument s document_id =
      ⟨{ s with
          document_ids_ := s.document_ids_.erase document_id
          documents_ := s.documents_.erase document_id }, some .undefined⟩ := by
  have hcount : ¬ s.word_frequencies_to_document.count document_id = 0 := by
    rw [StdMap.count_eq_zero_iff, ← StdMap.find_isSome_iff, hrow]
    simp
  have hgone : (s.documents_.erase document_id).count document_id = 0 := by
    rw [StdMap.count_eq_zero_iff, StdMap.keys_erase]
    exact fun h => h.1 rfl
  obtain ⟨e, rest, rfl⟩ := List.exists_cons_of_ne_nil hne
  obtain ⟨word, tf⟩ := e
  unfold RemoveDocument
  rw [if_neg hcount]
  simp only [StdMap.atKey, hrow, RemoveDocumentLoop]
  rw [if_pos ⟨hgone, hinv⟩]

/-- The loop of `RemoveDocument` touches the inverted index only. -/
theorem RemoveDocumentLoop_fields (document_id : Int) (row : List (Word × R)) (s : Server R) :
    (RemoveDocumentLoop document_id row s).state.documents_ = s.documents_ ∧
    (RemoveDocumentLoop document_id row s).state.document_ids_ = s.document_ids_ ∧
    (RemoveDocumentLoop document_id row s).state.stop_words_ = s.stop_words_ ∧
    (RemoveDocumentLoop document_id row s).state.word_frequencies_to_document =
      s.word_frequencies_to_document := by
  induction row generalizing s with
  | nil => exact ⟨rfl, rfl, rfl, rfl⟩
  | cons e rest ih =>
    obtain ⟨word, tf⟩ := e
    simp only [RemoveDocumentLoop]
    split
    · exact ⟨rfl, rfl, rfl, rfl⟩
    · split
      · exact ⟨rfl, rfl, rfl, rfl⟩
      · exact ih _

/-- However a call of `RemoveDocument` ends, it leaves the id set and the document
records both as they were, when the id has no row of the forward index, or both
without the id. -/
theorem RemoveDocument_records (s : Server R) (document_id : Int) :
    ((RemoveDocument s document_id).state.document_ids_ = s.document_ids_ ∧
      (RemoveDocument s document_id).state.documents_ = s.documents_) ∨
    ((RemoveDocument s document_id).state.document_ids_ = s.document_ids_.erase document_id ∧
      (RemoveDocument s document_id).state.documents_ = s.documents_.erase document_id) := by
  unfold RemoveDocument
  by_cases hcount : s.word_frequencies_to_document.count document_id = 0
  · rw [if_pos hcount]
    exact Or.inl ⟨rfl, rfl⟩
  · rw [if_neg hcount]
    right
    simp only
    split
    · exact ⟨rfl, rfl⟩
    · rename_i row _
      obtain ⟨f1, f2, _, _⟩ := RemoveDocumentLoop_fields document_id row
        ({ s with
            document_ids_ := s.document_ids_.erase document_id
            documents_ := s.documents_.erase document_id } : Server R)
      split
      · rename_i s3 e he
        rw [he] at f1 f2
        exact ⟨f2, f1⟩
      · rename_i s3 he
        rw [he] at f1 f2
        exact ⟨f2, f1⟩

theorem RecordsInv_of_inv {s : Server R} (h : Inv s) : RecordsInv s :=
  ⟨h.index.wf_documents, h.wf_ids, h.ids_eq_records⟩

theorem RecordsInv_empty (stop : StdSet Word) : RecordsInv (Server.empty stop : Server R) :=
  RecordsInv_of_inv (Inv_empty stop)

theorem AddDocument_recordsInv {s : Server R} (h : RecordsInv s) (document_id : Int)
    (document : List Char) (status : DocumentStatus) (ratings : List Int) :
    RecordsInv (AddDocument s document_id document status ratings).state := by
  rcases AddDocument_cases s document_id document status ratings with ⟨_, h1⟩ | ⟨_, h1⟩
  · rw [h1]; exact h
  · rw [h1]
    obtain ⟨f1, f2, _⟩ := AddDocumentResult_fields s document_id (nonStopWords s document)
      status ratings
    refine ⟨?_, ?_, ?_⟩
    · show StdMap.WF (AddDocumentResult s document_id (nonStopWords s document) status
        ratings).documents_
      rw [f1]
      exact StdMap.wf_emplace h.wf_documents _ _
    · show StdSet.WF (AddDocumentResult s document_id (nonStopWords s document) status
        ratings).document_ids_
      rw [f2]
      exact StdSet.wf_setInsert h.wf_ids document_id
    · intro i
      show i ∈ (AddDocumentResult s document_id (nonStopWords s document) status
        ratings).document_ids_ ↔ i ∈ (AddDocumentResult s document_id
          (nonStopWords s document) status ratings).documents_.keys
      rw [f1, f2, StdSet.mem_insert, StdMap.keys_emplace, h.ids_eq_records]

theorem RemoveDocument_recordsInv {s : Server R} (h : RecordsInv s) (document_id : Int) :
    RecordsInv (RemoveDocument s document_id).state := by
  rcases RemoveDocument_records s document_id with ⟨e1, e2⟩ | ⟨e1, e2⟩
  · refine ⟨?_, ?_, ?_⟩
    · rw [e2]; exact h.wf_documents
    · rw [e1]; exact h.wf_ids
    · intro i; rw [e1, e2]; exact h.ids_eq_records i
  · refine ⟨?_, ?_, ?_⟩
    · rw [e2]; exact StdMap.wf_erase h.wf_documents _
    · rw [e1]; exact StdSet.wf_setErase h.wf_ids _
    · intro i
      rw [e1, e2, StdSet.mem_erase, StdMap.keys_erase, h.ids_eq_records]

/-- In every state a server can reach, the id set and the document records are
sorted and the id set is the key set of the records. -/
theorem Reachable.records {stop : StdSet Word} {s : Server R} (h : Reachable stop s) :
    RecordsInv s := by
  induction h with
  | init => exact RecordsInv_empty stop
  | add s document_id document status ratings _ ih => exact AddDocument_recordsInv ih _ _ _ _
  | remove s document_id _ ih => exact RemoveDocument_recordsInv ih _

/-- On a state that satisfies the invariant and has no empty row, a call of
`RemoveDocument` returns only at its first test: for an id with a row it ends at
the first lookup of the loop. -/
theorem RemoveDocument_cases {s : Server R} (h : Inv s) (hr : RowsNonempty s)
    (document_id : Int) :
    (s.word_frequencies_to_document.find document_id = none ∧
      RemoveDocument s document_id = ⟨s, none⟩) ∨
    ((∃ row, s.word_frequencies_to_document.find document_id = some row) ∧
      RemoveDocument s document_id =
        ⟨{ s with
            document_ids_ := s.document_ids_.erase document_id
            documents_ := s.documents_.erase document_id }, some .undefined⟩) := by
  cases hrow : s.word_frequencies_to_document.find document_id with
  | none => exact Or.inl ⟨rfl, RemoveDocument_absent s document_id hrow⟩
  | some row =>
    right
    refine ⟨⟨row, rfl⟩, ?_⟩
    have hne : row ≠ [] := hr document_id row hrow
    obtain ⟨e, rest, hrest⟩ := List.exists_cons_of_ne_nil hne
    have h1 : row.find e.1 = some e.2 :=
      StdMap.find_of_mem (h.index.wf_rows document_id row hrow) (by rw [hrest]; simp)
    have h2 : posting s e.1 document_id = some e.2 := by
      rw [h.index.lockstep]
      simp only [forwardEntry, hrow, Option.some_bind, h1]
    have hinv : s.word_to_document_freqs_ ≠ [] := by
      intro h3
      simp [posting, h3, StdMap.find] at h2
    exact RemoveDocument_present s document_id row hrow hne hinv

/-- Every state a server reaches with defined behaviour satisfies the invariant
and has no empty row. -/
theorem ReachableDefined.inv_rows {stop : StdSet Word} {s : Server R}
    (h : ReachableDefined stop s) : Inv s ∧ RowsNonempty s := by
  induction h with
  | init =>
    refine ⟨Inv_empty stop, ?_⟩
    intro i row hi
    simp [Server.empty, StdMap.find] at hi
  | add s document_id document status ratings _ ih =>
    exact ⟨AddDocument_inv ih.1 _ _ _ _, AddDocument_rowsNonempty ih.2 _ _ _ _⟩
  | remove s document_id _ hret ih =>
    rcases RemoveDocument_cases ih.1 ih.2 document_id with ⟨_, h1⟩ | ⟨_, h1⟩
    · rw [h1]; exact ih
    · rw [h1] at hret
      exact absurd hret (by simp)

/-- Every state a server reaches with defined behaviour satisfies the invariant. -/
theorem ReachableDefined.inv {stop : StdSet Word} {s : Server R}
    (h : ReachableDefined stop s) : Inv s :=
  h.inv_rows.1

theorem ReachableDefined.reachable {stop : StdSet Word} {s : Server R}
    (h : ReachableDefined stop s) : Reachable stop s := by
  induction h with
  | init => exact Reachable.init
  | add s document_id document status ratings _ ih => exact Reachable.add s _ _ _ _ ih
  | remove s document_id _ _ ih => exact Reachable.remove s _ ih

/-- On a state reached with defined behaviour a call of `RemoveDocument` either
finds no row for the id and changes nothing, or ends in undefined behaviour. -/
theorem RemoveDocument_defined_cases {stop : StdSet Word} {s : Server R}
    (h : ReachableDefined stop s) (document_id : Int) :
    (s.word_frequencies_to_document.find document_id = none ∧
      RemoveDocument s document_id = ⟨s, none⟩) ∨
    ((∃ row, s.word_frequencies_to_document.find document_id = some row) ∧
      RemoveDocument s document_id =
        ⟨{ s with
            document_ids_ := s.document_ids_.erase document_id
            documents_ := s.documents_.erase document_id }, some .undefined⟩) :=
  RemoveDocument_cases h.inv h.inv_rows.2 document_id

end RemoveDocumentInv

/-! ## Claims about `AddDocument` -/

theorem corpusS1a_reachable : Reachable stopWordsS1 corpusS1a :=
  Reachable.add _ _ _ _ _ Reachable.init

theorem corpusS1b_reachable : Reachable stopWordsS1 corpusS1b :=
  Reachable.add _ _ _ _ _ corpusS1a_reachable

theorem corpusS1_reachable : Reachable stopWordsS1 corpusS1 :=
  Reachable.add _ _ _ _ _ corpusS1b_reachable

theorem corpusS1a_defined : ReachableDefined stopWordsS1 corpusS1a :=
  ReachableDefined.add _ _ _ _ _ ReachableDefined.init

theorem corpusS1b_defined : ReachableDefined stopWordsS1 corpusS1b :=
  ReachableDefined.add _ _ _ _ _ corpusS1a_defined

theorem corpusS1_defined : ReachableDefined stopWordsS1 corpusS1 :=
  ReachableDefined.add _ _ _ _ _ corpusS1b_defined

section AddDocumentClaims

variable {R : Type} [LinearOrderedField R]

/-- Claim C7: `AddDocument` ends with `invalid_argument` exactly when the id is
negative, or the id is a key of the document records, or some space-delimited
word of the text holds a byte below `0x20`; in every other case it ends without
an exception. -/
theorem AddDocument_throws_iff (s : Server R) (document_id : Int) (document : List Char)
    (status : DocumentStatus) (ratings : List Int) :
    ((AddDocument s document_id document status ratings).thrown = some .invalid_argument ↔
      (document_id < 0 ∨ document_id ∈ s.documents_.keys ∨ hasInvalidWord document)) ∧
    ((AddDocument s document_id document status ratings).thrown = none ↔
      ¬ (document_id < 0 ∨ document_id ∈ s.documents_.keys ∨ hasInvalidWord document)) := by
  rcases AddDocument_cases s document_id document status ratings with ⟨h, h1⟩ | ⟨h, h1⟩
  · rw [h1]
    exact ⟨⟨fun _ => h, fun _ => rfl⟩, ⟨fun h2 => by simp at h2, fun h2 => absurd h h2⟩⟩
  · rw [h1]
    exact ⟨⟨fun h2 => by simp at h2, fun h2 => absurd h2 h⟩, ⟨fun _ => h, fun _ => rfl⟩⟩

/-- Claim C8: a call of `AddDocument` that throws leaves the server, that is the
document records, the id set, the inverted index and the forward index, exactly
as it was before the call. -/
theorem AddDocument_atomic (s : Server R) (document_id : Int) (document : List Char)
    (status : DocumentStatus) (ratings : List Int)
    (h : (AddDocument s document_id document status ratings).thrown ≠ none) :
    (AddDocument s document_id document status ratings).state = s := by
  rcases AddDocument_cases s document_id document status ratings with ⟨_, h1⟩ | ⟨_, h1⟩
  · rw [h1]
  · rw [h1] at h
    exact absurd rfl h

end AddDocumentClaims

/-- Claim C8, witness: adding id 2 again to the corpus of scenario S1 throws and
leaves the corpus, with the document stored under 2, unchanged. -/
theorem AddDocument_atomic_witness :
    (AddDocument corpusS1 2 "новый кот".toList .BANNED [1]).thrown ≠ none ∧
      (AddDocument corpusS1 2 "новый кот".toList .BANNED [1]).state = corpusS1 :=
  ⟨by decide, AddDocument_atomic corpusS1 2 "новый кот".toList .BANNED [1] (by decide)⟩

/-! ## Term frequencies after `AddDocument` -/

section TermFrequency

variable {R : Type} [LinearOrderedField R]

theorem posting_none_of_absent {s : Server R} (h : Inv s) (document_id : Int)
    (hid : document_id ∉ s.documents_.keys) (word : Word) :
    posting s word document_id = none := by
  rw [h.index.lockstep]
  have h1 : s.word_frequencies_to_document.find document_id = none :=
    (StdMap.find_eq_none_iff _ _).mpr (fun h2 => hid (h.index.row_has_record _ h2))
  simp only [forwardEntry, h1, Option.none_bind]

theorem posting_AddDocumentResult {s : Server R} (h : Inv s) (document_id : Int)
    (hid : document_id ∉ s.documents_.keys) (words : List Word) (status : DocumentStatus)
    (ratings : List Int) (word : Word) (i : Int) :
    posting (AddDocumentResult s document_id words status ratings) word i =
      if i = document_id then termFrequency R words word else posting s word i := by
  show posting (words.foldl (AddDocumentStep document_id (1 / (words.length : R)))
    (withRecord s document_id (recordOf words status ratings))) word i = _
  rw [posting_AddDocument_loop]
  have h0 : posting (withRecord s document_id (recordOf words status ratings)) word document_id
      = none := posting_none_of_absent h document_id hid word
  rw [h0]
  by_cases h1 : i = document_id
  · subst h1
    by_cases h2 : word ∈ words
    · simp [termFrequency, h2, div_eq_mul_inv]
    · simp [termFrequency, h2, h0]
  · simp only [h1, false_and, if_false]
    rfl

theorem length_ofList_of_nodup {K : Type} [LinearOrder K] (l : List K) (h : l.Nodup) :
    (StdSet.ofList l).length = l.length := by
  have h1 : (StdSet.ofList l).Nodup := (StdSet.wf_ofList l).imp (fun h => ne_of_lt h)
  exact ((List.perm_ext_iff_of_nodup h1 h).mpr (StdSet.mem_ofList l)).length_eq

theorem sum_map_div_nat (l : List Word) (f : Word → Nat) (n : R) :
    (l.map (fun w => (f w : R) / n)).sum = ((l.map f).sum : R) / n := by
  induction l with
  | nil => simp
  | cons a rest ih => simp [ih, add_div]

/-- The entries a successful `AddDocument` leaves for the document in the two
indices. -/
theorem AddDocument_entry {s : Server R} (hinv : Inv s) (document_id : Int)
    (document : List Char) (status : DocumentStatus) (ratings : List Int)
    (hok : (AddDocument s document_id document status ratings).thrown = none) (word : Word) :
    document_id ∉ s.documents_.keys ∧
    (AddDocument s document_id document status ratings).state =
      AddDocumentResult s document_id (nonStopWords s document) status ratings ∧
    posting (AddDocument s document_id document status ratings).state word document_id
        = termFrequency R (nonStopWords s document) word ∧
    forwardEntry (AddDocument s document_id document status ratings).state document_id word
        = termFrequency R (nonStopWords s document) word := by
  rcases AddDocument_cases s document_id document status ratings with ⟨_, h1⟩ | ⟨hc, h1⟩
  · rw [h1] at hok
    simp at hok
  · have hid : document_id ∉ s.documents_.keys := fun h => hc (Or.inr (Or.inl h))
    have hinv' := AddDocumentResult_inv hinv document_id (nonStopWords s document) status ratings
    have hp := posting_AddDocumentResult hinv document_id hid (nonStopWords s document) status
      ratings word document_id
    rw [if_pos rfl] at hp
    rw [h1]
    refine ⟨hid, rfl, hp, ?_⟩
    rw [← hinv'.index.lockstep]
    exact hp

/-- Claim C5, amended: after a successful `AddDocument` on a server reached with
defined behaviour (by calls of `AddDocument` and by calls of `RemoveDocument`
that return at their first test) the document is stored, in the inverted index
and in the forward index (hence in the row `GetWordFrequencies` returns), under
exactly the non-stop words of its text, each, in the exact arithmetic of the
field `R`, with the term frequency (number of occurrences of the word among the
non-stop words) / (number of non-stop words); when no non-stop word occurs
twice this is `1 / |content|`.  The `double` the code stores is the rounded sum
of one `1.0 / words.size()` for every occurrence, which need not be the rounded
quotient. -/
theorem AddDocument_term_frequency {stop : StdSet Word} {s : Server R}
    (hs : ReachableDefined stop s) (document_id : Int) (document : List Char)
    (status : DocumentStatus) (ratings : List Int)
    (hok : (AddDocument s document_id document status ratings).thrown = none) (word : Word) :
    posting (AddDocument s document_id document status ratings).state word document_id
        = termFrequency R (nonStopWords s document) word ∧
    forwardEntry (AddDocument s document_id document status ratings).state document_id word
        = termFrequency R (nonStopWords s document) word ∧
    (∀ row, GetWordFrequencies (AddDocument s document_id document status ratings).state
        document_id = .ok row → row.find word = termFrequency R (nonStopWords s document) word) ∧
    ((nonStopWords s document).Nodup → word ∈ nonStopWords s document →
      ∃ data, (AddDocument s document_id document status ratings).state.documents_.find
          document_id = some data ∧
        termFrequency R (nonStopWords s document) word = some (1 / (data.content.length : R))) := by
  have hinv := hs.inv
  obtain ⟨hid, hstate, hp, hfwd⟩ :=
    AddDocument_entry hinv document_id document status ratings hok word
  have hinv' := AddDocumentResult_inv hinv document_id (nonStopWords s document) status ratings
  obtain ⟨f1, f2, _⟩ :=
    AddDocumentResult_fields s document_id (nonStopWords s document) status ratings
  refine ⟨hp, hfwd, ?_, ?_⟩
  · intro row hrow
    rw [hstate] at hrow hfwd
    have hmem : document_id ∈
        (AddDocumentResult s document_id (nonStopWords s document) status ratings).document_ids_ := by
      rw [f2]
      exact (StdSet.mem_insert _ _ _).mpr (Or.inl rfl)
    simp only [GetWordFrequencies, hmem, not_true_eq_false, if_false, StdMap.atKey] at hrow
    cases hf : (AddDocumentResult s document_id (nonStopWords s document) status
        ratings).word_frequencies_to_document.find document_id with
    | none => rw [hf] at hrow; simp at hrow
    | some row0 =>
      rw [hf] at hrow
      have hr : row0 = row := by simpa using hrow
      rw [← hfwd]
      simp only [forwardEntry, hf, Option.some_bind, hr]
  · intro hnodup hword
    refine ⟨recordOf (nonStopWords s document) status ratings, ?_, ?_⟩
    · rw [hstate, f1, StdMap.find_emplace _ _ _ _ hid, if_pos rfl]
    · have hcount : occurrences (nonStopWords s document) word = 1 :=
        occurrences_of_nodup hnodup hword
      simp only [termFrequency, hword, if_true, recordOf, length_ofList_of_nodup _ hnodup,
        hcount, Nat.cast_one]

end TermFrequency

/-- Claim C5, witness: in scenario S1 the word `пушистый`, two of the four words
of document 2, is stored for it with term frequency `1/2`. -/
theorem AddDocument_term_frequency_witness :
    ReachableDefined stopWordsS1 corpusS1a ∧
      (AddDocument corpusS1a 2 "пушистый кот пушистый хвост".toList .ACTUAL [7, 2, 7]).thrown
        = none ∧
      posting corpusS1b "пушистый".toList 2 = some (1 / 2) :=
  ⟨corpusS1a_defined, by decide,
    (AddDocument_term_frequency corpusS1a_defined 2 "пушистый кот пушистый хвост".toList
      .ACTUAL [7, 2, 7] (by decide) "пушистый".toList).1.trans (by decide!)⟩

/-- Claim C5 as stated fails on its own witness: document 2 of scenario S1 has
three distinct words, and the code stores `пушистый` for it with term frequency
`1/2`, in the inverted index and in the row `GetWordFrequencies` returns, not
with `1/3`. -/
theorem term_frequency_counterexample :
    (AddDocument corpusS1a 2 "пушистый кот пушистый хвост".toList .ACTUAL [7, 2, 7]).thrown
        = none ∧
      (match corpusS1b.documents_.find 2 with
        | some data => data.content.length
        | none => 0) = 3 ∧
      posting corpusS1b "пушистый".toList 2 = some (1 / 2) ∧
      (match GetWordFrequencies corpusS1b 2 with
        | .ok row => row.find "пушистый".toList
        | .error _ => none) = some (1 / 2) ∧
      (1 / 2 : ℚ) ≠ 1 / ((3 : Nat) : ℚ) := by
  refine ⟨by decide, by decide, by decide!, by decide!, by decide!⟩

section TermFrequencySum

variable {R : Type} [LinearOrderedField R]

theorem sum_indicator_of_nodup (ks : List Word) (w : Word) (hn : ks.Nodup) (hw : w ∈ ks) :
    (ks.map (fun k => if w = k then 1 else 0)).sum = 1 := by
  induction ks with
  | nil => simp at hw
  | cons k rest ih =>
    rw [List.nodup_cons] at hn
    by_cases h1 : w = k
    · subst h1
      have h2 : ∀ k ∈ rest, (if w = k then 1 else 0) = 0 := by
        intro k hk
        have : ¬ w = k := fun h => hn.1 (h ▸ hk)
        simp [this]
      simp [List.map_congr_left h2]
    · have h2 : w ∈ rest := by
        rcases List.mem_cons.mp hw with h3 | h3
        · exact absurd h3 h1
        · exact h3
      simp [h1, ih hn.2 h2]

theorem sum_occurrences (ks words : List Word) (hn : ks.Nodup) (hsub : ∀ w ∈ words, w ∈ ks) :
    (ks.map (fun k => occurrences words k)).sum = words.length := by
  induction words with
  | nil => simp [occurrences]
  | cons w rest ih =>
    have h1 := sum_indicator_of_nodup ks w hn (hsub w (List.mem_cons_self _ _))
    have h2 := ih (fun x hx => hsub x (List.mem_cons_of_mem _ hx))
    simp only [occurrences, List.sum_map_add, h1, h2, List.length_cons]
    omega

theorem sum_row_values (row : StdMap Word R) (words : List Word) (hwf : row.WF)
    (hrow : ∀ w, row.find w = termFrequency R words w) (hne : words ≠ []) :
    (row.map Prod.snd).sum = 1 := by
  have hkeys : ∀ w, w ∈ StdMap.keys row ↔ w ∈ words := by
    intro w
    rw [← StdMap.find_isSome_iff, hrow]
    unfold termFrequency
    by_cases h : w ∈ words <;> simp [h]
  have hvals : row.map Prod.snd =
      (StdMap.keys row).map (fun k => (occurrences words k : R) / (words.length : R)) := by
    unfold StdMap.keys
    rw [List.map_map]
    apply List.map_congr_left
    intro e he
    have h1 : row.find e.1 = some e.2 := StdMap.find_of_mem hwf he
    have h2 : e.1 ∈ words := (hkeys e.1).mp (List.mem_map.mpr ⟨e, he, rfl⟩)
    rw [hrow] at h1
    simp only [termFrequency, h2, if_true, Option.some.injEq] at h1
    simp only [Function.comp_apply, h1]
  rw [hvals, sum_map_div_nat,
    sum_occurrences (StdMap.keys row) words (StdMap.wf_nodup hwf) (fun w hw => (hkeys w).mpr hw)]
  have hlen : (words.length : R) ≠ 0 := by
    have : words.length ≠ 0 := fun h => hne (List.length_eq_zero.mp h)
    exact_mod_cast this
  exact div_self hlen

/-- The property of claim C6 where no call of `RemoveDocument` has removed a
document: after a successful `AddDocument` of a text with at least one non-stop
word to a server reached with defined behaviour, `GetWordFrequencies(id)`
returns the row of the document in the forward index, and the term frequencies
in that row sum to exactly `1` (in exact arithmetic). -/
theorem GetWordFrequencies_sum_one_defined {stop : StdSet Word} {s : Server R}
    (hs : ReachableDefined stop s) (document_id : Int) (document : List Char)
    (status : DocumentStatus) (ratings : List Int)
    (hok : (AddDocument s document_id document status ratings).thrown = none)
    (hne : nonStopWords s document ≠ []) :
    ∃ row, GetWordFrequencies (AddDocument s document_id document status ratings).state
        document_id = .ok row ∧ (row.map Prod.snd).sum = 1 := by
  have hinv' : Inv (AddDocument s document_id document status ratings).state :=
    (ReachableDefined.add s document_id document status ratings hs).inv
  have hmem : document_id ∈
      (AddDocument s document_id document status ratings).state.document_ids_ := by
    rcases AddDocument_cases s document_id document status ratings with ⟨_, h1⟩ | ⟨_, h1⟩
    · rw [h1] at hok
      simp at hok
    · rw [h1]
      rw [(AddDocumentResult_fields s document_id (nonStopWords s document) status ratings).2.1]
      exact (StdSet.mem_insert _ _ _).mpr (Or.inl rfl)
  obtain ⟨w0, hw0⟩ := List.exists_mem_of_ne_nil _ hne
  have hentry := fun w =>
    (AddDocument_entry hs.inv document_id document status ratings hok w).2.2.2
  have h0 := hentry w0
  simp only [termFrequency, hw0, if_true] at h0
  cases hf : (AddDocument s document_id document status
      ratings).state.word_frequencies_to_document.find document_id with
  | none => simp [forwardEntry, hf] at h0
  | some row =>
    refine ⟨row, ?_, ?_⟩
    · simp only [GetWordFrequencies, hmem, not_true_eq_false, if_false, StdMap.atKey, hf]
    · apply sum_row_values row (nonStopWords s document) (hinv'.index.wf_rows _ _ hf) _ hne
      intro w
      rw [← hentry w]
      simp only [forwardEntry, hf, Option.some_bind]

end TermFrequencySum

/-- An instance: the row of document 2 of scenario S1, with the term frequencies
`1/4`, `1/2` and `1/4`, sums to `1`. -/
theorem GetWordFrequencies_sum_one_defined_witness :
    ReachableDefined stopWordsS1 corpusS1a ∧
      nonStopWords corpusS1a "пушистый кот пушистый хвост".toList ≠ [] ∧
      ∃ row, GetWordFrequencies corpusS1b 2 = .ok row ∧ (row.map Prod.snd).sum = 1 :=
  ⟨corpusS1a_defined, by decide,
    GetWordFrequencies_sum_one_defined corpusS1a_defined 2
      "пушистый кот пушистый хвост".toList .ACTUAL [7, 2, 7] (by decide) (by decide)⟩

/-! ## `RemoveDocument` -/

/-- Claim C10, the code at the failing input: document 1, whose text holds stop
words only, is added without an exception and is in the id set and the document
records; it has no row in the forward index, so `RemoveDocument(1)` returns at
its first test and leaves the state unchanged: 1 is still in the id set, still
has its record, and `GetDocumentCount()` is still 1. -/
theorem RemoveDocument_keeps_wordless_document :
    (AddDocument (Server.empty stopWordsS1 : Server ℚ) 1 "в и на".toList .ACTUAL [5]).thrown
        = none ∧
      1 ∈ wordlessCorpus.document_ids_ ∧
      (wordlessCorpus.documents_.find 1).isSome = true ∧
      wordlessCorpus.word_frequencies_to_document.find 1 = none ∧
      RemoveDocument wordlessCorpus 1 = ⟨wordlessCorpus, none⟩ ∧
      1 ∈ (RemoveDocument wordlessCorpus 1).state.document_ids_ ∧
      ((RemoveDocument wordlessCorpus 1).state.documents_.find 1).isSome = true ∧
      GetDocumentCount wordlessCorpus = 1 ∧
      GetDocumentCount (RemoveDocument wordlessCorpus 1).state = 1 := by
  have h : wordlessCorpus.word_frequencies_to_document.find 1 = none := by decide
  have hr := RemoveDocument_absent wordlessCorpus 1 h
  refine ⟨by decide, by decide, by decide, h, hr, ?_, ?_, by decide, ?_⟩
  · rw [hr]; decide
  · rw [hr]; decide
  · rw [hr]; decide

/-! ## The loops of `FindAllDocuments` -/

section FindAllDocumentsLoops

variable {R : Type} [LinearOrderedField R]

theorem predicateHolds_of_atKey {s : Server R} (document_predicate : DocumentPredicate)
    {document_id : Int} {data : DocumentData}
    (h : s.documents_.atKey document_id = .ok data) :
    predicateHolds s document_predicate document_id =
      document_predicate document_id data.status data.rating := by
  unfold StdMap.atKey at h
  unfold predicateHolds
  cases hf : s.documents_.find document_id with
  | none => rw [hf] at h; simp at h
  | some d =>
    rw [hf] at h
    have : d = data := by simpa using h
    simp [this]

theorem atKey_of_mem_keys {K V : Type} [LinearOrder K] {m : StdMap K V} {k : K}
    (h : k ∈ StdMap.keys m) : ∃ v, m.find k = some v ∧ m.atKey k = .ok v := by
  obtain ⟨v, hv⟩ := Option.isSome_iff_exists.mp ((StdMap.find_isSome_iff m k).mpr h)
  exact ⟨v, hv, by simp [StdMap.atKey, hv]⟩

/-- The inner loop of the plus-word phase adds `term_freq * idf` for each posting
whose document satisfies the predicate. -/
theorem plusPostingsLoop_spec (s : Server R) (document_predicate : DocumentPredicate) (idf : R)
    (freqs : StdMap Int R) (hwf : freqs.WF)
    (hdocs : ∀ i ∈ StdMap.keys freqs, i ∈ s.documents_.keys) (acc : StdMap Int R)
    (hacc : acc.WF) :
    ∃ acc', plusPostingsLoop s document_predicate idf freqs acc = .ok acc' ∧ acc'.WF ∧
      ∀ i, acc'.find i =
        match freqs.find i with
        | some tf =>
          if predicateHolds s document_predicate i = true then
            some ((acc.find i).getD 0 + tf * idf)
          else acc.find i
        | none => acc.find i := by
  induction freqs generalizing acc with
  | nil => exact ⟨acc, rfl, hacc, fun i => rfl⟩
  | cons e rest ih =>
    obtain ⟨i0, tf0⟩ := e
    have hwf' := hwf
    simp only [StdMap.WF, StdMap.keys, List.map_cons, List.pairwise_cons] at hwf
    obtain ⟨data, _, hat⟩ := atKey_of_mem_keys (hdocs i0 (by simp [StdMap.keys]))
    have hp := predicateHolds_of_atKey document_predicate hat
    have hrest : StdMap.find rest i0 = none :=
      (StdMap.find_eq_none_iff rest i0).mpr (fun h => lt_irrefl _ (hwf.1 i0 h))
    have hdocs' : ∀ i ∈ StdMap.keys rest, i ∈ s.documents_.keys :=
      fun i hi => hdocs i (by simp only [StdMap.keys, List.map_cons]; exact List.mem_cons_of_mem _ hi)
    by_cases hpred : document_predicate i0 data.status data.rating = true
    · obtain ⟨acc', e1, e2, e3⟩ := ih hwf.2 hdocs' (acc.addTo i0 (tf0 * idf))
        (StdMap.wf_addTo hacc _ _)
      refine ⟨acc', ?_, e2, ?_⟩
      · simp only [plusPostingsLoop, hat, hpred, if_true, e1]
      · intro i
        rw [e3]
        by_cases h1 : i0 = i
        · subst h1
          simp only [hrest, StdMap.find, if_true, hp, hpred, StdMap.find_addTo]
        · simp only [StdMap.find, h1, if_false, StdMap.find_addTo]
    · obtain ⟨acc', e1, e2, e3⟩ := ih hwf.2 hdocs' acc hacc
      refine ⟨acc', ?_, e2, ?_⟩
      · simp only [plusPostingsLoop, hat, hpred, if_false, e1]
        rfl
      · intro i
        rw [e3]
        by_cases h1 : i0 = i
        · subst h1
          simp only [hrest, StdMap.find, if_true, hp, hpred, if_false]
          rfl
        · simp only [StdMap.find, h1, if_false]

/-- The inner loop of the minus-word phase erases every posted document. -/
theorem minusPostingsLoop_spec (freqs : StdMap Int R) (acc : StdMap Int R) (hacc : acc.WF) :
    (minusPostingsLoop freqs acc).WF ∧
      ∀ i, (minusPostingsLoop freqs acc).find i =
        if i ∈ StdMap.keys freqs then none else acc.find i := by
  induction freqs generalizing acc with
  | nil => exact ⟨hacc, fun i => by simp [minusPostingsLoop, StdMap.keys]⟩
  | cons e rest ih =>
    obtain ⟨i0, tf0⟩ := e
    obtain ⟨h1, h2⟩ := ih (acc.erase i0) (StdMap.wf_erase hacc i0)
    refine ⟨h1, ?_⟩
    intro i
    have hk : i ∈ StdMap.keys ((i0, tf0) :: rest) ↔ i = i0 ∨ i ∈ StdMap.keys rest := by
      simp [StdMap.keys]
    simp only [minusPostingsLoop, h2, StdMap.find_erase]
    by_cases h3 : i = i0
    · rw [if_pos (hk.mpr (Or.inl h3))]
      simp [h3]
    · by_cases h4 : i ∈ StdMap.keys rest
      · rw [if_pos h4, if_pos (hk.mpr (Or.inr h4))]
      · have h5 : ¬ i ∈ StdMap.keys ((i0, tf0) :: rest) := fun h => by
          rcases hk.mp h with h6 | h6
          · exact h3 h6
          · exact h4 h6
        rw [if_neg h4, if_neg h3, if_neg h5]

end FindAllDocumentsLoops

section FindAllDocumentsWords

variable {R : Type} [LinearOrderedField R]

theorem posting_of_find {s : Server R} {word : Word} {freqs : StdMap Int R}
    (hf : s.word_to_document_freqs_.find word = some freqs) (i : Int) :
    posting s word i = freqs.find i := by
  simp only [posting, hf, Option.some_bind]

theorem posting_of_find_none {s : Server R} {word : Word}
    (hf : s.word_to_document_freqs_.find word = none) (i : Int) :
    posting s word i = none := by
  simp only [posting, hf, Option.none_bind]

theorem record_of_posted {s : Server R} (h : Inv s) (word : Word) (i : Int)
    (hp : posted s word i) : i ∈ s.documents_.keys := by
  apply h.index.row_has_record
  rw [← StdMap.find_isSome_iff]
  unfold posted at hp
  rw [h.index.lockstep] at hp
  unfold forwardEntry at hp
  cases hf : s.word_frequencies_to_document.find i with
  | none => rw [hf] at hp; simp at hp
  | some row => rfl

theorem relevanceOf_cons (ln : R → R) (s : Server R) (w : Word) (ws : List Word) (i : Int) :
    relevanceOf ln s (w :: ws) i =
      if posted s w i then termFreq s w i * inverseDocumentFreq ln s w + relevanceOf ln s ws i
      else relevanceOf ln s ws i := by
  unfold relevanceOf
  by_cases h : posted s w i
  · simp [List.filter_cons, h]
  · simp [List.filter_cons, h]

theorem relevanceOf_eq_zero (ln : R → R) (s : Server R) (ws : List Word) (i : Int)
    (h : ws.any (fun w => decide (posted s w i)) = false) : relevanceOf ln s ws i = 0 := by
  unfold relevanceOf
  have : ws.filter (fun w => decide (posted s w i)) = [] := by
    rw [List.filter_eq_nil_iff]
    intro w hw hp
    rw [List.any_eq_false] at h
    exact h w hw hp
  rw [this]
  rfl

/-- The plus-word phase: a document gets an entry when it is posted under some
word of the list and satisfies the predicate, and the phase adds to its entry the
sum of `tf * idf` over the words under which it is posted. -/
theorem plusWordsLoop_spec (ln : R → R) {s : Server R} (h : Inv s)
    (document_predicate : DocumentPredicate) (ws : List Word) (acc : StdMap Int R)
    (hacc : acc.WF) :
    ∃ acc', plusWordsLoop ln s document_predicate ws acc = .ok acc' ∧ acc'.WF ∧
      ∀ i, acc'.find i =
        if ws.any (fun w => decide (posted s w i)) = true ∧
            predicateHolds s document_predicate i = true then
          some ((acc.find i).getD 0 + relevanceOf ln s ws i)
        else acc.find i := by
  induction ws generalizing acc with
  | nil => exact ⟨acc, rfl, hacc, fun i => by simp⟩
  | cons w rest ih =>
    cases hf : s.word_to_document_freqs_.find w with
    | none =>
      have hcount : s.word_to_document_freqs_.count w = 0 := by
        simp [StdMap.count, hf]
      obtain ⟨acc', e1, e2, e3⟩ := ih acc hacc
      refine ⟨acc', ?_, e2, ?_⟩
      · simp only [plusWordsLoop, hcount, if_true, e1]
      · intro i
        have hnp : ¬ posted s w i := by
          unfold posted
          rw [posting_of_find_none hf]
          simp
        rw [e3, relevanceOf_cons, if_neg hnp]
        simp only [List.any_cons, hnp, decide_False, Bool.false_or]
    | some freqs =>
      have hcount : ¬ s.word_to_document_freqs_.count w = 0 := by
        simp [StdMap.count, hf]
      have hidf : ComputeWordInverseDocumentFreq ln s w = .ok (inverseDocumentFreq ln s w) := by
        simp only [ComputeWordInverseDocumentFreq, StdMap.atKey, hf, inverseDocumentFreq,
          documentFreq, StdMap.getD, Option.getD_some, mul_one]
      have hat : s.word_to_document_freqs_.atKey w = .ok freqs := by
        simp only [StdMap.atKey, hf]
      have hdocs : ∀ i ∈ StdMap.keys freqs, i ∈ s.documents_.keys := by
        intro i hi
        apply record_of_posted h w i
        unfold posted
        rw [posting_of_find hf]
        exact (StdMap.find_isSome_iff freqs i).mpr hi
      obtain ⟨acc1, a1, a2, a3⟩ := plusPostingsLoop_spec s document_predicate
        (inverseDocumentFreq ln s w) freqs (h.index.wf_postings w freqs hf) hdocs acc hacc
      obtain ⟨acc', e1, e2, e3⟩ := ih acc1 a2
      refine ⟨acc', ?_, e2, ?_⟩
      · simp only [plusWordsLoop, hcount, if_false, hidf, hat, a1, e1]
      · intro i
        rw [e3, a3, relevanceOf_cons]
        have hposted : posted s w i ↔ (freqs.find i).isSome = true := by
          unfold posted
          rw [posting_of_find hf]
        have htf : termFreq s w i = (freqs.find i).getD 0 := by
          unfold termFreq
          rw [posting_of_find hf]
        by_cases hP : predicateHolds s document_predicate i = true
        · cases hfi : freqs.find i with
          | none =>
            have hnp : ¬ posted s w i := by rw [hposted, hfi]; simp
            simp only [hP, and_true, List.any_cons, hnp, decide_False, Bool.false_or, if_false]
          | some tf =>
            have hp : posted s w i := by rw [hposted, hfi]; rfl
            rw [hfi] at htf
            simp only [hP, and_true, if_true, List.any_cons, hp, decide_True, Bool.true_or,
              Option.getD_some, htf]
            by_cases hA : rest.any (fun w => decide (posted s w i)) = true
            · simp only [hA, if_true, add_assoc]
            · have hA' : rest.any (fun w => decide (posted s w i)) = false := by
                simpa using hA
              rw [if_neg hA, relevanceOf_eq_zero ln s rest i hA', add_zero]
        · have hP' : predicateHolds s document_predicate i = false := by simpa using hP
          rw [hP']
          cases hfi : freqs.find i <;> simp

/-- The minus-word phase erases every document posted under a word of the list. -/
theorem minusWordsLoop_spec {s : Server R} (ws : List Word) (acc : StdMap Int R)
    (hacc : acc.WF) :
    ∃ acc', minusWordsLoop s ws acc = .ok acc' ∧ acc'.WF ∧
      ∀ i, acc'.find i =
        if ws.any (fun w => decide (posted s w i)) = true then none else acc.find i := by
  induction ws generalizing acc with
  | nil => exact ⟨acc, rfl, hacc, fun i => by simp⟩
  | cons w rest ih =>
    cases hf : s.word_to_document_freqs_.find w with
    | none =>
      have hcount : s.word_to_document_freqs_.count w = 0 := by
        simp [StdMap.count, hf]
      obtain ⟨acc', e1, e2, e3⟩ := ih acc hacc
      refine ⟨acc', ?_, e2, ?_⟩
      · simp only [minusWordsLoop, hcount, if_true, e1]
      · intro i
        have hnp : ¬ posted s w i := by
          unfold posted
          rw [posting_of_find_none hf]
          simp
        rw [e3]
        simp only [List.any_cons, hnp, decide_False, Bool.false_or]
    | some freqs =>
      have hcount : ¬ s.word_to_document_freqs_.count w = 0 := by
        simp [StdMap.count, hf]
      have hat : s.word_to_document_freqs_.atKey w = .ok freqs := by
        simp only [StdMap.atKey, hf]
      obtain ⟨m1, m2⟩ := minusPostingsLoop_spec freqs acc hacc
      obtain ⟨acc', e1, e2, e3⟩ := ih (minusPostingsLoop freqs acc) m1
      refine ⟨acc', ?_, e2, ?_⟩
      · simp only [minusWordsLoop, hcount, if_false, hat, e1]
      · intro i
        have hposted : posted s w i ↔ i ∈ StdMap.keys freqs := by
          unfold posted
          rw [posting_of_find hf, StdMap.find_isSome_iff]
        rw [e3, m2]
        by_cases hp : posted s w i
        · have hk := hposted.mp hp
          simp only [List.any_cons, hp, decide_True, Bool.true_or, if_true, hk, ite_self]
        · have hk : ¬ i ∈ StdMap.keys freqs := fun hk => hp (hposted.mpr hk)
          simp only [List.any_cons, hp, decide_False, Bool.false_or, hk, if_false]

/-- The last loop appends one `Document` per entry, with the rating of the record. -/
theorem matchedLoop_spec (s : Server R) (entries : List (Int × R))
    (hdocs : ∀ i ∈ StdMap.keys entries, i ∈ s.documents_.keys) (out : List (Document R)) :
    matchedLoop s entries out =
      .ok (out ++ entries.map (fun e => ⟨e.1, e.2, ratingOf s e.1⟩)) := by
  induction entries generalizing out with
  | nil => simp [matchedLoop]
  | cons e rest ih =>
    obtain ⟨i, r⟩ := e
    obtain ⟨data, hfind, hat⟩ := atKey_of_mem_keys (hdocs i (by simp [StdMap.keys]))
    have hrating : ratingOf s i = data.rating := by simp [ratingOf, hfind]
    simp only [matchedLoop, hat, List.map_cons, hrating]
    rw [ih (fun j hj => hdocs j (by
      simp only [StdMap.keys, List.map_cons]; exact List.mem_cons_of_mem _ hj))]
    simp

end FindAllDocumentsWords

/-! ## `FindAllDocuments` and `ParseQuery` -/

section FindAllDocumentsSpec

variable {R : Type} [LinearOrderedField R]

theorem predicateHolds_iff (s : Server R) (document_predicate : DocumentPredicate) (i : Int) :
    predicateHolds s document_predicate i = true ↔
      ∃ data, s.documents_.find i = some data ∧
        document_predicate i data.status data.rating = true := by
  unfold predicateHolds
  cases s.documents_.find i <;> simp

theorem isMatch_iff (s : Server R) (query : Query) (document_predicate : DocumentPredicate)
    (i : Int) :
    isMatch s query document_predicate i = true ↔
      (∃ w ∈ query.plus_words, posted s w i) ∧
      (∃ data, s.documents_.find i = some data ∧
        document_predicate i data.status data.rating = true) ∧
      ¬ ∃ w ∈ query.minus_words, posted s w i := by
  unfold isMatch
  rw [Bool.and_eq_true, Bool.and_eq_true, predicateHolds_iff]
  simp only [List.any_eq_true, decide_eq_true_eq, Bool.not_eq_true', List.any_eq_false,
    not_exists, not_and, and_assoc]

/-- The map `document_to_relevance` at the end of `FindAllDocuments` and the list
built from it, for a server that satisfies the invariant. -/
theorem FindAllDocuments_spec (ln : R → R) {s : Server R} (h : Inv s) (query : Query)
    (document_predicate : DocumentPredicate) :
    ∃ acc : StdMap Int R, acc.WF ∧
      (∀ i, acc.find i =
        if isMatch s query document_predicate i = true then
          some (relevanceOf ln s query.plus_words i)
        else none) ∧
      FindAllDocuments ln s query document_predicate =
        .ok (acc.map (fun e => ⟨e.1, e.2, ratingOf s e.1⟩)) := by
  obtain ⟨acc1, p1, p2, p3⟩ :=
    plusWordsLoop_spec ln h document_predicate query.plus_words [] StdMap.wf_nil
  obtain ⟨acc2, m1, m2, m3⟩ := @minusWordsLoop_spec R _ s query.minus_words acc1 p2
  have hfind : ∀ i, acc2.find i =
      if isMatch s query document_predicate i = true then
        some (relevanceOf ln s query.plus_words i)
      else none := by
    intro i
    rw [m3, p3]
    unfold isMatch
    by_cases hm : query.minus_words.any (fun w => decide (posted s w i)) = true
    · simp [hm]
    · by_cases hp : query.plus_words.any (fun w => decide (posted s w i)) = true ∧
          predicateHolds s document_predicate i = true
      · simp [hm, hp.1, hp.2, StdMap.find]
      · rw [if_neg hm, if_neg hp]
        have : ¬ ((query.plus_words.any (fun w => decide (posted s w i)) &&
            predicateHolds s document_predicate i &&
            !(query.minus_words.any (fun w => decide (posted s w i)))) = true) := by
          rw [Bool.and_eq_true, Bool.and_eq_true]
          exact fun h => hp h.1
        rw [if_neg this]
        rfl
  have hdocs : ∀ i ∈ StdMap.keys acc2, i ∈ s.documents_.keys := by
    intro i hi
    have h1 := (StdMap.find_isSome_iff acc2 i).mpr hi
    rw [hfind] at h1
    by_cases hm : isMatch s query document_predicate i = true
    · obtain ⟨_, ⟨data, hd, _⟩, _⟩ := (isMatch_iff s query document_predicate i).mp hm
      rw [← StdMap.find_isSome_iff, hd]
      rfl
    · rw [if_neg hm] at h1
      simp at h1
  refine ⟨acc2, m2, hfind, ?_⟩
  simp only [FindAllDocuments, p1, m1, matchedLoop_spec s acc2 hdocs, List.nil_append]

theorem ParseQueryLoop_wf (s : Server R) (ws : List Word) (result query : Query)
    (hp : StdSet.WF result.plus_words) (hm : StdSet.WF result.minus_words)
    (h : ParseQueryLoop s ws result = .ok query) :
    StdSet.WF query.plus_words ∧ StdSet.WF query.minus_words := by
  induction ws generalizing result with
  | nil =>
    simp only [ParseQueryLoop, Except.ok.injEq] at h
    rw [← h]
    exact ⟨hp, hm⟩
  | cons w rest ih =>
    simp only [ParseQueryLoop] at h
    cases hw : ParseQueryWord s w with
    | error e => rw [hw] at h; simp at h
    | ok qw =>
      rw [hw] at h
      simp only at h
      by_cases h1 : (!qw.is_stop) = true
      · rw [if_pos h1] at h
        by_cases h2 : qw.is_minus = true
        · rw [if_pos h2] at h
          exact ih { result with minus_words := StdSet.insert qw.data result.minus_words }
            hp (StdSet.wf_setInsert hm _) h
        · rw [if_neg h2] at h
          exact ih { result with plus_words := StdSet.insert qw.data result.plus_words }
            (StdSet.wf_setInsert hp _) hm h
      · rw [if_neg h1] at h
        exact ih result hp hm h

/-- The two word sets of a parsed query are sorted, hence free of repetitions. -/
theorem ParseQuery_wf (s : Server R) (raw_query : List Char) (query : Query)
    (h : ParseQuery s raw_query = .ok query) :
    StdSet.WF query.plus_words ∧ StdSet.WF query.minus_words :=
  ParseQueryLoop_wf s _ ⟨[], []⟩ query (by simp [StdSet.WF]) (by simp [StdSet.WF]) h

end FindAllDocumentsSpec

/-! ## Claims about `FindAllDocuments` and the size of the result of `FindTopDocuments` -/

section FindClaims

variable {R : Type} [LinearOrderedField R]

/-- The property of claim C1 where no call of `RemoveDocument` has removed a
document: on a server reached with defined behaviour, for every query (in
particular every query that parses) and every predicate, the sequential
`FindAllDocuments` returns a list, and the ids in it are exactly the documents
that are posted under at least one plus word, whose record satisfies the
predicate, and that are posted under no minus word. -/
theorem FindAllDocuments_ids_defined {stop : StdSet Word} {s : Server R}
    (hs : ReachableDefined stop s)
    (ln : R → R) (query : Query) (document_predicate : DocumentPredicate) :
    ∃ docs, FindAllDocuments ln s query document_predicate = .ok docs ∧
      ∀ i, i ∈ docs.map Document.id ↔
        (∃ w ∈ query.plus_words, posted s w i) ∧
        (∃ data, s.documents_.find i = some data ∧
          document_predicate i data.status data.rating = true) ∧
        ¬ ∃ w ∈ query.minus_words, posted s w i := by
  obtain ⟨acc, _, hfind, heq⟩ := FindAllDocuments_spec ln hs.inv query document_predicate
  refine ⟨_, heq, ?_⟩
  intro i
  rw [← isMatch_iff, List.map_map]
  have hk : (acc.map ((Document.id : Document R → Int) ∘ fun e => ⟨e.1, e.2, ratingOf s e.1⟩))
      = StdMap.keys acc := by
    unfold StdMap.keys
    apply List.map_congr_left
    intro e _
    rfl
  rw [hk, ← StdMap.find_isSome_iff, hfind]
  by_cases hm : isMatch s query document_predicate i = true <;> simp [hm]

/-- The property of claim C2 where no call of `RemoveDocument` has removed a
document: on a server reached with defined behaviour, for every parsed query and
every predicate, the plus words of the query are free of repetitions and the
relevance of each document the sequential `FindAllDocuments` returns is the sum,
over the plus words `w` under which the document is posted, of
`tf(w, doc) * ln(N / df(w))`, with `N = GetDocumentCount()` and `df(w)` the
number of postings of `w`. -/
theorem FindAllDocuments_relevance_defined {stop : StdSet Word} {s : Server R}
    (hs : ReachableDefined stop s) (ln : R → R) (raw_query : List Char) (query : Query)
    (hq : ParseQuery s raw_query = .ok query) (document_predicate : DocumentPredicate) :
    query.plus_words.Nodup ∧
    ∃ docs, FindAllDocuments ln s query document_predicate = .ok docs ∧
      ∀ d ∈ docs, d.relevance =
        ((query.plus_words.filter (fun w => decide (posted s w d.id))).map
          (fun w => termFreq s w d.id *
            ln ((GetDocumentCount s : R) / (documentFreq s w : R)))).sum := by
  obtain ⟨acc, hwf, hfind, heq⟩ := FindAllDocuments_spec ln hs.inv query document_predicate
  refine ⟨(ParseQuery_wf s raw_query query hq).1.imp (fun h => ne_of_lt h), _, heq, ?_⟩
  intro d hd
  obtain ⟨e, he, rfl⟩ := List.mem_map.mp hd
  have h1 : acc.find e.1 = some e.2 := StdMap.find_of_mem hwf he
  rw [hfind] at h1
  by_cases hm : isMatch s query document_predicate e.1 = true
  · rw [if_pos hm] at h1
    exact (Option.some.inj h1).symm
  · rw [if_neg hm] at h1
    simp at h1

theorem sortInsert_perm {α : Type} (comp : α → α → Bool) (x : α) (l : List α) :
    (sortInsert comp x l).Perm (x :: l) := by
  induction l with
  | nil => exact List.Perm.refl _
  | cons y rest ih =>
    unfold sortInsert
    by_cases h : comp x y = true
    · rw [if_pos h]
    · rw [if_neg h]
      exact (List.Perm.cons y ih).trans (List.Perm.swap x y rest)

theorem stdSort_foldl_perm {α : Type} (comp : α → α → Bool) (l acc : List α) :
    (l.foldl (fun sorted x => sortInsert comp x sorted) acc).Perm (acc ++ l) := by
  induction l generalizing acc with
  | nil => simp
  | cons x rest ih =>
    simp only [List.foldl_cons]
    refine (ih (sortInsert comp x acc)).trans ?_
    refine ((sortInsert_perm comp x acc).append_right rest).trans ?_
    simpa using (@List.perm_middle _ x acc rest).symm

/-- The model of `std::sort` returns a permutation of its input. -/
theorem stdSort_perm {α : Type} (comp : α → α → Bool) (l : List α) :
    (stdSort comp l).Perm l := by
  simpa [stdSort] using stdSort_foldl_perm comp l []

/-- The property of claim C4 where no call of `RemoveDocument` has removed a
document: on a server reached with defined behaviour, for every query that
parses and every predicate, `FindTopDocuments` returns a list of exactly
`min(MAX_RESULT_DOCUMENT_COUNT, number of matching documents)` entries, so at
most `5`, in which no document id occurs twice and every id is that of a
matching document. -/
theorem FindTopDocuments_size_defined {stop : StdSet Word} {s : Server R}
    (hs : ReachableDefined stop s)
    (ln : R → R) (raw_query : List Char) (query : Query)
    (hq : ParseQuery s raw_query = .ok query) (document_predicate : DocumentPredicate) :
    ∃ docs, FindTopDocuments ln s raw_query document_predicate = .ok docs ∧
      docs.length = min MAX_RESULT_DOCUMENT_COUNT
        (matchingIds s query document_predicate).length ∧
      docs.length ≤ 5 ∧ (docs.map Document.id).Nodup ∧
      ∀ d ∈ docs, d.id ∈ matchingIds s query document_predicate := by
  obtain ⟨acc, hwf, hfind, heq⟩ := FindAllDocuments_spec ln hs.inv query document_predicate
  have hinv := hs.inv
  have hk : (acc.map (fun e => (⟨e.1, e.2, ratingOf s e.1⟩ : Document R))).map Document.id
      = StdMap.keys acc := by
    rw [List.map_map]
    unfold StdMap.keys
    apply List.map_congr_left
    intro e _
    rfl
  have hmem : ∀ i, i ∈ StdMap.keys acc ↔ i ∈ matchingIds s query document_predicate := by
    intro i
    rw [← StdMap.find_isSome_iff, hfind]
    unfold matchingIds
    rw [List.mem_filter]
    by_cases hm : isMatch s query document_predicate i = true
    · obtain ⟨_, ⟨data, hd, _⟩, _⟩ := (isMatch_iff s query document_predicate i).mp hm
      have : i ∈ s.documents_.keys := by
        rw [← StdMap.find_isSome_iff, hd]
        rfl
      simp [hm, this]
    · simp [hm]
  have hnodup : (matchingIds s query document_predicate).Nodup :=
    (StdMap.wf_nodup hinv.index.wf_documents).filter _
  have hperm : (StdMap.keys acc).Perm (matchingIds s query document_predicate) :=
    (List.perm_ext_iff_of_nodup (StdMap.wf_nodup hwf) hnodup).mpr hmem
  have hft : FindTopDocuments ln s raw_query document_predicate =
      if (stdSort documentBefore (acc.map (fun e =>
          (⟨e.1, e.2, ratingOf s e.1⟩ : Document R)))).length > MAX_RESULT_DOCUMENT_COUNT then
        .ok ((stdSort documentBefore (acc.map (fun e =>
          (⟨e.1, e.2, ratingOf s e.1⟩ : Document R)))).take MAX_RESULT_DOCUMENT_COUNT)
      else
        .ok (stdSort documentBefore (acc.map (fun e =>
          (⟨e.1, e.2, ratingOf s e.1⟩ : Document R)))) := by
    simp only [FindTopDocuments, hq, heq]
  have hsorted := stdSort_perm documentBefore
    (acc.map (fun e => (⟨e.1, e.2, ratingOf s e.1⟩ : Document R)))
  generalize stdSort documentBefore
    (acc.map (fun e => (⟨e.1, e.2, ratingOf s e.1⟩ : Document R))) = sorted at hft hsorted
  have hids : (sorted.map Document.id).Perm (matchingIds s query document_predicate) :=
    ((hsorted.map Document.id).trans (hk ▸ List.Perm.refl _)).trans hperm
  have hlen : sorted.length = (matchingIds s query document_predicate).length := by
    rw [← hids.length_eq, List.length_map]
  by_cases hgt : sorted.length > MAX_RESULT_DOCUMENT_COUNT
  · rw [if_pos hgt] at hft
    refine ⟨sorted.take MAX_RESULT_DOCUMENT_COUNT, hft, ?_, ?_, ?_, ?_⟩
    · rw [List.length_take, hlen]
    · rw [List.length_take]
      exact Nat.min_le_left _ _
    · exact (hids.nodup_iff.mpr hnodup).sublist
        ((List.take_sublist _ _).map Document.id)
    · intro d hd
      exact hids.subset (List.mem_map_of_mem _ (List.mem_of_mem_take hd))
  · rw [if_neg hgt] at hft
    refine ⟨sorted, hft, ?_, ?_, ?_, ?_⟩
    · rw [hlen] at hgt ⊢
      unfold MAX_RESULT_DOCUMENT_COUNT at hgt ⊢
      omega
    · unfold MAX_RESULT_DOCUMENT_COUNT at hgt
      omega
    · exact hids.nodup_iff.mpr hnodup
    · intro d hd
      exact hids.subset (List.mem_map_of_mem _ hd)

end FindClaims

theorem parse_queryS2 :
    ParseQuery corpusS1 "пушистый ухоженный -кот".toList = .ok queryS2 := rfl

theorem parse_queryS1 :
    ParseQuery corpusS1 "пушистый ухоженный кот".toList = .ok queryS1 := rfl

/-- Scenario S2: on the corpus of scenario S1 the query
`пушистый ухоженный -кот` yields document 3 only. -/
theorem FindAllDocuments_ids_defined_witness :
    ReachableDefined stopWordsS1 corpusS1 ∧
      ParseQuery corpusS1 "пушистый ухоженный -кот".toList = .ok queryS2 ∧
      (∃ docs, FindAllDocuments (fun x => x) corpusS1 queryS2 (statusPredicate .ACTUAL)
          = .ok docs ∧
        3 ∈ docs.map Document.id ∧ 1 ∉ docs.map Document.id ∧ 2 ∉ docs.map Document.id) ∧
      (match FindAllDocuments (fun x => x) corpusS1 queryS2 (statusPredicate .ACTUAL) with
        | .ok docs => docs.map Document.id
        | .error _ => []) = [3] := by
  refine ⟨corpusS1_defined, parse_queryS2, ?_, by decide!⟩
  obtain ⟨docs, h1, h2⟩ := FindAllDocuments_ids_defined corpusS1_defined (fun x => x) queryS2
    (statusPredicate .ACTUAL)
  refine ⟨docs, h1, (h2 3).mpr ?_, fun h => ?_, fun h => ?_⟩
  · exact ⟨⟨"ухоженный".toList, by decide, by decide⟩,
      ⟨⟨["выразительные".toList, "глаза".toList, "пёс".toList, "ухоженный".toList], -1, .ACTUAL⟩,
        by decide, by decide⟩, by decide⟩
  · exact absurd ((h2 1).mp h).2.2 (by decide)
  · exact absurd ((h2 2).mp h).2.2 (by decide)

/-- On the corpus of scenario S1, over the rationals and with the identity for
`ln`, every document returned for the query of scenario S2 has the relevance the
formula gives; the one returned document, 3, has `1/4 * (3 / 1)`. -/
theorem FindAllDocuments_relevance_defined_witness :
    ReachableDefined stopWordsS1 corpusS1 ∧
      ParseQuery corpusS1 "пушистый ухоженный -кот".toList = .ok queryS2 ∧
      (∃ docs, FindAllDocuments (fun x => x) corpusS1 queryS2 (statusPredicate .ACTUAL)
          = .ok docs ∧
        ∀ d ∈ docs, d.relevance = relevanceOf (fun x => x) corpusS1 queryS2.plus_words d.id) ∧
      relevanceOf (fun x => x) corpusS1 queryS2.plus_words 3 = 1 / 4 * (3 / 1) :=
  ⟨corpusS1_defined, parse_queryS2,
    (FindAllDocuments_relevance_defined corpusS1_defined (fun x => x)
      "пушистый ухоженный -кот".toList queryS2 parse_queryS2 (statusPredicate .ACTUAL)).2,
    by decide!⟩

/-- Scenario S1: the query `пушистый ухоженный кот` matches the three documents
and `FindTopDocuments` returns three entries, the documents 2, 3 and 1. -/
theorem FindTopDocuments_size_defined_witness :
    ReachableDefined stopWordsS1 corpusS1 ∧
      ParseQuery corpusS1 "пушистый ухоженный кот".toList = .ok queryS1 ∧
      (∃ docs, FindTopDocuments (fun x => x) corpusS1 "пушистый ухоженный кот".toList
          (statusPredicate .ACTUAL) = .ok docs ∧ docs.length = 3) ∧
      (match FindTopDocuments (fun x => x) corpusS1 "пушистый ухоженный кот".toList
          (statusPredicate .ACTUAL) with
        | .ok docs => docs.map Document.id
        | .error _ => []) = [2, 3, 1] := by
  refine ⟨corpusS1_defined, parse_queryS1, ?_, by decide!⟩
  obtain ⟨docs, h1, h2, _⟩ := FindTopDocuments_size_defined corpusS1_defined (fun x => x)
    "пушистый ухоженный кот".toList queryS1 parse_queryS1 (statusPredicate .ACTUAL)
  refine ⟨docs, h1, h2.trans ?_⟩
  decide

/-! ## The order of the result of `FindTopDocuments` -/

section SortedResult

variable {R : Type} [LinearOrderedField R]

theorem documentBefore_eq_false_iff (a b : Document R) :
    documentBefore b a = false ↔ inOrder a b := by
  unfold documentBefore inOrder
  have hsymm : |b.relevance - a.relevance| = |a.relevance - b.relevance| := abs_sub_comm _ _
  rw [hsymm]
  by_cases hc : |a.relevance - b.relevance| < 1 / 1000000
  · simp only [hc, if_true, decide_eq_false_iff_not, not_lt, gt_iff_lt, ge_iff_le, true_and]
    constructor
    · exact fun h => Or.inr h
    · rintro (⟨_, h⟩ | h)
      · exact absurd hc (not_lt.mpr h)
      · exact h
  · simp only [hc, if_false, decide_eq_false_iff_not, not_lt, gt_iff_lt, ge_iff_le, false_and,
      or_false]
    have hge : (1 : R) / 1000000 ≤ |a.relevance - b.relevance| := not_lt.mp hc
    constructor
    · intro h
      refine ⟨lt_of_le_of_ne h ?_, hge⟩
      intro heq
      rw [heq, sub_self, abs_zero] at hge
      exact absurd hge (by norm_num)
    · exact fun h => le_of_lt h.1

theorem documentBefore_asymm (a b : Document R) (h : documentBefore a b = true) :
    documentBefore b a = false := by
  unfold documentBefore at *
  have hsymm : |b.relevance - a.relevance| = |a.relevance - b.relevance| := abs_sub_comm _ _
  rw [hsymm]
  by_cases hc : |a.relevance - b.relevance| < 1 / 1000000
  · simp only [hc, if_true, decide_eq_true_eq, decide_eq_false_iff_not] at h ⊢
    omega
  · simp only [hc, if_false, decide_eq_true_eq, decide_eq_false_iff_not] at h ⊢
    exact not_lt.mpr (le_of_lt h)

/-- Where "the relevances differ by less than `1e-6`" is transitive, the claimed
order is transitive. -/
theorem inOrder_trans (a b c : Document R)
    (hclose : |a.relevance - c.relevance| < 1 / 1000000 →
      |c.relevance - b.relevance| < 1 / 1000000 → |a.relevance - b.relevance| < 1 / 1000000)
    (hclose2 : |b.relevance - a.relevance| < 1 / 1000000 →
      |a.relevance - c.relevance| < 1 / 1000000 → |b.relevance - c.relevance| < 1 / 1000000)
    (hclose3 : |a.relevance - b.relevance| < 1 / 1000000 →
      |b.relevance - c.relevance| < 1 / 1000000 → |a.relevance - c.relevance| < 1 / 1000000)
    (hab : inOrder a b) (hbc : inOrder b c) : inOrder a c := by
  unfold inOrder at *
  rcases hab with ⟨h1, h2⟩ | ⟨h1, h2⟩
  · rcases hbc with ⟨h3, h4⟩ | ⟨h3, h4⟩
    · left
      refine ⟨lt_trans h3 h1, ?_⟩
      rw [ge_iff_le, abs_of_pos (sub_pos.mpr h1)] at h2
      rw [ge_iff_le, abs_of_pos (sub_pos.mpr h3)] at h4
      rw [ge_iff_le, abs_of_pos (sub_pos.mpr (lt_trans h3 h1))]
      linarith
    · by_cases hac : |a.relevance - c.relevance| < 1 / 1000000
      · have hcb : |c.relevance - b.relevance| < 1 / 1000000 := by
          rw [abs_sub_comm]; exact h3
        exact absurd (hclose hac hcb) (not_lt.mpr h2)
      · left
        rw [abs_lt] at h3
        rw [ge_iff_le, abs_of_pos (sub_pos.mpr h1)] at h2
        have hgt : a.relevance > c.relevance := by linarith
        exact ⟨hgt, not_lt.mp hac⟩
  · rcases hbc with ⟨h3, h4⟩ | ⟨h3, h4⟩
    · by_cases hac : |a.relevance - c.relevance| < 1 / 1000000
      · have hba : |b.relevance - a.relevance| < 1 / 1000000 := by
          rw [abs_sub_comm]; exact h1
        exact absurd (hclose2 hba hac) (not_lt.mpr h4)
      · left
        rw [abs_lt] at h1
        rw [ge_iff_le, abs_of_pos (sub_pos.mpr h3)] at h4
        have hgt : a.relevance > c.relevance := by linarith
        exact ⟨hgt, not_lt.mp hac⟩
    · right
      exact ⟨hclose3 h1 h3, by omega⟩

theorem mem_sortInsert {α : Type} (comp : α → α → Bool) (x y : α) (l : List α) :
    y ∈ sortInsert comp x l ↔ y = x ∨ y ∈ l :=
  (sortInsert_perm comp x l).mem_iff.trans List.mem_cons

/-- Insertion keeps a list ordered when the order is transitive on the elements
in play (those that satisfy `P`). -/
theorem sortInsert_pairwise {α : Type} (comp : α → α → Bool) (P : α → Prop)
    (hasym : ∀ a b, comp a b = true → comp b a = false)
    (htr : ∀ a b c, P a → P b → P c → comp b a = false → comp c b = false → comp c a = false)
    (x : α) (l : List α) (hx : P x) (hl : ∀ y ∈ l, P y)
    (hs : l.Pairwise (fun a b => comp b a = false)) :
    (sortInsert comp x l).Pairwise (fun a b => comp b a = false) := by
  induction l with
  | nil => simp [sortInsert]
  | cons y rest ih =>
    rw [List.pairwise_cons] at hs
    have hy : P y := hl y (List.mem_cons_self _ _)
    have hrest : ∀ z ∈ rest, P z := fun z hz => hl z (List.mem_cons_of_mem _ hz)
    unfold sortInsert
    by_cases hc : comp x y = true
    · rw [if_pos hc]
      have hxy : comp y x = false := hasym x y hc
      refine List.pairwise_cons.mpr ⟨?_, List.pairwise_cons.mpr hs⟩
      intro z hz
      rcases List.mem_cons.mp hz with h1 | h1
      · rw [h1]; exact hxy
      · exact htr x y z hx hy (hrest z h1) hxy (hs.1 z h1)
    · rw [if_neg hc]
      have hyx : comp x y = false := by simpa using hc
      refine List.pairwise_cons.mpr ⟨?_, ih hrest hs.2⟩
      intro z hz
      rcases (mem_sortInsert comp x z rest).mp hz with h1 | h1
      · rw [h1]; exact hyx
      · exact hs.1 z h1

theorem stdSort_foldl_pairwise {α : Type} (comp : α → α → Bool) (P : α → Prop)
    (hasym : ∀ a b, comp a b = true → comp b a = false)
    (htr : ∀ a b c, P a → P b → P c → comp b a = false → comp c b = false → comp c a = false)
    (l acc : List α) (hl : ∀ y ∈ l, P y) (hacc : ∀ y ∈ acc, P y)
    (hs : acc.Pairwise (fun a b => comp b a = false)) :
    (l.foldl (fun sorted x => sortInsert comp x sorted) acc).Pairwise
      (fun a b => comp b a = false) := by
  induction l generalizing acc with
  | nil => exact hs
  | cons x rest ih =>
    simp only [List.foldl_cons]
    apply ih (sortInsert comp x acc) (fun y hy => hl y (List.mem_cons_of_mem _ hy))
    · intro y hy
      rcases (mem_sortInsert comp x y acc).mp hy with h1 | h1
      · rw [h1]; exact hl x (List.mem_cons_self _ _)
      · exact hacc y h1
    · exact sortInsert_pairwise comp P hasym htr x acc (hl x (List.mem_cons_self _ _)) hacc hs

/-- The model of `std::sort` orders its input when the comparator is asymmetric
and the order it induces is transitive on the elements of the input. -/
theorem stdSort_pairwise {α : Type} (comp : α → α → Bool)
    (hasym : ∀ a b, comp a b = true → comp b a = false) (l : List α)
    (htr : ∀ a b c, a ∈ l → b ∈ l → c ∈ l →
      comp b a = false → comp c b = false → comp c a = false) :
    (stdSort comp l).Pairwise (fun a b => comp b a = false) :=
  stdSort_foldl_pairwise comp (fun a => a ∈ l) hasym htr l [] (fun _ h => h)
    (fun _ h => absurd h (List.not_mem_nil _)) List.Pairwise.nil

end SortedResult

section SortedClaim

variable {R : Type} [LinearOrderedField R]

/-- The result of `FindTopDocuments` for a query that parses, on a server that
satisfies the invariant: the first `MAX_RESULT_DOCUMENT_COUNT` entries of the
sorted list of the documents that match. -/
theorem FindTopDocuments_spec (ln : R → R) {s : Server R} (h : Inv s) (raw_query : List Char)
    (query : Query) (hq : ParseQuery s raw_query = .ok query)
    (document_predicate : DocumentPredicate) :
    ∃ acc : StdMap Int R, acc.WF ∧
      (∀ i, acc.find i =
        if isMatch s query document_predicate i = true then
          some (relevanceOf ln s query.plus_words i)
        else none) ∧
      (∀ i, i ∈ StdMap.keys acc ↔ i ∈ matchingIds s query document_predicate) ∧
      FindTopDocuments ln s raw_query document_predicate =
        .ok ((stdSort documentBefore
          (acc.map (fun e => ⟨e.1, e.2, ratingOf s e.1⟩))).take MAX_RESULT_DOCUMENT_COUNT) := by
  obtain ⟨acc, hwf, hfind, heq⟩ := FindAllDocuments_spec ln h query document_predicate
  refine ⟨acc, hwf, hfind, ?_, ?_⟩
  · intro i
    rw [← StdMap.find_isSome_iff, hfind]
    unfold matchingIds
    rw [List.mem_filter]
    by_cases hm : isMatch s query document_predicate i = true
    · obtain ⟨_, ⟨data, hd, _⟩, _⟩ := (isMatch_iff s query document_predicate i).mp hm
      have : i ∈ s.documents_.keys := by
        rw [← StdMap.find_isSome_iff, hd]
        rfl
      simp [hm, this]
    · simp [hm]
  · simp only [FindTopDocuments, hq, heq]
    by_cases hgt : (stdSort documentBefore
        (acc.map (fun e => (⟨e.1, e.2, ratingOf s e.1⟩ : Document R)))).length
        > MAX_RESULT_DOCUMENT_COUNT
    · rw [if_pos hgt]
    · rw [if_neg hgt, List.take_of_length_le (not_lt.mp hgt)]

/-- Claim C3, amended: on a server reached with defined behaviour (by calls of
`AddDocument` and by calls of `RemoveDocument` that return at their first test),
for every query that parses and every predicate such that, among the matching
documents, "the relevances differ by less than `1e-6`" is transitive, the list
`FindTopDocuments` returns is sorted non-increasingly by (relevance, rating) with
the `1e-6` tolerance: of every two entries, the earlier has a relevance greater
by at least `1e-6`, or relevances less than `1e-6` apart and a rating that is
not smaller. -/
theorem FindTopDocuments_sorted {stop : StdSet Word} {s : Server R}
    (hs : ReachableDefined stop s)
    (ln : R → R) (raw_query : List Char) (query : Query)
    (hq : ParseQuery s raw_query = .ok query) (document_predicate : DocumentPredicate)
    (htrans : ∀ i ∈ matchingIds s query document_predicate,
      ∀ j ∈ matchingIds s query document_predicate,
      ∀ k ∈ matchingIds s query document_predicate,
        |relevanceOf ln s query.plus_words i - relevanceOf ln s query.plus_words j|
            < 1 / 1000000 →
        |relevanceOf ln s query.plus_words j - relevanceOf ln s query.plus_words k|
            < 1 / 1000000 →
        |relevanceOf ln s query.plus_words i - relevanceOf ln s query.plus_words k|
            < 1 / 1000000) :
    ∃ docs, FindTopDocuments ln s raw_query document_predicate = .ok docs ∧
      docs.Pairwise (fun a b =>
        (a.relevance > b.relevance ∧ |a.relevance - b.relevance| ≥ 1 / 1000000) ∨
          (|a.relevance - b.relevance| < 1 / 1000000 ∧ a.rating ≥ b.rating)) := by
  obtain ⟨acc, hwf, hfind, hkeys, heq⟩ :=
    FindTopDocuments_spec ln hs.inv raw_query query hq document_predicate
  refine ⟨_, heq, ?_⟩
  have hdoc : ∀ d ∈ acc.map (fun e => (⟨e.1, e.2, ratingOf s e.1⟩ : Document R)),
      d.id ∈ matchingIds s query document_predicate ∧
        d.relevance = relevanceOf ln s query.plus_words d.id := by
    intro d hd
    obtain ⟨e, he, rfl⟩ := List.mem_map.mp hd
    have h1 : acc.find e.1 = some e.2 := StdMap.find_of_mem hwf he
    refine ⟨(hkeys e.1).mp (List.mem_map.mpr ⟨e, he, rfl⟩), ?_⟩
    rw [hfind] at h1
    by_cases hm : isMatch s query document_predicate e.1 = true
    · rw [if_pos hm] at h1
      exact (Option.some.inj h1).symm
    · rw [if_neg hm] at h1
      simp at h1
  have hclose : ∀ a b c, a ∈ acc.map (fun e => (⟨e.1, e.2, ratingOf s e.1⟩ : Document R)) →
      b ∈ acc.map (fun e => (⟨e.1, e.2, ratingOf s e.1⟩ : Document R)) →
      c ∈ acc.map (fun e => (⟨e.1, e.2, ratingOf s e.1⟩ : Document R)) →
      |a.relevance - b.relevance| < 1 / 1000000 → |b.relevance - c.relevance| < 1 / 1000000 →
      |a.relevance - c.relevance| < 1 / 1000000 := by
    intro a b c ha hb hc
    rw [(hdoc a ha).2, (hdoc b hb).2, (hdoc c hc).2]
    exact htrans _ (hdoc a ha).1 _ (hdoc b hb).1 _ (hdoc c hc).1
  have hsorted := stdSort_pairwise documentBefore documentBefore_asymm
    (acc.map (fun e => (⟨e.1, e.2, ratingOf s e.1⟩ : Document R)))
    (fun a b c ha hb hc hab hbc =>
      (documentBefore_eq_false_iff a c).mpr
        (inOrder_trans a b c (hclose a c b ha hc hb) (hclose b a c hb ha hc)
          (hclose a b c ha hb hc)
          ((documentBefore_eq_false_iff a b).mp hab)
          ((documentBefore_eq_false_iff b c).mp hbc)))
  exact (hsorted.imp (fun {a b} hab => (documentBefore_eq_false_iff a b).mp hab)).sublist
    (List.take_sublist _ _)

end SortedClaim

/-- Claim C3, witness (scenario S1): the three documents matching
`пушистый ухоженный кот` have relevances more than `1e-6` apart, and the result,
the documents 2, 3 and 1, is sorted. -/
theorem FindTopDocuments_sorted_witness :
    ReachableDefined stopWordsS1 corpusS1 ∧
      ParseQuery corpusS1 "пушистый ухоженный кот".toList = .ok queryS1 ∧
      ∃ docs, FindTopDocuments (fun x => x) corpusS1 "пушистый ухоженный кот".toList
          (statusPredicate .ACTUAL) = .ok docs ∧
        docs.Pairwise (fun a b =>
          (a.relevance > b.relevance ∧ |a.relevance - b.relevance| ≥ 1 / 1000000) ∨
            (|a.relevance - b.relevance| < 1 / 1000000 ∧ a.rating ≥ b.rating)) :=
  ⟨corpusS1_defined, parse_queryS1,
    FindTopDocuments_sorted corpusS1_defined (fun x => x) "пушистый ухоженный кот".toList
      queryS1 parse_queryS1 (statusPredicate .ACTUAL) (by decide!)⟩

/-! ## A corpus on which no order of the result meets the claimed one -/

theorem SplitIntoWordsLoop_padding (n : Nat) (word : Word) (words : List Word)
    (hword : word ≠ []) :
    SplitIntoWordsLoop (padding n) word words = words ++ [word] ++ List.replicate n ['x'] := by
  induction n generalizing word words with
  | zero => simp [padding, SplitIntoWordsLoop, hword]
  | succ n ih =>
    have hx : ¬ ('x' = SPACE) := by decide
    have hne : ([] ++ ['x'] : Word) ≠ [] := by simp
    simp only [padding, SplitIntoWordsLoop, if_true, hword, ne_eq, not_false_eq_true, hx,
      if_false]
    rw [ih _ _ hne]
    simp [List.replicate_succ]

theorem SplitIntoWords_tieText (n : Nat) :
    SplitIntoWords (tieText n) = ['w'] :: List.replicate n ['x'] := by
  have hw : ¬ ('w' = SPACE) := by decide
  simp only [SplitIntoWords, tieText, SplitIntoWordsLoop, hw, if_false]
  rw [SplitIntoWordsLoop_padding n _ _ (by simp)]
  simp

theorem tieText_valid (n : Nat) : ¬ hasInvalidWord (tieText n) := by
  unfold hasInvalidWord
  rw [SplitIntoWords_tieText]
  rintro ⟨w, hw, c, hc, hlt⟩
  rcases List.mem_cons.mp hw with h1 | h1
  · rw [h1] at hc
    simp only [List.mem_singleton] at hc
    rw [hc] at hlt
    exact absurd hlt (by decide)
  · rw [(List.mem_replicate.mp h1).2] at hc
    simp only [List.mem_singleton] at hc
    rw [hc] at hlt
    exact absurd hlt (by decide)

theorem empty_text_valid : ¬ hasInvalidWord [] := by
  unfold hasInvalidWord
  simp [SplitIntoWords, SplitIntoWordsLoop]

theorem occurrences_replicate_x (n : Nat) : occurrences (List.replicate n ['x']) ['w'] = 0 := by
  apply occurrences_eq_zero
  intro h
  have := (List.mem_replicate.mp h).2
  exact absurd this (by decide)

section FreshAdd

variable {R : Type} [LinearOrderedField R]

theorem nonStopWords_of_no_stop (s : Server R) (hstop : s.stop_words_ = [])
    (text : List Char) : nonStopWords s text = SplitIntoWords text := by
  unfold nonStopWords
  apply List.filter_eq_self.mpr
  intro w _
  simp [IsStopWord, StdSet.contains, hstop]

theorem StdMap.length_insert_fresh {K V : Type} [LinearOrder K] (m : StdMap K V) (k : K) (v : V)
    (hk : k ∉ StdMap.keys m) : (m.insert k v).length = m.length + 1 := by
  induction m with
  | nil => simp [StdMap.insert]
  | cons e rest ih =>
    obtain ⟨k0, v0⟩ := e
    have hne : ¬ k = k0 := fun h => hk (by simp [StdMap.keys, h])
    have hrest : k ∉ StdMap.keys rest := fun h => hk (by
      simp only [StdMap.keys, List.map_cons]; exact List.mem_cons_of_mem _ h)
    unfold StdMap.insert
    by_cases h1 : k < k0
    · simp [h1]
    · simp [h1, hne, ih hrest]

/-- What a successful `AddDocument` of a new id does to a server without stop
words that satisfies the invariant. -/
theorem AddDocument_fresh {s : Server R} (h : Inv s) (hstop : s.stop_words_ = [])
    (document_id : Int) (document : List Char) (status : DocumentStatus) (ratings : List Int)
    (h0 : 0 ≤ document_id) (hid : document_id ∉ s.documents_.keys)
    (hvalid : ¬ hasInvalidWord document) :
    Inv (AddDocument s document_id document status ratings).state ∧
    (AddDocument s document_id document status ratings).state.stop_words_ = [] ∧
    (∀ k, k ∈ (AddDocument s document_id document status ratings).state.documents_.keys ↔
      k = document_id ∨ k ∈ s.documents_.keys) ∧
    (AddDocument s document_id document status ratings).state.documents_.length =
      s.documents_.length + 1 ∧
    (∀ w i, posting (AddDocument s document_id document status ratings).state w i =
      if i = document_id then termFrequency R (SplitIntoWords document) w
      else posting s w i) ∧
    (∀ i, ratingOf (AddDocument s document_id document status ratings).state i =
      if i = document_id then ComputeAverageRating ratings else ratingOf s i) := by
  rcases AddDocument_cases s document_id document status ratings with ⟨hc, _⟩ | ⟨_, h1⟩
  · rcases hc with hc | hc | hc
    · omega
    · exact absurd hc hid
    · exact absurd hc hvalid
  · rw [h1]
    obtain ⟨f1, _, f3⟩ :=
      AddDocumentResult_fields s document_id (nonStopWords s document) status ratings
    refine ⟨AddDocumentResult_inv h _ _ _ _, f3.trans hstop, ?_, ?_, ?_, ?_⟩
    · intro k
      show k ∈ StdMap.keys (AddDocumentResult s document_id (nonStopWords s document) status
        ratings).documents_ ↔ _
      rw [f1, StdMap.keys_emplace]
    · show (AddDocumentResult s document_id (nonStopWords s document) status
        ratings).documents_.length = _
      rw [f1]
      unfold StdMap.emplace
      have hnone : ¬ (s.documents_.find document_id).isSome = true :=
        fun hs => hid ((StdMap.find_isSome_iff _ _).mp hs)
      rw [if_neg hnone]
      exact StdMap.length_insert_fresh _ _ _ hid
    · intro w i
      show posting (AddDocumentResult s document_id (nonStopWords s document) status ratings)
        w i = _
      rw [posting_AddDocumentResult h document_id hid, nonStopWords_of_no_stop s hstop]
    · intro i
      show ratingOf (AddDocumentResult s document_id (nonStopWords s document) status ratings)
        i = _
      unfold ratingOf
      rw [f1, StdMap.find_emplace _ _ _ _ hid]
      by_cases hi : document_id = i
      · have hi' : i = document_id := hi.symm
        simp [hi, recordOf]
      · have hi' : ¬ i = document_id := fun h => hi h.symm
        simp [hi, hi']

end FreshAdd

section TieCorpus

variable (R : Type) [LinearOrderedField R]

theorem termFrequency_tieText (n : Nat) :
    termFrequency R (SplitIntoWords (tieText n)) ['w'] = some (1 / ((n : R) + 1)) := by
  rw [SplitIntoWords_tieText]
  unfold termFrequency
  rw [if_pos (List.mem_cons_self _ _)]
  have hocc : occurrences (['w'] :: List.replicate n ['x']) ['w'] = 1 := by
    simp [occurrences, occurrences_replicate_x]
  rw [hocc, List.length_cons, List.length_replicate]
  push_cast
  rfl

theorem termFrequency_empty_text (w : Word) :
    termFrequency R (SplitIntoWords []) w = none := by
  simp [SplitIntoWords, SplitIntoWordsLoop, termFrequency]

theorem afterAdd_eq (s : Server R) (document_id : Int) (document : List Char)
    (status : DocumentStatus) (ratings : List Int) :
    afterAdd s document_id document status ratings =
      (AddDocument s document_id document status ratings).state := rfl

theorem tieCorpus1_facts :
    Inv (tieCorpus1 R) ∧ (tieCorpus1 R).stop_words_ = [] ∧
      (∀ k, k ∈ (tieCorpus1 R).documents_.keys ↔ k = 1) ∧
      (tieCorpus1 R).documents_.length = 1 ∧
      (∀ i, posting (tieCorpus1 R) ['w'] i = if i = 1 then some (1 / 652) else none) ∧
      ratingOf (tieCorpus1 R) 1 = 3 := by
  have e0 : ∀ w i, posting (Server.empty [] : Server R) w i = none := by
    intro w i
    simp [posting, Server.empty, StdMap.find]
  have k0 : ∀ k : Int, k ∉ StdMap.keys (Server.empty [] : Server R).documents_ := by
    intro k
    simp [Server.empty, StdMap.keys]
  obtain ⟨i1, s1, k1, l1, p1, r1⟩ := AddDocument_fresh (Inv_empty ([] : StdSet Word))
    (show (Server.empty [] : Server R).stop_words_ = [] from rfl)
    1 (tieText 651) .ACTUAL [3] (by decide) (k0 1) (tieText_valid 651)
  rw [tieCorpus1, afterAdd_eq]
  refine ⟨i1, s1, ?_, ?_, ?_, ?_⟩
  · intro k
    rw [k1]
    exact ⟨fun h => h.elim id (fun h => absurd h (k0 k)), Or.inl⟩
  · rw [l1]
    rfl
  · intro i
    rw [p1, e0, termFrequency_tieText]
    norm_num
  · rw [r1, if_pos rfl]
    decide

theorem tieCorpus2_facts :
    Inv (tieCorpus2 R) ∧ (tieCorpus2 R).stop_words_ = [] ∧
      (∀ k, k ∈ (tieCorpus2 R).documents_.keys ↔ k = 2 ∨ k = 1) ∧
      (tieCorpus2 R).documents_.length = 2 ∧
      (∀ i, posting (tieCorpus2 R) ['w'] i =
        if i = 2 then some (1 / 651) else if i = 1 then some (1 / 652) else none) ∧
      ratingOf (tieCorpus2 R) 1 = 3 ∧ ratingOf (tieCorpus2 R) 2 = 2 := by
  obtain ⟨i1, s1, k1, l1, p1, r1⟩ := tieCorpus1_facts R
  have hid : (2 : Int) ∉ StdMap.keys (tieCorpus1 R).documents_ := by
    rw [k1]
    decide
  obtain ⟨i2, s2, k2, l2, p2, r2⟩ := AddDocument_fresh i1 s1
    2 (tieText 650) .ACTUAL [2] (by decide) hid (tieText_valid 650)
  rw [tieCorpus2, afterAdd_eq]
  refine ⟨i2, s2, ?_, ?_, ?_, ?_, ?_⟩
  · intro k
    rw [k2, k1]
  · rw [l2, l1]
  · intro i
    rw [p2, p1, termFrequency_tieText]
    norm_num
  · rw [r2, r1]
    decide
  · rw [r2, if_pos rfl]
    decide

theorem tieCorpus3_facts :
    Inv (tieCorpus3 R) ∧ (tieCorpus3 R).stop_words_ = [] ∧
      (∀ k, k ∈ (tieCorpus3 R).documents_.keys ↔ k = 3 ∨ k = 2 ∨ k = 1) ∧
      (tieCorpus3 R).documents_.length = 3 ∧
      (∀ i, posting (tieCorpus3 R) ['w'] i =
        if i = 3 then some (1 / 650)
        else if i = 2 then some (1 / 651)
        else if i = 1 then some (1 / 652)
        else none) ∧
      ratingOf (tieCorpus3 R) 1 = 3 ∧ ratingOf (tieCorpus3 R) 2 = 2 ∧
      ratingOf (tieCorpus3 R) 3 = 1 := by
  obtain ⟨i2, s2, k2, l2, p2, r21, r22⟩ := tieCorpus2_facts R
  have hid : (3 : Int) ∉ StdMap.keys (tieCorpus2 R).documents_ := by
    rw [k2]
    decide
  obtain ⟨i3, s3, k3, l3, p3, r3⟩ := AddDocument_fresh i2 s2
    3 (tieText 649) .ACTUAL [1] (by decide) hid (tieText_valid 649)
  rw [tieCorpus3, afterAdd_eq]
  refine ⟨i3, s3, ?_, ?_, ?_, ?_, ?_, ?_⟩
  · intro k
    rw [k3, k2]
  · rw [l3, l2]
  · intro i
    rw [p3, p2, termFrequency_tieText]
    norm_num
  · rw [r3, r21]
    decide
  · rw [r3, r22]
    decide
  · rw [r3, if_pos rfl]
    decide

/-- The state of the corpus with near-tied relevances. -/
theorem tieCorpus_facts :
    Inv (tieCorpus R) ∧ (tieCorpus R).stop_words_ = [] ∧
      (tieCorpus R).documents_.length = 4 ∧
      (∀ i, posting (tieCorpus R) ['w'] i =
        if i = 3 then some (1 / 650)
        else if i = 2 then some (1 / 651)
        else if i = 1 then some (1 / 652)
        else none) ∧
      ratingOf (tieCorpus R) 1 = 3 ∧ ratingOf (tieCorpus R) 2 = 2 ∧
      ratingOf (tieCorpus R) 3 = 1 := by
  obtain ⟨i3, s3, k3, l3, p3, r31, r32, r33⟩ := tieCorpus3_facts R
  have hid : (4 : Int) ∉ StdMap.keys (tieCorpus3 R).documents_ := by
    rw [k3]
    decide
  obtain ⟨i4, s4, _, l4, p4, r4⟩ := AddDocument_fresh i3 s3
    4 [] .ACTUAL [] (by decide) hid empty_text_valid
  rw [tieCorpus, afterAdd_eq]
  refine ⟨i4, s4, ?_, ?_, ?_, ?_, ?_⟩
  · rw [l4, l3]
  · intro i
    rw [p4, p3, termFrequency_empty_text]
    by_cases c4 : i = 4
    · have c3 : ¬ i = 3 := by omega
      have c2 : ¬ i = 2 := by omega
      have c1 : ¬ i = 1 := by omega
      simp [c4]
    · simp only [c4, if_false]
  · rw [r4, r31]
    decide
  · rw [r4, r32]
    decide
  · rw [r4, r33]
    decide

theorem afterAdd_defined {stop : StdSet Word} {s : Server R} (h : ReachableDefined stop s)
    (document_id : Int) (document : List Char) (status : DocumentStatus) (ratings : List Int) :
    ReachableDefined stop (afterAdd s document_id document status ratings) :=
  ReachableDefined.add s document_id document status ratings h

theorem tieCorpus_defined : ReachableDefined [] (tieCorpus R) :=
  afterAdd_defined R (afterAdd_defined R (afterAdd_defined R
    (afterAdd_defined R ReachableDefined.init _ _ _ _) _ _ _ _) _ _ _ _) _ _ _ _

end TieCorpus

theorem sorted_eq_one_two_three (l : List Int) (hs : l.Pairwise (· < ·))
    (hmem : ∀ i, i ∈ l ↔ i = 1 ∨ i = 2 ∨ i = 3) : l = [1, 2, 3] := by
  have hnd : l.Nodup := hs.imp (fun h => ne_of_lt h)
  have hperm : l.Perm [1, 2, 3] :=
    (List.perm_ext_iff_of_nodup hnd (by decide)).mpr (fun i => by
      rw [hmem]
      simp)
  exact List.eq_of_perm_of_sorted hperm hs (by decide)

/-- Three elements that the relation orders in a cycle cannot be arranged in a
list ordered by the relation. -/
theorem no_order_of_cycle {α : Type} (r : α → α → Prop) (a b c : α)
    (hba : ¬ r b a) (hcb : ¬ r c b) (hac : ¬ r a c) (l : List α) (hp : l.Perm [a, b, c])
    (hnd : [a, b, c].Nodup) : ¬ l.Pairwise r := by
  intro hpw
  have hlen : l.length = 3 := hp.length_eq
  obtain ⟨x, y, z, rfl⟩ := List.length_eq_three.mp hlen
  have hnd' : [x, y, z].Nodup := hp.nodup_iff.mpr hnd
  have hx : x ∈ [a, b, c] := hp.subset (by simp)
  have hy : y ∈ [a, b, c] := hp.subset (by simp)
  have hz : z ∈ [a, b, c] := hp.subset (by simp)
  simp only [List.pairwise_cons, List.mem_cons, List.mem_singleton, List.not_mem_nil,
    forall_eq_or_imp, forall_eq, IsEmpty.forall_iff, implies_true, List.Pairwise.nil,
    and_true] at hpw
  simp only [List.nodup_cons, List.mem_cons, List.mem_singleton, List.not_mem_nil,
    not_or, not_false_eq_true, List.nodup_nil, and_true] at hnd'
  simp only [List.mem_cons, List.mem_singleton, List.not_mem_nil, or_false] at hx hy hz
  obtain ⟨⟨hxy, hxz⟩, hyz⟩ := hnd'
  obtain ⟨⟨rxy, rxz⟩, ryz⟩ := hpw
  rcases hx with rfl | rfl | rfl <;> rcases hy with rfl | rfl | rfl <;>
    rcases hz with rfl | rfl | rfl <;>
    first
      | exact absurd rfl hxy
      | exact absurd rfl hxz
      | exact absurd rfl hyz
      | exact hba rxy
      | exact hba rxz
      | exact hba ryz
      | exact hcb rxy
      | exact hcb rxz
      | exact hcb ryz
      | exact hac rxy
      | exact hac rxz

theorem parse_queryW {R : Type} [LinearOrderedField R] (s : Server R)
    (hstop : s.stop_words_ = []) : ParseQuery s ['w'] = .ok queryW := by
  have hview : SplitIntoWordsView ['w'] = [['w']] := by decide
  have hword : ParseQueryWord s ['w'] = .ok ⟨['w'], false, false⟩ := by
    have hm : ¬ ('w' = MINUS) := by decide
    have hstopw : IsStopWord s ['w'] = false := by
      simp [IsStopWord, StdSet.contains, hstop]
    have hvalid : IsValidWord ['w'] = true := by decide
    simp [ParseQueryWord, hm, hstopw, hvalid]
  unfold ParseQuery
  rw [hview]
  simp [ParseQueryLoop, hword, queryW, StdSet.insert]

/-- The postings of `w` in the corpus with near-tied relevances, the number of
documents, and which documents match the query `w`. -/
theorem tieCorpus_ranking (R : Type) [LinearOrderedField R] (ln : R → R) :
    (∀ i, isMatch (tieCorpus R) queryW anyDocument i = true ↔ i = 1 ∨ i = 2 ∨ i = 3) ∧
      relevanceOf ln (tieCorpus R) queryW.plus_words 1 = 1 / 652 * ln (4 / 3) ∧
      relevanceOf ln (tieCorpus R) queryW.plus_words 2 = 1 / 651 * ln (4 / 3) ∧
      relevanceOf ln (tieCorpus R) queryW.plus_words 3 = 1 / 650 * ln (4 / 3) := by
  obtain ⟨hinv, _, hlen, hpost, _, _, _⟩ := tieCorpus_facts R
  have hposted : ∀ i, posted (tieCorpus R) ['w'] i ↔ i = 1 ∨ i = 2 ∨ i = 3 := by
    intro i
    unfold posted
    rw [hpost]
    by_cases c3 : i = 3
    · simp [c3]
    · by_cases c2 : i = 2
      · simp [c2]
      · by_cases c1 : i = 1
        · simp [c1]
        · simp [c1, c2, c3]
  have hN : GetDocumentCount (tieCorpus R) = 4 := by
    unfold GetDocumentCount
    rw [hlen]
    decide
  have hdf : documentFreq (tieCorpus R) ['w'] = 3 := by
    have h1 : posting (tieCorpus R) ['w'] 1 = some (1 / 652) := by
      rw [hpost]
      simp
    unfold documentFreq StdMap.getD
    cases hf : (tieCorpus R).word_to_document_freqs_.find ['w'] with
    | none => rw [posting_of_find_none hf] at h1; simp at h1
    | some freqs =>
      have hk : StdMap.keys freqs = [1, 2, 3] := by
        apply sorted_eq_one_two_three _ (hinv.index.wf_postings _ _ hf)
        intro i
        rw [← StdMap.find_isSome_iff, ← posting_of_find hf]
        exact hposted i
      have : freqs.length = (StdMap.keys freqs).length := by simp [StdMap.keys]
      rw [Option.getD_some, this, hk]
      rfl
  have hrel : ∀ i, posted (tieCorpus R) ['w'] i →
      relevanceOf ln (tieCorpus R) queryW.plus_words i =
        (posting (tieCorpus R) ['w'] i).getD 0 * ln (4 / 3) := by
    intro i hi
    unfold relevanceOf queryW
    simp only [List.filter_cons, hi, decide_True, if_true, List.filter_nil, List.map_cons,
      List.map_nil, List.sum_cons, List.sum_nil, add_zero, termFreq, inverseDocumentFreq, hN,
      hdf]
    norm_num
  refine ⟨?_, ?_, ?_, ?_⟩
  · intro i
    rw [isMatch_iff]
    constructor
    · rintro ⟨⟨w, hw, hp⟩, _, _⟩
      simp only [queryW, List.mem_singleton] at hw
      rw [hw] at hp
      exact (hposted i).mp hp
    · intro hi
      have hp := (hposted i).mpr hi
      have hrec := record_of_posted hinv ['w'] i hp
      obtain ⟨data, hd, _⟩ := atKey_of_mem_keys hrec
      exact ⟨⟨['w'], by simp [queryW], hp⟩, ⟨data, hd, rfl⟩, by simp [queryW]⟩
  · rw [hrel 1 ((hposted 1).mpr (Or.inl rfl)), hpost]
    simp
  · rw [hrel 2 ((hposted 2).mpr (Or.inr (Or.inl rfl))), hpost]
    simp
  · rw [hrel 3 ((hposted 3).mpr (Or.inr (Or.inr rfl))), hpost]
    simp

/-- Claim C3 as stated fails, over the reals with the natural logarithm, on a
server that four calls of `AddDocument` have filled: for the query `w` the documents 1, 2 and 3 match
with the relevances `ln(4/3)/652`, `ln(4/3)/651`, `ln(4/3)/650` and the ratings
3, 2, 1.  Neighbouring relevances are less than `1e-6` apart, so rating decides
and 1 goes before 2, 2 before 3; the relevances of 1 and 3 are more than `1e-6`
apart, so 3 goes before 1.  `FindTopDocuments` returns the three documents, and
no arrangement of them, whatever the sorting algorithm, is ordered as claimed. -/
theorem FindTopDocuments_unsortable_counterexample :
    ReachableDefined [] (tieCorpus ℝ) ∧ ParseQuery (tieCorpus ℝ) ['w'] = .ok queryW ∧
      ∃ docs, FindTopDocuments Real.log (tieCorpus ℝ) ['w'] anyDocument = .ok docs ∧
        docs.length = 3 ∧
        ∀ l : List (Document ℝ), l.Perm docs →
          ¬ l.Pairwise (fun a b =>
            (a.relevance > b.relevance ∧ |a.relevance - b.relevance| ≥ 1 / 1000000) ∨
              (|a.relevance - b.relevance| < 1 / 1000000 ∧ a.rating ≥ b.rating)) := by
  obtain ⟨hinv, hstop, _, _, r1, r2, r3⟩ := tieCorpus_facts ℝ
  obtain ⟨hmatch, rel1, rel2, rel3⟩ := tieCorpus_ranking ℝ Real.log
  have hparse := parse_queryW (tieCorpus ℝ) hstop
  obtain ⟨acc, hwf, hfind, _, heq⟩ :=
    FindTopDocuments_spec Real.log hinv ['w'] queryW hparse anyDocument
  have hk : StdMap.keys acc = [1, 2, 3] := by
    apply sorted_eq_one_two_three _ hwf
    intro i
    rw [← StdMap.find_isSome_iff, hfind, ← hmatch]
    by_cases hm : isMatch (tieCorpus ℝ) queryW anyDocument i = true <;> simp [hm]
  have hdocs : acc.map (fun e => (⟨e.1, e.2, ratingOf (tieCorpus ℝ) e.1⟩ : Document ℝ)) =
      [⟨1, 1 / 652 * Real.log (4 / 3), 3⟩, ⟨2, 1 / 651 * Real.log (4 / 3), 2⟩,
        ⟨3, 1 / 650 * Real.log (4 / 3), 1⟩] := by
    have hval : ∀ e ∈ acc, (⟨e.1, e.2, ratingOf (tieCorpus ℝ) e.1⟩ : Document ℝ) =
        ⟨e.1, relevanceOf Real.log (tieCorpus ℝ) queryW.plus_words e.1,
          ratingOf (tieCorpus ℝ) e.1⟩ := by
      intro e he
      have h1 : acc.find e.1 = some e.2 := StdMap.find_of_mem hwf he
      rw [hfind] at h1
      by_cases hm : isMatch (tieCorpus ℝ) queryW anyDocument e.1 = true
      · rw [if_pos hm] at h1
        rw [Option.some.inj h1]
      · rw [if_neg hm] at h1
        simp at h1
    rw [List.map_congr_left hval]
    have hcomp : acc.map (fun e => (⟨e.1, relevanceOf Real.log (tieCorpus ℝ)
        queryW.plus_words e.1, ratingOf (tieCorpus ℝ) e.1⟩ : Document ℝ)) =
        (StdMap.keys acc).map (fun i => (⟨i, relevanceOf Real.log (tieCorpus ℝ)
          queryW.plus_words i, ratingOf (tieCorpus ℝ) i⟩ : Document ℝ)) := by
      unfold StdMap.keys
      rw [List.map_map]
      rfl
    rw [hcomp, hk]
    simp only [List.map_cons, List.map_nil, rel1, rel2, rel3, r1, r2, r3]
  rw [hdocs] at heq
  have hperm := stdSort_perm documentBefore
    ([⟨1, 1 / 652 * Real.log (4 / 3), 3⟩, ⟨2, 1 / 651 * Real.log (4 / 3), 2⟩,
      ⟨3, 1 / 650 * Real.log (4 / 3), 1⟩] : List (Document ℝ))
  have hlen := hperm.length_eq
  have htake : (stdSort documentBefore
      ([⟨1, 1 / 652 * Real.log (4 / 3), 3⟩, ⟨2, 1 / 651 * Real.log (4 / 3), 2⟩,
        ⟨3, 1 / 650 * Real.log (4 / 3), 1⟩] : List (Document ℝ))).take
        MAX_RESULT_DOCUMENT_COUNT = stdSort documentBefore
      ([⟨1, 1 / 652 * Real.log (4 / 3), 3⟩, ⟨2, 1 / 651 * Real.log (4 / 3), 2⟩,
        ⟨3, 1 / 650 * Real.log (4 / 3), 1⟩] : List (Document ℝ)) := by
    apply List.take_of_length_le
    rw [hlen]
    decide
  rw [htake] at heq
  have hlo : (1 : ℝ) / 4 ≤ Real.log (4 / 3) := by
    have := Real.one_sub_inv_le_log_of_pos (show (0 : ℝ) < 4 / 3 by norm_num)
    norm_num at this
    linarith
  have hhi : Real.log (4 / 3) ≤ (1 : ℝ) / 3 := by
    have := Real.log_le_sub_one_of_pos (show (0 : ℝ) < 4 / 3 by norm_num)
    norm_num at this
    linarith
  refine ⟨tieCorpus_defined ℝ, hparse, _, heq, hlen, ?_⟩
  intro l hl
  apply no_order_of_cycle _ _ _ _ ?_ ?_ ?_ l (hl.trans hperm)
  · simp [Document.mk.injEq]
  · rintro (⟨_, h⟩ | ⟨_, h⟩)
    · simp only [ge_iff_le] at h
      have habs : |1 / 651 * Real.log (4 / 3) - 1 / 652 * Real.log (4 / 3)| < 1 / 1000000 := by
        rw [abs_lt]
        constructor <;> linarith
      exact absurd h (not_le.mpr habs)
    · simp only [ge_iff_le] at h
      omega
  · rintro (⟨_, h⟩ | ⟨_, h⟩)
    · simp only [ge_iff_le] at h
      have habs : |1 / 650 * Real.log (4 / 3) - 1 / 651 * Real.log (4 / 3)| < 1 / 1000000 := by
        rw [abs_lt]
        constructor <;> linarith
      exact absurd h (not_le.mpr habs)
    · simp only [ge_iff_le] at h
      omega
  · rintro (⟨h, _⟩ | ⟨h, _⟩)
    · simp only [gt_iff_lt] at h
      linarith
    · simp only at h
      rw [abs_lt] at h
      linarith [h.1]

/-! ## Sorted containers are determined by their content -/

theorem StdSet.eq_of_mem_iff {K : Type} [LinearOrder K] {a b : StdSet K} (ha : StdSet.WF a)
    (hb : StdSet.WF b) (h : ∀ k, k ∈ a ↔ k ∈ b) : a = b := by
  have hp : a.Perm b := (List.perm_ext_iff_of_nodup (ha.imp ne_of_lt) (hb.imp ne_of_lt)).mpr h
  exact List.eq_of_perm_of_sorted hp ha hb

theorem StdMap.keys_eq_of_find {K V : Type} [LinearOrder K] {a b : StdMap K V} (ha : a.WF)
    (hb : b.WF) (h : ∀ k, a.find k = b.find k) : a.keys = b.keys := by
  apply StdSet.eq_of_mem_iff ha hb
  intro k
  rw [← StdMap.find_isSome_iff, ← StdMap.find_isSome_iff, h k]

theorem StdMap.eq_of_find {K V : Type} [LinearOrder K] {a b : StdMap K V} (ha : a.WF)
    (hb : b.WF) (h : ∀ k, a.find k = b.find k) : a = b := by
  have hk := StdMap.keys_eq_of_find ha hb h
  apply List.ext_get
  · have := congrArg List.length hk
    simpa [StdMap.keys] using this
  · intro n h1 h2
    have e1 : (a.get ⟨n, h1⟩).1 = (b.get ⟨n, h2⟩).1 := by
      have h3 : n < a.keys.length := by simpa [StdMap.keys] using h1
      have h4 : n < b.keys.length := by simpa [StdMap.keys] using h2
      have e3 : a.keys.get ⟨n, h3⟩ = b.keys.get ⟨n, h4⟩ := by
        simp only [List.get_eq_getElem]
        congr 1
      simpa [StdMap.keys] using e3
    have f1 : a.find (a.get ⟨n, h1⟩).1 = some (a.get ⟨n, h1⟩).2 :=
      StdMap.find_of_mem ha (List.get_mem a n h1)
    have f2 : b.find (b.get ⟨n, h2⟩).1 = some (b.get ⟨n, h2⟩).2 :=
      StdMap.find_of_mem hb (List.get_mem b n h2)
    rw [← e1, ← h, f1] at f2
    exact Prod.ext e1 (Option.some.inj f2)

/-! ## The invariants of the index -/

section Invariants

variable {R : Type} [LinearOrderedField R]

theorem manyDocuments_reachable (n : Nat) : Reachable [] (manyDocuments R n) := by
  induction n with
  | zero => exact Reachable.init
  | succ n ih => exact Reachable.add _ _ _ _ _ ih

theorem manyDocuments_defined (n : Nat) : ReachableDefined [] (manyDocuments R n) := by
  induction n with
  | zero => exact ReachableDefined.init
  | succ n ih => exact ReachableDefined.add _ _ _ _ _ ih

theorem manyDocuments_facts (n : Nat) :
    (manyDocuments R n).stop_words_ = [] ∧
    (∀ k, k ∈ (manyDocuments R n).documents_.keys ↔ 0 ≤ k ∧ k < (n : Int)) ∧
    (manyDocuments R n).documents_.length = n := by
  induction n with
  | zero =>
    refine ⟨rfl, fun k => ?_, rfl⟩
    simp only [manyDocuments, Server.empty, StdMap.keys, List.map_nil, List.not_mem_nil,
      false_iff]
    omega
  | succ n ih =>
    obtain ⟨h1, h2, h3⟩ := ih
    have hid : ((n : Nat) : Int) ∉ (manyDocuments R n).documents_.keys := by
      rw [h2]
      omega
    obtain ⟨_, g2, g3, g4, _, _⟩ := AddDocument_fresh (manyDocuments_defined n).inv h1
      (n : Int) [] .ACTUAL [] (Int.natCast_nonneg n) hid empty_text_valid
    refine ⟨g2, fun k => ?_, ?_⟩
    · show k ∈ (AddDocument (manyDocuments R n) (n : Int) [] .ACTUAL []).state.documents_.keys
        ↔ _
      rw [g3 k, h2 k]
      push_cast
      omega
    · show (AddDocument (manyDocuments R n) (n : Int) [] .ACTUAL []).state.documents_.length = _
      rw [g4, h3]

theorem ids_eq_keys {s : Server R} (h : RecordsInv s) : s.document_ids_ = s.documents_.keys :=
  StdSet.eq_of_mem_iff h.wf_ids h.wf_documents h.ids_eq_records

end Invariants

section InvariantClaims

variable {R : Type} [LinearOrderedField R]

theorem wrap32_of_small (n : Nat) (h : n < 2147483648) : wrap32 (n : Int) = (n : Int) := by
  unfold wrap32
  omega

theorem nested_find_iff {K K2 V : Type} [LinearOrder K] [LinearOrder K2]
    {m : StdMap K (StdMap K2 V)} (hm : m.WF)
    (hin : ∀ k inner, m.find k = some inner → inner.WF) (k : K) (k2 : K2) (v : V) :
    (m.find k).bind (fun inner => inner.find k2) = some v ↔
      ∃ inner, (k, inner) ∈ m ∧ (k2, v) ∈ inner := by
  constructor
  · intro h
    cases hf : m.find k with
    | none => rw [hf] at h; simp at h
    | some inner =>
      rw [hf] at h
      exact ⟨inner, StdMap.mem_of_find hf, StdMap.mem_of_find h⟩
  · rintro ⟨inner, h1, h2⟩
    have hf := StdMap.find_of_mem hm h1
    rw [hf]
    exact StdMap.find_of_mem (hin k inner hf) h2

/-- Claim C18 (amended): after any sequence of calls of `AddDocument` and
`RemoveDocument` on a new server, failed calls included, the id set that
`begin()`/`end()` iterate is the key set of the document records, in the same
order, and `GetDocumentCount()` is the number of ids in the id set whenever that
number is below `2^31`. -/
theorem document_ids_eq_records {stop : StdSet Word} {s : Server R}
    (hs : Reachable stop s) :
    s.document_ids_ = s.documents_.keys ∧
    (s.document_ids_.length < 2147483648 →
      GetDocumentCount s = (s.document_ids_.length : Int)) := by
  have e := ids_eq_keys hs.records
  refine ⟨e, fun hlt => ?_⟩
  have e2 : s.documents_.length = s.document_ids_.length := by
    rw [e, StdMap.keys, List.length_map]
  unfold GetDocumentCount
  rw [e2]
  exact wrap32_of_small _ hlt

/-- The property of claim C19 where no call of `RemoveDocument` has removed a
document: in a state reached with defined behaviour the forward index has an
entry for `(document_id, word)` with the frequency `tf` if and only if the
inverted index has a posting for `(word, document_id)` with the same frequency,
both as lookups and as entries of the two maps. -/
theorem index_lockstep_defined {stop : StdSet Word} {s : Server R}
    (hs : ReachableDefined stop s)
    (word : Word) (document_id : Int) (tf : R) :
    (forwardEntry s document_id word = some tf ↔ posting s word document_id = some tf) ∧
    ((∃ row, (document_id, row) ∈ s.word_frequencies_to_document ∧ (word, tf) ∈ row) ↔
      ∃ freqs, (word, freqs) ∈ s.word_to_document_freqs_ ∧ (document_id, tf) ∈ freqs) := by
  have h := hs.inv.index
  have h1 : forwardEntry s document_id word = some tf ↔ posting s word document_id = some tf := by
    rw [h.lockstep]
  refine ⟨h1, ?_⟩
  rw [← nested_find_iff h.wf_forward h.wf_rows, ← nested_find_iff h.wf_inverted h.wf_postings]
  exact h1

/-- Every row of the forward index of a state reached with defined behaviour
belongs to a document that has a record and is in the id set. -/
theorem forward_row_has_record {stop : StdSet Word} {s : Server R}
    (hs : ReachableDefined stop s)
    (document_id : Int) (h : document_id ∈ s.word_frequencies_to_document.keys) :
    document_id ∈ s.documents_.keys ∧ document_id ∈ s.document_ids_ :=
  ⟨hs.inv.index.row_has_record _ h,
    (hs.inv.ids_eq_records _).mpr (hs.inv.index.row_has_record _ h)⟩

end InvariantClaims

/-- Claim C18 (amended), witness: the corpus of scenario S1 has the ids 1, 2
and 3, and its document count is 3. -/
theorem document_ids_eq_records_witness :
    (corpusS1.document_ids_ = corpusS1.documents_.keys ∧
      (corpusS1.document_ids_.length < 2147483648 →
        GetDocumentCount corpusS1 = (corpusS1.document_ids_.length : Int))) ∧
    corpusS1.document_ids_ = [1, 2, 3] ∧ GetDocumentCount corpusS1 = 3 :=
  ⟨document_ids_eq_records corpusS1_reachable, by decide, by decide⟩

/-- Claim C18, counterexample: after `AddDocument(k, "", ACTUAL, {})` for every
`k` from 0 to `2^31 - 1`, each of them an `int`, the id set has `2^31` ids and
`GetDocumentCount()`, the size converted to `int`, is `-2^31`. -/
theorem GetDocumentCount_counterexample :
    Reachable [] (manyDocuments ℚ 2147483648) ∧
    (∀ k ∈ (manyDocuments ℚ 2147483648).document_ids_, isInt32 k) ∧
    (manyDocuments ℚ 2147483648).document_ids_.length = 2147483648 ∧
    GetDocumentCount (manyDocuments ℚ 2147483648) = -2147483648 := by
  have hr : Reachable [] (manyDocuments ℚ 2147483648) := manyDocuments_reachable 2147483648
  obtain ⟨_, h2, h3⟩ := @manyDocuments_facts ℚ _ 2147483648
  have e := ids_eq_keys hr.records
  refine ⟨hr, fun k hk => ?_, ?_, ?_⟩
  · rw [e, h2] at hk
    unfold isInt32
    omega
  · rw [e, StdMap.keys, List.length_map, h3]
  · unfold GetDocumentCount
    rw [h3]
    decide

/-- In the corpus of scenario S1 the word `кот` of document 1 has the frequency
`1/4` in both indices. -/
theorem index_lockstep_defined_witness :
    (forwardEntry corpusS1 1 "кот".toList = some (1 / 4) ↔
      posting corpusS1 "кот".toList 1 = some (1 / 4)) ∧
    ((∃ row, (1, row) ∈ corpusS1.word_frequencies_to_document ∧
        ("кот".toList, (1 / 4 : ℚ)) ∈ row) ↔
      ∃ freqs, ("кот".toList, freqs) ∈ corpusS1.word_to_document_freqs_ ∧
        (1, (1 / 4 : ℚ)) ∈ freqs) :=
  index_lockstep_defined corpusS1_defined "кот".toList 1 (1 / 4)

/-- Claim C20, the code at the failing inputs: document 1, whose text holds stop
words only, and document 4, whose text is empty, are added without an exception;
each is in the id set and has a document record, and neither has a row in the
forward index. -/
theorem wordless_document_has_no_forward_row :
    Reachable stopWordsS1 wordlessCorpus ∧
    (AddDocument (Server.empty stopWordsS1 : Server ℚ) 1 "в и на".toList .ACTUAL [5]).thrown
      = none ∧
    1 ∈ wordlessCorpus.document_ids_ ∧
    1 ∈ wordlessCorpus.documents_.keys ∧
    1 ∉ wordlessCorpus.word_frequencies_to_document.keys ∧
    Reachable stopWordsS1 (AddDocument corpusS1 4 [] .ACTUAL []).state ∧
    (AddDocument corpusS1 4 [] .ACTUAL []).thrown = none ∧
    4 ∈ (AddDocument corpusS1 4 [] .ACTUAL []).state.document_ids_ ∧
    4 ∈ (AddDocument corpusS1 4 [] .ACTUAL []).state.documents_.keys ∧
    4 ∉ (AddDocument corpusS1 4 [] .ACTUAL []).state.word_frequencies_to_document.keys := by
  refine ⟨Reachable.add _ _ _ _ _ Reachable.init, by decide, by decide, by decide, by decide,
    Reachable.add _ _ _ _ _ corpusS1_reachable, by decide, by decide!, by decide!, by decide!⟩

/-! ## `ParseQuery` -/

section ParseQuerySpec

variable {R : Type} [LinearOrderedField R]

theorem IsValidWord_eq_false_iff (word : Word) :
    IsValidWord word = false ↔ ∃ c ∈ word, c.toNat < 32 := by
  unfold IsValidWord
  simp

theorem ParseQueryWord_bad (s : Server R) (token : Word) (h : badToken token) :
    ParseQueryWord s token = .error .invalid_argument := by
  cases token with
  | nil => rfl
  | cons c rest =>
    unfold ParseQueryWord
    simp only
    apply if_pos
    unfold badToken tokenBody isMinusToken at h
    simp only [List.head?_cons, Option.some.injEq, List.tail_cons] at h
    rcases h with h | h | h | h
    · exact absurd h (by simp)
    · simp only [List.cons.injEq] at h
      left
      rw [h.1, h.2]
      simp
    · right; left
      by_cases hc : c = MINUS
      · simpa [hc] using h
      · simp [hc] at h
    · right; right
      have : IsValidWord (if decide (c = MINUS) = true then rest else c :: rest) = false := by
        rw [IsValidWord_eq_false_iff]
        by_cases hc : c = MINUS
        · simpa [hc] using h
        · simpa [hc] using h
      rw [this]
      rfl

theorem ParseQueryWord_good (s : Server R) (token : Word) (h : ¬ badToken token) :
    ParseQueryWord s token =
      .ok ⟨tokenBody token, isMinusToken token, IsStopWord s (tokenBody token)⟩ := by
  cases token with
  | nil => exact absurd (Or.inl rfl) h
  | cons c rest =>
    unfold ParseQueryWord
    simp only
    have e1 : (if decide (c = MINUS) = true then rest else c :: rest) = tokenBody (c :: rest) := by
      simp [tokenBody, isMinusToken]
    have e2 : decide (c = MINUS) = isMinusToken (c :: rest) := by
      simp [isMinusToken]
    rw [e1, e2]
    apply if_neg
    unfold badToken at h
    push_neg at h
    obtain ⟨_, h2, h3, h4⟩ := h
    rintro (g | g | g)
    · by_cases hc : c = MINUS
      · apply h2
        simp only [tokenBody, isMinusToken, List.head?_cons, hc, decide_True, if_true,
          List.tail_cons] at g
        rw [hc, g]
      · simp [tokenBody, isMinusToken, hc] at g
    · exact h3 g
    · have g2 : IsValidWord (tokenBody (c :: rest)) = false := by simpa using g
      obtain ⟨x, hx, hlt⟩ := (IsValidWord_eq_false_iff _).mp g2
      exact absurd hlt (not_lt.mpr (h4 x hx))

end ParseQuerySpec

section ParseQueryLoopSpec

variable {R : Type} [LinearOrderedField R]

theorem ParseQueryLoop_bad (s : Server R) (ws : List Word) (result : Query)
    (h : ∃ t ∈ ws, badToken t) : ParseQueryLoop s ws result = .error .invalid_argument := by
  induction ws generalizing result with
  | nil => simp at h
  | cons word rest ih =>
    unfold ParseQueryLoop
    by_cases hb : badToken word
    · rw [ParseQueryWord_bad s word hb]
    · rw [ParseQueryWord_good s word hb]
      have h2 : ∃ t ∈ rest, badToken t := by
        obtain ⟨t, ht, hbt⟩ := h
        rcases List.mem_cons.mp ht with h3 | h3
        · rw [h3] at hbt
          exact absurd hbt hb
        · exact ⟨t, h3, hbt⟩
      simp only
      split <;> [split; skip] <;> exact ih _ h2

theorem ParseQueryLoop_good (s : Server R) (ws : List Word) (result : Query)
    (h : ∀ t ∈ ws, ¬ badToken t) :
    ∃ query, ParseQueryLoop s ws result = .ok query ∧
      (∀ w, w ∈ query.plus_words ↔ w ∈ result.plus_words ∨
        ∃ t ∈ ws, isMinusToken t = false ∧ tokenBody t = w ∧ IsStopWord s w = false) ∧
      (∀ w, w ∈ query.minus_words ↔ w ∈ result.minus_words ∨
        ∃ t ∈ ws, isMinusToken t = true ∧ tokenBody t = w ∧ IsStopWord s w = false) := by
  induction ws generalizing result with
  | nil => exact ⟨result, rfl, fun w => by simp, fun w => by simp⟩
  | cons word rest ih =>
    have hb : ¬ badToken word := h word (List.mem_cons_self _ _)
    have hrest : ∀ t ∈ rest, ¬ badToken t := fun t ht => h t (List.mem_cons_of_mem _ ht)
    unfold ParseQueryLoop
    rw [ParseQueryWord_good s word hb]
    simp only
    cases hstop : IsStopWord s (tokenBody word) with
    | true =>
      obtain ⟨query, e, hp, hm⟩ := ih result hrest
      refine ⟨query, by simpa using e, fun w => ?_, fun w => ?_⟩
      · rw [hp w]
        apply or_congr_right
        constructor
        · rintro ⟨t, ht, h1⟩
          exact ⟨t, List.mem_cons_of_mem _ ht, h1⟩
        · rintro ⟨t, ht, h1, h2, h3⟩
          rcases List.mem_cons.mp ht with h4 | h4
          · rw [← h2, h4, hstop] at h3 ; exact absurd h3 (by simp)
          · exact ⟨t, h4, h1, h2, h3⟩
      · rw [hm w]
        apply or_congr_right
        constructor
        · rintro ⟨t, ht, h1⟩
          exact ⟨t, List.mem_cons_of_mem _ ht, h1⟩
        · rintro ⟨t, ht, h1, h2, h3⟩
          rcases List.mem_cons.mp ht with h4 | h4
          · rw [← h2, h4, hstop] at h3 ; exact absurd h3 (by simp)
          · exact ⟨t, h4, h1, h2, h3⟩
    | false =>
      cases hminus : isMinusToken word with
      | true =>
        obtain ⟨query, e, hp, hm⟩ := ih
          { result with minus_words := StdSet.insert (tokenBody word) result.minus_words } hrest
        refine ⟨query, by simpa using e, fun w => ?_, fun w => ?_⟩
        · rw [hp w]
          apply or_congr_right
          constructor
          · rintro ⟨t, ht, h1⟩
            exact ⟨t, List.mem_cons_of_mem _ ht, h1⟩
          · rintro ⟨t, ht, h1, h2, h3⟩
            rcases List.mem_cons.mp ht with h4 | h4
            · rw [h4, hminus] at h1 ; exact absurd h1 (by simp)
            · exact ⟨t, h4, h1, h2, h3⟩
        · rw [hm w, StdSet.mem_insert]
          constructor
          · rintro ((h1 | h1) | ⟨t, ht, h1⟩)
            · exact Or.inr ⟨word, List.mem_cons_self _ _, hminus, h1.symm, by rw [h1]; exact hstop⟩
            · exact Or.inl h1
            · exact Or.inr ⟨t, List.mem_cons_of_mem _ ht, h1⟩
          · rintro (h1 | ⟨t, ht, h1, h2, h3⟩)
            · exact Or.inl (Or.inr h1)
            · rcases List.mem_cons.mp ht with h4 | h4
              · exact Or.inl (Or.inl (by rw [← h2, h4]))
              · exact Or.inr ⟨t, h4, h1, h2, h3⟩
      | false =>
        obtain ⟨query, e, hp, hm⟩ := ih
          { result with plus_words := StdSet.insert (tokenBody word) result.plus_words } hrest
        refine ⟨query, by simpa using e, fun w => ?_, fun w => ?_⟩
        · rw [hp w, StdSet.mem_insert]
          constructor
          · rintro ((h1 | h1) | ⟨t, ht, h1⟩)
            · exact Or.inr ⟨word, List.mem_cons_self _ _, hminus, h1.symm, by rw [h1]; exact hstop⟩
            · exact Or.inl h1
            · exact Or.inr ⟨t, List.mem_cons_of_mem _ ht, h1⟩
          · rintro (h1 | ⟨t, ht, h1, h2, h3⟩)
            · exact Or.inl (Or.inr h1)
            · rcases List.mem_cons.mp ht with h4 | h4
              · exact Or.inl (Or.inl (by rw [← h2, h4]))
              · exact Or.inr ⟨t, h4, h1, h2, h3⟩
        · rw [hm w]
          apply or_congr_right
          constructor
          · rintro ⟨t, ht, h1⟩
            exact ⟨t, List.mem_cons_of_mem _ ht, h1⟩
          · rintro ⟨t, ht, h1, h2, h3⟩
            rcases List.mem_cons.mp ht with h4 | h4
            · rw [h4, hminus] at h1 ; exact absurd h1 (by simp)
            · exact ⟨t, h4, h1, h2, h3⟩

end ParseQueryLoopSpec

section QueryErrors

variable {R : Type} [LinearOrderedField R]

theorem StdMap.atKey_error {K V : Type} [LinearOrder K] (m : StdMap K V) (k : K) (e : Exn)
    (h : m.atKey k = .error e) : e = .out_of_range := by
  unfold StdMap.atKey at h
  cases hf : m.find k with
  | none => rw [hf] at h; simp only [Except.error.injEq] at h; exact h.symm
  | some v => rw [hf] at h; simp at h

theorem plusPostingsLoop_error (s : Server R) (document_predicate : DocumentPredicate) (idf : R)
    (freqs : List (Int × R)) (acc : StdMap Int R) (e : Exn)
    (h : plusPostingsLoop s document_predicate idf freqs acc = .error e) :
    e = .out_of_range := by
  induction freqs generalizing acc with
  | nil => simp [plusPostingsLoop] at h
  | cons p rest ih =>
    obtain ⟨i, tf⟩ := p
    unfold plusPostingsLoop at h
    cases hd : s.documents_.atKey i with
    | error e2 =>
      rw [hd] at h
      simp only [Except.error.injEq] at h
      rw [← h]
      exact StdMap.atKey_error _ _ _ hd
    | ok d =>
      rw [hd] at h
      simp only at h
      split at h <;> exact ih _ h

theorem plusWordsLoop_error (ln : R → R) (s : Server R) (document_predicate : DocumentPredicate)
    (ws : List Word) (acc : StdMap Int R) (e : Exn)
    (h : plusWordsLoop ln s document_predicate ws acc = .error e) : e = .out_of_range := by
  induction ws generalizing acc with
  | nil => simp [plusWordsLoop] at h
  | cons w rest ih =>
    unfold plusWordsLoop at h
    split at h
    · exact ih _ h
    · unfold ComputeWordInverseDocumentFreq at h
      cases hf : s.word_to_document_freqs_.atKey w with
      | error e2 =>
        rw [hf] at h
        simp only [Except.error.injEq] at h
        rw [← h]
        exact StdMap.atKey_error _ _ _ hf
      | ok freqs =>
        rw [hf] at h
        simp only at h
        cases hp : plusPostingsLoop s document_predicate
            (ln ((GetDocumentCount s : R) * 1 / (freqs.length : R))) freqs acc with
        | error e2 =>
          rw [hp] at h
          simp only [Except.error.injEq] at h
          rw [← h]
          exact plusPostingsLoop_error _ _ _ _ _ _ hp
        | ok acc2 =>
          rw [hp] at h
          exact ih _ h

theorem minusWordsLoop_error (s : Server R) (ws : List Word) (acc : StdMap Int R) (e : Exn)
    (h : minusWordsLoop s ws acc = .error e) : e = .out_of_range := by
  induction ws generalizing acc with
  | nil => simp [minusWordsLoop] at h
  | cons w rest ih =>
    unfold minusWordsLoop at h
    split at h
    · exact ih _ h
    · cases hf : s.word_to_document_freqs_.atKey w with
      | error e2 =>
        rw [hf] at h
        simp only [Except.error.injEq] at h
        rw [← h]
        exact StdMap.atKey_error _ _ _ hf
      | ok freqs =>
        rw [hf] at h
        exact ih _ h

theorem matchedLoop_error (s : Server R) (l : List (Int × R)) (out : List (Document R))
    (e : Exn) (h : matchedLoop s l out = .error e) : e = .out_of_range := by
  induction l generalizing out with
  | nil => simp [matchedLoop] at h
  | cons p rest ih =>
    obtain ⟨i, r⟩ := p
    unfold matchedLoop at h
    cases hd : s.documents_.atKey i with
    | error e2 =>
      rw [hd] at h
      simp only [Except.error.injEq] at h
      rw [← h]
      exact StdMap.atKey_error _ _ _ hd
    | ok d =>
      rw [hd] at h
      exact ih _ h

theorem FindAllDocuments_error (ln : R → R) (s : Server R) (query : Query)
    (document_predicate : DocumentPredicate) (e : Exn)
    (h : FindAllDocuments ln s query document_predicate = .error e) : e = .out_of_range := by
  unfold FindAllDocuments at h
  cases hp : plusWordsLoop ln s document_predicate query.plus_words [] with
  | error e2 =>
    rw [hp] at h
    simp only [Except.error.injEq] at h
    rw [← h]
    exact plusWordsLoop_error _ _ _ _ _ _ hp
  | ok acc =>
    rw [hp] at h
    simp only at h
    cases hm : minusWordsLoop s query.minus_words acc with
    | error e2 =>
      rw [hm] at h
      simp only [Except.error.injEq] at h
      rw [← h]
      exact minusWordsLoop_error _ _ _ _ hm
    | ok acc2 =>
      rw [hm] at h
      exact matchedLoop_error _ _ _ _ h

theorem anyOfPosted_error (s : Server R) (document_id : Int) (ws : List Word) (e : Exn)
    (h : anyOfPosted s document_id ws = .error e) : e = .terminate := by
  induction ws with
  | nil => simp [anyOfPosted] at h
  | cons w rest ih =>
    unfold anyOfPosted at h
    split at h
    · simp only [Except.error.injEq] at h; exact h.symm
    · simp at h
    · exact ih h

theorem copyIfPosted_error (s : Server R) (document_id : Int) (ws out : List Word) (e : Exn)
    (h : copyIfPosted s document_id ws out = .error e) : e = .terminate := by
  induction ws generalizing out with
  | nil => simp [copyIfPosted] at h
  | cons w rest ih =>
    unfold copyIfPosted at h
    split at h
    · simp only [Except.error.injEq] at h; exact h.symm
    · exact ih _ h
    · exact ih _ h

end QueryErrors

section ParseQueryClaims

variable {R : Type} [LinearOrderedField R]

theorem ParseQuery_of_bad (s : Server R) (text : List Char)
    (h : ∃ t ∈ SplitIntoWordsView text, badToken t) :
    ParseQuery s text = .error .invalid_argument :=
  ParseQueryLoop_bad s _ _ h

theorem ParseQuery_of_good (s : Server R) (text : List Char)
    (h : ¬ ∃ t ∈ SplitIntoWordsView text, badToken t) :
    ∃ query, ParseQuery s text = .ok query ∧
      (∀ w, w ∈ query.plus_words ↔ ∃ t ∈ SplitIntoWordsView text,
        isMinusToken t = false ∧ tokenBody t = w ∧ IsStopWord s w = false) ∧
      (∀ w, w ∈ query.minus_words ↔ ∃ t ∈ SplitIntoWordsView text,
        isMinusToken t = true ∧ tokenBody t = w ∧ IsStopWord s w = false) := by
  obtain ⟨query, e, hp, hm⟩ := ParseQueryLoop_good s (SplitIntoWordsView text) ⟨[], []⟩
    (fun t ht hb => h ⟨t, ht, hb⟩)
  refine ⟨query, e, fun w => ?_, fun w => ?_⟩
  · rw [hp w]
    simp
  · rw [hm w]
    simp

/-- Claim C13: `ParseQuery`, and with it `FindTopDocuments` and `MatchDocument`,
fails with `invalid_argument` if and only if some token that `SplitIntoWordsView`
gives for the query text is empty, is the minus sign alone, has a body that
begins with a minus sign, or has a body that holds a byte below `0x20`.
Otherwise `ParseQuery` returns a query whose plus words are the bodies of the
tokens without a minus sign that are not stop words, and whose minus words are
the bodies of the tokens with a minus sign that are not stop words. -/
theorem ParseQuery_fails_iff (ln : R → R) (s : Server R) (text : List Char)
    (document_predicate : DocumentPredicate) (document_id : Int) :
    (ParseQuery s text = .error .invalid_argument ↔
      ∃ t ∈ SplitIntoWordsView text, badToken t) ∧
    (FindTopDocuments ln s text document_predicate = .error .invalid_argument ↔
      ∃ t ∈ SplitIntoWordsView text, badToken t) ∧
    (MatchDocument s text document_id = .error .invalid_argument ↔
      ∃ t ∈ SplitIntoWordsView text, badToken t) ∧
    ((¬ ∃ t ∈ SplitIntoWordsView text, badToken t) →
      ∃ query, ParseQuery s text = .ok query ∧
        (∀ w, w ∈ query.plus_words ↔ ∃ t ∈ SplitIntoWordsView text,
          isMinusToken t = false ∧ tokenBody t = w ∧ IsStopWord s w = false) ∧
        (∀ w, w ∈ query.minus_words ↔ ∃ t ∈ SplitIntoWordsView text,
          isMinusToken t = true ∧ tokenBody t = w ∧ IsStopWord s w = false)) := by
  by_cases hbad : ∃ t ∈ SplitIntoWordsView text, badToken t
  · have e := ParseQuery_of_bad s text hbad
    refine ⟨⟨fun _ => hbad, fun _ => e⟩, ⟨fun _ => hbad, fun _ => ?_⟩,
      ⟨fun _ => hbad, fun _ => ?_⟩, fun h => absurd hbad h⟩
    · unfold FindTopDocuments
      rw [e]
    · unfold MatchDocument
      rw [e]
  · obtain ⟨query, e, hp, hm⟩ := ParseQuery_of_good s text hbad
    refine ⟨⟨fun h => ?_, fun h => absurd h hbad⟩, ⟨fun h => ?_, fun h => absurd h hbad⟩,
      ⟨fun h => ?_, fun h => absurd h hbad⟩, fun _ => ⟨query, e, hp, hm⟩⟩
    · rw [e] at h
      simp at h
    · unfold FindTopDocuments at h
      rw [e] at h
      simp only at h
      cases hf : FindAllDocuments ln s query document_predicate with
      | error e2 =>
        rw [hf] at h
        have := FindAllDocuments_error ln s query document_predicate e2 hf
        rw [this] at h
        simp at h
      | ok l =>
        rw [hf] at h
        simp only at h
        split at h <;> simp at h
    · unfold MatchDocument at h
      rw [e] at h
      simp only at h
      cases ha : anyOfPosted s document_id query.minus_words with
      | error e2 =>
        rw [ha] at h
        have := anyOfPosted_error s document_id _ e2 ha
        rw [this] at h
        simp at h
      | ok b =>
        rw [ha] at h
        cases hd : s.documents_.atKey document_id with
        | error e3 =>
          have h3 := StdMap.atKey_error _ _ _ hd
          cases b with
          | true =>
            simp only [hd] at h
            rw [h3] at h
            simp at h
          | false =>
            simp only at h
            cases hc : copyIfPosted s document_id query.plus_words [] with
            | error e4 =>
              rw [hc] at h
              have := copyIfPosted_error s document_id _ _ e4 hc
              rw [this] at h
              simp at h
            | ok m =>
              rw [hc] at h
              simp only [hd] at h
              rw [h3] at h
              simp at h
        | ok d =>
          cases b with
          | true =>
            simp only [hd] at h
            simp at h
          | false =>
            simp only at h
            cases hc : copyIfPosted s document_id query.plus_words [] with
            | error e4 =>
              rw [hc] at h
              have := copyIfPosted_error s document_id _ _ e4 hc
              rw [this] at h
              simp at h
            | ok m =>
              rw [hc] at h
              simp only [hd] at h
              simp at h

end ParseQueryClaims

section ParsedWords

variable {R : Type} [LinearOrderedField R]

theorem tokenBody_of_plus (t : Word) (h : isMinusToken t = false) : tokenBody t = t := by
  unfold tokenBody
  rw [h]
  rfl

theorem token_of_minus (t : Word) (h : isMinusToken t = true) : t = MINUS :: tokenBody t := by
  cases t with
  | nil => simp [isMinusToken] at h
  | cons c rest =>
    have hc : c = MINUS := by simpa [isMinusToken] using h
    unfold tokenBody
    rw [h, hc]
    rfl

theorem isMinusToken_cons (w : Word) : isMinusToken (MINUS :: w) = true := by
  simp [isMinusToken]

theorem tokenBody_cons (w : Word) : tokenBody (MINUS :: w) = w := by
  unfold tokenBody
  rw [isMinusToken_cons]
  rfl

theorem isMinusToken_body (w : Word) (h : ¬ badToken (MINUS :: w)) : isMinusToken w = false := by
  unfold badToken at h
  push_neg at h
  have h3 := h.2.2.1
  rw [tokenBody_cons] at h3
  simp [isMinusToken, h3]

/-- The words of a query that `ParseQuery` returns: a plus word is a token of the
text, a minus word is a token after its minus sign, and none is a stop word. -/
theorem ParseQuery_words (s : Server R) (text : List Char) (query : Query)
    (hq : ParseQuery s text = .ok query) :
    (∀ t ∈ SplitIntoWordsView text, ¬ badToken t) ∧
    (∀ w, w ∈ query.plus_words ↔
      w ∈ SplitIntoWordsView text ∧ isMinusToken w = false ∧ IsStopWord s w = false) ∧
    (∀ w, w ∈ query.minus_words ↔
      (MINUS :: w) ∈ SplitIntoWordsView text ∧ IsStopWord s w = false) := by
  have hgood : ¬ ∃ t ∈ SplitIntoWordsView text, badToken t := by
    intro hbad
    rw [ParseQuery_of_bad s text hbad] at hq
    simp at hq
  obtain ⟨query2, e, hp, hm⟩ := ParseQuery_of_good s text hgood
  rw [hq] at e
  simp only [Except.ok.injEq] at e
  subst e
  refine ⟨fun t ht hb => hgood ⟨t, ht, hb⟩, fun w => ?_, fun w => ?_⟩
  · rw [hp w]
    constructor
    · rintro ⟨t, ht, h1, h2, h3⟩
      rw [tokenBody_of_plus t h1] at h2
      rw [← h2]
      exact ⟨ht, h1, by rw [h2]; exact h3⟩
    · rintro ⟨ht, h1, h3⟩
      exact ⟨w, ht, h1, tokenBody_of_plus w h1, h3⟩
  · rw [hm w]
    constructor
    · rintro ⟨t, ht, h1, h2, h3⟩
      have := token_of_minus t h1
      rw [h2] at this
      rw [← this]
      exact ⟨ht, h3⟩
    · rintro ⟨ht, h3⟩
      exact ⟨MINUS :: w, ht, isMinusToken_cons w, tokenBody_cons w, h3⟩

/-- Claim C14 (amended): the plus words of a query that `ParseQuery` returns are
distinct and ascend, and so do its minus words.  The two sets need not be
disjoint: a word is both a plus word and a minus word exactly when it is not a
stop word and the text holds it as a token both without and with a minus sign. -/
theorem ParseQuery_sets (s : Server R) (text : List Char) (query : Query)
    (hq : ParseQuery s text = .ok query) :
    StdSet.WF query.plus_words ∧ StdSet.WF query.minus_words ∧
    query.plus_words.Nodup ∧ query.minus_words.Nodup ∧
    ∀ w, (w ∈ query.plus_words ∧ w ∈ query.minus_words) ↔
      (IsStopWord s w = false ∧ w ∈ SplitIntoWordsView text ∧
        (MINUS :: w) ∈ SplitIntoWordsView text) := by
  obtain ⟨h1, h2⟩ := ParseQuery_wf s text query hq
  obtain ⟨hgood, hp, hm⟩ := ParseQuery_words s text query hq
  refine ⟨h1, h2, h1.imp ne_of_lt, h2.imp ne_of_lt, fun w => ?_⟩
  rw [hp w, hm w]
  constructor
  · rintro ⟨⟨a, _, c⟩, d, _⟩
    exact ⟨c, a, d⟩
  · rintro ⟨c, a, d⟩
    exact ⟨⟨a, isMinusToken_body w (hgood _ d), c⟩, d, c⟩

end ParsedWords

/-- Claim C14 (amended), witness: the text `cat -cat` on a server without stop
words. -/
theorem ParseQuery_sets_witness :
    ParseQuery (Server.empty [] : Server ℚ) "cat -cat".toList
      = .ok ⟨["cat".toList], ["cat".toList]⟩ ∧
    (StdSet.WF ["cat".toList] ∧ StdSet.WF ["cat".toList] ∧
      ["cat".toList].Nodup ∧ ["cat".toList].Nodup ∧
      ∀ w, (w ∈ ["cat".toList] ∧ w ∈ ["cat".toList]) ↔
        (IsStopWord (Server.empty [] : Server ℚ) w = false ∧
          w ∈ SplitIntoWordsView "cat -cat".toList ∧
          (MINUS :: w) ∈ SplitIntoWordsView "cat -cat".toList)) :=
  ⟨rfl, ParseQuery_sets (Server.empty [] : Server ℚ) "cat -cat".toList
    ⟨["cat".toList], ["cat".toList]⟩ rfl⟩

/-- Claim C14, counterexample: `ParseQuery` succeeds on the text `cat -cat`, and
the word `cat` is both a plus word and a minus word of the query it returns. -/
theorem ParseQuery_not_disjoint_counterexample :
    ParseQuery (Server.empty [] : Server ℚ) "cat -cat".toList
      = .ok ⟨["cat".toList], ["cat".toList]⟩ ∧
    "cat".toList ∈ (⟨["cat".toList], ["cat".toList]⟩ : Query).plus_words ∧
    "cat".toList ∈ (⟨["cat".toList], ["cat".toList]⟩ : Query).minus_words :=
  ⟨rfl, by decide, by decide⟩

/-! ## The tokens of a serialised query -/

theorem findSpace_none_of_no_space (w : List Char) (h : SPACE ∉ w) : findSpace w = none := by
  induction w with
  | nil => rfl
  | cons c rest ih =>
    unfold findSpace
    rw [if_neg (fun hc => h (by rw [hc]; exact List.mem_cons_self _ _))]
    rw [ih (fun h2 => h (List.mem_cons_of_mem _ h2))]
    rfl

theorem findSpace_append (w rest : List Char) (h : SPACE ∉ w) :
    findSpace (w ++ SPACE :: rest) = some w.length := by
  induction w with
  | nil => simp [findSpace]
  | cons c r ih =>
    rw [List.cons_append]
    unfold findSpace
    rw [if_neg (fun hc => h (by rw [hc]; exact List.mem_cons_self _ _))]
    rw [ih (fun h2 => h (List.mem_cons_of_mem _ h2))]
    rfl

theorem substrTo_no_space (str : List Char) : SPACE ∉ substrTo str (findSpace str) := by
  induction str with
  | nil => simp [findSpace, substrTo]
  | cons c rest ih =>
    unfold findSpace
    by_cases hc : c = SPACE
    · rw [if_pos hc]
      simp [substrTo]
    · rw [if_neg hc]
      cases hf : findSpace rest with
      | none =>
        rw [hf] at ih
        simp only [substrTo] at ih
        simp only [Option.map_none', substrTo, List.mem_cons, not_or]
        exact ⟨fun h => hc h.symm, ih⟩
      | some n =>
        rw [hf] at ih
        simp only [substrTo] at ih
        simp only [Option.map_some', substrTo, List.take_succ_cons, List.mem_cons, not_or]
        exact ⟨fun h => hc h.symm, ih⟩

theorem SplitIntoWordsViewLoop_no_space (fuel : Nat) (str : List Char) (result : StdSet Word)
    (h : ∀ t ∈ result, SPACE ∉ t) :
    ∀ t ∈ SplitIntoWordsViewLoop fuel str result, SPACE ∉ t := by
  induction fuel generalizing str result with
  | zero => exact h
  | succ fuel ih =>
    have h2 : ∀ t ∈ StdSet.insert (substrTo str (findSpace str)) result, SPACE ∉ t := by
      intro t ht
      rcases (StdSet.mem_insert _ _ _).mp ht with h3 | h3
      · rw [h3]
        exact substrTo_no_space str
      · exact h t h3
    unfold SplitIntoWordsViewLoop
    simp only
    cases hf : findSpace str with
    | none =>
      simp only
      rw [hf] at h2
      exact h2
    | some n =>
      simp only
      rw [hf] at h2
      exact ih _ _ h2

theorem SplitIntoWordsView_no_space (str : List Char) :
    ∀ t ∈ SplitIntoWordsView str, SPACE ∉ t :=
  SplitIntoWordsViewLoop_no_space _ str [] (fun _ h => absurd h (List.not_mem_nil _))

theorem SplitIntoWordsViewLoop_joinWords (ws : List Word) (hne : ws ≠ [])
    (hsp : ∀ w ∈ ws, SPACE ∉ w) (fuel : Nat) (hfuel : (joinWords ws).length < fuel)
    (result : StdSet Word) (t : Word) :
    t ∈ SplitIntoWordsViewLoop fuel (joinWords ws) result ↔ t ∈ ws ∨ t ∈ result := by
  induction ws generalizing fuel result with
  | nil => exact absurd rfl hne
  | cons w rest ih =>
    cases fuel with
    | zero => omega
    | succ fuel =>
      have hw : SPACE ∉ w := hsp w (List.mem_cons_self _ _)
      cases rest with
      | nil =>
        unfold SplitIntoWordsViewLoop
        simp only [joinWords, findSpace_none_of_no_space w hw, substrTo, StdSet.mem_insert,
          List.mem_singleton]
      | cons w2 rest2 =>
        unfold SplitIntoWordsViewLoop
        have e1 : joinWords (w :: w2 :: rest2) = w ++ SPACE :: joinWords (w2 :: rest2) := rfl
        rw [e1] at hfuel
        simp only [e1, findSpace_append w _ hw, substrTo, List.take_left', List.drop_left']
        have e2 : List.drop (w.length + 1) (w ++ SPACE :: joinWords (w2 :: rest2)) =
            joinWords (w2 :: rest2) := by
          rw [List.drop_append_eq_append_drop]
          simp
        rw [e2, ih (List.cons_ne_nil _ _) (fun x hx => hsp x (List.mem_cons_of_mem _ hx)) fuel
          (by simp only [List.length_append, List.length_cons] at hfuel; omega),
          StdSet.mem_insert]
        simp only [List.mem_cons]
        tauto

theorem SplitIntoWordsView_joinWords (ws : List Word) (hne : ws ≠ [])
    (hsp : ∀ w ∈ ws, SPACE ∉ w) (t : Word) :
    t ∈ SplitIntoWordsView (joinWords ws) ↔ t ∈ ws := by
  unfold SplitIntoWordsView
  rw [SplitIntoWordsViewLoop_joinWords ws hne hsp _ (Nat.lt_succ_self _)]
  simp

section RoundTripQuery

variable {R : Type} [LinearOrderedField R]

/-- Claim C15 (amended): when `ParseQuery` succeeds on a text with a query that
has at least one word, it succeeds on the serialisation of the query, its plus
words followed by its minus words each after a minus sign, joined by single
spaces, and returns the same plus words and the same minus words. -/
theorem ParseQuery_serialize (s : Server R) (text : List Char) (query : Query)
    (hq : ParseQuery s text = .ok query)
    (hne : query.plus_words ≠ [] ∨ query.minus_words ≠ []) :
    ParseQuery s (serialize query) = .ok query := by
  obtain ⟨hgood, hp, hm⟩ := ParseQuery_words s text query hq
  obtain ⟨wf1, wf2⟩ := ParseQuery_wf s text query hq
  have hws_ne : query.plus_words ++ query.minus_words.map (fun w => MINUS :: w) ≠ [] := by
    intro h
    rw [List.append_eq_nil, List.map_eq_nil_iff] at h
    rcases hne with h1 | h1
    · exact h1 h.1
    · exact h1 h.2
  have hsub : ∀ t ∈ query.plus_words ++ query.minus_words.map (fun w => MINUS :: w),
      t ∈ SplitIntoWordsView text := by
    intro t ht
    rcases List.mem_append.mp ht with h1 | h1
    · exact ((hp t).mp h1).1
    · obtain ⟨m, hm1, hm2⟩ := List.mem_map.mp h1
      rw [← hm2]
      exact ((hm m).mp hm1).1
  have htok : ∀ t, t ∈ SplitIntoWordsView (serialize query) ↔
      t ∈ query.plus_words ++ query.minus_words.map (fun w => MINUS :: w) :=
    SplitIntoWordsView_joinWords _ hws_ne
      (fun w hw => SplitIntoWordsView_no_space text w (hsub w hw))
  have hgood2 : ¬ ∃ t ∈ SplitIntoWordsView (serialize query), badToken t := by
    rintro ⟨t, ht, hb⟩
    exact hgood t (hsub t ((htok t).mp ht)) hb
  obtain ⟨q2, e2, _, _⟩ := ParseQuery_of_good s (serialize query) hgood2
  obtain ⟨_, hp3, hm3⟩ := ParseQuery_words s _ q2 e2
  obtain ⟨wf3, wf4⟩ := ParseQuery_wf s _ q2 e2
  have eplus : q2.plus_words = query.plus_words := by
    apply StdSet.eq_of_mem_iff wf3 wf1
    intro w
    rw [hp3 w, htok w]
    constructor
    · rintro ⟨h1, h2, _⟩
      rcases List.mem_append.mp h1 with h4 | h4
      · exact h4
      · obtain ⟨m, _, hm2⟩ := List.mem_map.mp h4
        rw [← hm2, isMinusToken_cons] at h2
        exact absurd h2 (by simp)
    · intro h1
      obtain ⟨_, h2, h3⟩ := (hp w).mp h1
      exact ⟨List.mem_append_left _ h1, h2, h3⟩
  have eminus : q2.minus_words = query.minus_words := by
    apply StdSet.eq_of_mem_iff wf4 wf2
    intro w
    rw [hm3 w, htok (MINUS :: w)]
    constructor
    · rintro ⟨h1, _⟩
      rcases List.mem_append.mp h1 with h4 | h4
      · have h5 := ((hp _).mp h4).2.1
        rw [isMinusToken_cons] at h5
        exact absurd h5 (by simp)
      · obtain ⟨m, hm1, hm2⟩ := List.mem_map.mp h4
        simp only [List.cons.injEq, true_and] at hm2
        rw [← hm2]
        exact hm1
    · intro h1
      exact ⟨List.mem_append_right _ (List.mem_map.mpr ⟨w, h1, rfl⟩), ((hm w).mp h1).2⟩
  rw [e2]
  cases q2
  cases query
  simp only at eplus eminus
  rw [eplus, eminus]

end RoundTripQuery

/-- Claim C15 (amended), witness: on the corpus of scenario S1 the text
`пушистый и -кот ухоженный -кот` gives the query of scenario S2, whose
serialisation `пушистый ухоженный -кот` gives the same query. -/
theorem ParseQuery_serialize_witness :
    ParseQuery corpusS1 "пушистый и -кот ухоженный -кот".toList = .ok queryS2 ∧
    (queryS2.plus_words ≠ [] ∨ queryS2.minus_words ≠ []) ∧
    serialize queryS2 = "пушистый ухоженный -кот".toList ∧
    ParseQuery corpusS1 (serialize queryS2) = .ok queryS2 :=
  ⟨rfl, by decide, by decide,
    ParseQuery_serialize corpusS1 "пушистый и -кот ухоженный -кот".toList queryS2 rfl
      (by decide)⟩

/-- Claim C15, counterexample: on the corpus of scenario S1, whose stop words
are `в`, `и` and `на`, `ParseQuery` succeeds on the text `и` with a query that
has no words; the serialisation of this query is the empty string, on which
`ParseQuery` fails, because the tokenizer gives the empty token for it. -/
theorem ParseQuery_serialize_counterexample :
    ParseQuery corpusS1 "и".toList = .ok ⟨[], []⟩ ∧
    serialize ⟨[], []⟩ = [] ∧
    SplitIntoWordsView [] = [[]] ∧
    ParseQuery corpusS1 (serialize ⟨[], []⟩) = .error .invalid_argument :=
  ⟨rfl, rfl, rfl, rfl⟩

/-! ## `MatchDocument` -/

section MatchDocumentSpec

variable {R : Type} [LinearOrderedField R]

theorem wordIsPosted_of_key (s : Server R) (document_id : Int) (word : Word)
    (h : word ∈ s.word_to_document_freqs_.keys) :
    wordIsPosted s document_id word = .ok (decide (posted s word document_id)) := by
  rw [← StdMap.find_isSome_iff] at h
  obtain ⟨freqs, hf⟩ := Option.isSome_iff_exists.mp h
  simp only [wordIsPosted, StdMap.atKey, hf]
  congr 1
  rw [decide_eq_decide]
  simp only [posted, posting, hf, Option.some_bind, StdMap.count]
  by_cases hx : (freqs.find document_id).isSome = true
  · simp [hx]
  · simp [hx]

theorem wordIsPosted_of_no_key (s : Server R) (document_id : Int) (word : Word)
    (h : word ∉ s.word_to_document_freqs_.keys) :
    wordIsPosted s document_id word = .error .out_of_range := by
  rw [← StdMap.find_eq_none_iff] at h
  unfold wordIsPosted StdMap.atKey
  rw [h]

theorem anyOfPosted_of_keys (s : Server R) (document_id : Int) (ws : List Word)
    (h : ∀ w ∈ ws, w ∈ s.word_to_document_freqs_.keys) :
    anyOfPosted s document_id ws = .ok (ws.any (fun w => decide (posted s w document_id))) := by
  induction ws with
  | nil => rfl
  | cons w rest ih =>
    unfold anyOfPosted
    rw [wordIsPosted_of_key s document_id w (h w (List.mem_cons_self _ _))]
    have ih2 := ih (fun x hx => h x (List.mem_cons_of_mem _ hx))
    by_cases hp : posted s w document_id
    · simp [hp]
    · simp [hp, ih2]

theorem copyIfPosted_of_keys (s : Server R) (document_id : Int) (ws out : List Word)
    (h : ∀ w ∈ ws, w ∈ s.word_to_document_freqs_.keys) :
    copyIfPosted s document_id ws out =
      .ok (out ++ ws.filter (fun w => decide (posted s w document_id))) := by
  induction ws generalizing out with
  | nil => simp [copyIfPosted]
  | cons w rest ih =>
    unfold copyIfPosted
    rw [wordIsPosted_of_key s document_id w (h w (List.mem_cons_self _ _))]
    have ih2 := fun o => ih o (fun x hx => h x (List.mem_cons_of_mem _ hx))
    by_cases hp : posted s w document_id
    · simp [hp, ih2]
    · simp [hp, ih2]

/-- What `MatchDocument` returns when every word of the query is a key of the
inverted index and the document has a record: the status of the document, with
no words if the document is posted under a minus word, and else with the plus
words the document is posted under, in ascending order. -/
theorem MatchDocument_of_indexed_words (s : Server R) (raw_query : List Char) (query : Query)
    (document_id : Int) (document_data : DocumentData)
    (hq : ParseQuery s raw_query = .ok query)
    (hdoc : s.documents_.find document_id = some document_data)
    (hplus : ∀ w ∈ query.plus_words, w ∈ s.word_to_document_freqs_.keys)
    (hminus : ∀ w ∈ query.minus_words, w ∈ s.word_to_document_freqs_.keys) :
    MatchDocument s raw_query document_id =
      .ok (if query.minus_words.any (fun w => decide (posted s w document_id)) then []
          else query.plus_words.filter (fun w => decide (posted s w document_id)),
        document_data.status) := by
  unfold MatchDocument
  rw [hq]
  simp only
  rw [anyOfPosted_of_keys s document_id _ hminus, copyIfPosted_of_keys s document_id _ [] hplus]
  simp only [StdMap.atKey, hdoc, List.nil_append]
  cases query.minus_words.any (fun w => decide (posted s w document_id)) <;> rfl

/-- A query word that is a key of no posting list ends `MatchDocument` by
`std::terminate`, whenever no minus word before it in the set order has a
posting of the document: here for a plus word of a query without minus words. -/
theorem MatchDocument_of_unknown_plus_word (s : Server R) (raw_query : List Char)
    (query : Query) (document_id : Int) (word : Word)
    (hq : ParseQuery s raw_query = .ok query) (hminus : query.minus_words = [])
    (hw : word ∈ query.plus_words) (hkey : word ∉ s.word_to_document_freqs_.keys) :
    MatchDocument s raw_query document_id = .error .terminate := by
  have h1 : ∀ (ws out : List Word), word ∈ ws →
      copyIfPosted s document_id ws out = .error .terminate := by
    intro ws
    induction ws with
    | nil => intro out h; simp at h
    | cons w rest ih =>
      intro out h
      unfold copyIfPosted
      by_cases hk : w ∈ s.word_to_document_freqs_.keys
      · have hne : word ≠ w := fun e => hkey (e ▸ hk)
        have hr : word ∈ rest := by
          rcases List.mem_cons.mp h with h2 | h2
          · exact absurd h2 hne
          · exact h2
        rw [wordIsPosted_of_key s document_id w hk]
        by_cases hp : posted s w document_id
        · simp [hp, ih _ hr]
        · simp [hp, ih _ hr]
      · rw [wordIsPosted_of_no_key s document_id w hk]
  unfold MatchDocument
  rw [hq]
  simp only [hminus, anyOfPosted]
  rw [h1 _ [] hw]

end MatchDocumentSpec

/-- Claim C12, the code at the failing input: on the corpus of scenario S1 the
query `кот собака` parses, document 1 is in the index, and `собака` occurs in no
document. `MatchDocument` does not return the plus word `кот`, under which
document 1 is posted: `word_to_document_freqs_.at` throws for `собака` inside
`copy_if`, which ends the program.  The same happens for the minus word of the
query `кот -собака`.  `FindTopDocuments` answers both queries. -/
theorem MatchDocument_unknown_word :
    Reachable stopWordsS1 corpusS1 ∧
    ParseQuery corpusS1 "кот собака".toList = .ok ⟨["кот".toList, "собака".toList], []⟩ ∧
    (corpusS1.documents_.find 1).isSome = true ∧
    posted corpusS1 "кот".toList 1 ∧
    "собака".toList ∉ corpusS1.word_to_document_freqs_.keys ∧
    MatchDocument corpusS1 "кот собака".toList 1 = .error .terminate ∧
    ParseQuery corpusS1 "кот -собака".toList = .ok ⟨["кот".toList], ["собака".toList]⟩ ∧
    MatchDocument corpusS1 "кот -собака".toList 1 = .error .terminate ∧
    returnedIds (FindTopDocuments (fun x => x) corpusS1 "кот собака".toList
      (statusPredicate .ACTUAL)) = some [2, 1] ∧
    returnedIds (FindTopDocuments (fun x => x) corpusS1 "кот -собака".toList
      (statusPredicate .ACTUAL)) = some [2, 1] := by
  refine ⟨corpusS1_reachable, rfl, by decide, by decide!, by decide, rfl, rfl, rfl,
    by decide!, by decide!⟩

/-! ## `RequestQueue` -/

section RequestQueueSpec

variable {R : Type} [LinearOrderedField R]

theorem AddFindRequest_result (ln : R → R) (search_server : Server R) (q : RequestQueue)
    (raw_query : List Char) (document_predicate : DocumentPredicate) :
    (AddFindRequest ln search_server q raw_query document_predicate).2 =
      FindTopDocuments ln search_server raw_query (statusPredicate .ACTUAL) := by
  unfold AddFindRequest
  simp only
  cases FindTopDocuments ln search_server raw_query (statusPredicate .ACTUAL) <;> rfl

theorem wrap32_of_int32 (x : Int) (h1 : -2147483648 ≤ x) (h2 : x ≤ 2147483647) :
    wrap32 x = x := by
  unfold wrap32
  omega

theorem count_true_append (l : List Bool) (b : Bool) :
    ((l ++ [b]).count true : Int) = (l.count true : Int) + (if b = true then 1 else 0) := by
  rw [List.count_append]
  cases b <;> simp

theorem AddFindRequest_step (ln : R → R) (search_server : Server R) (q : RequestQueue)
    (raw_query : List Char) (document_predicate : DocumentPredicate)
    (result : List (Document R)) (history : List Bool) (hq : windowInv q history)
    (hlen : history.length + 1 < 2147483648)
    (h : FindTopDocuments ln search_server raw_query (statusPredicate .ACTUAL) = .ok result) :
    windowInv (AddFindRequest ln search_server q raw_query document_predicate).1
      (history ++ [result.isEmpty]) := by
  obtain ⟨h1, h2, h3⟩ := hq
  have hw : wrap32 (q.current_time_ + 1) = (history.length : Int) + 1 := by
    rw [h1]
    exact wrap32_of_int32 _ (by omega) (by omega)
  unfold AddFindRequest
  rw [h]
  simp only [hw]
  by_cases hbig : (history.length : Int) + 1 > sec_in_day_
  · have hn : 1440 ≤ history.length := by
      unfold sec_in_day_ at hbig
      omega
    obtain ⟨x, hd⟩ : ∃ x, history.drop (history.length - 1440) =
        x :: history.drop (history.length - 1440 + 1) := by
      cases hdd : history.drop (history.length - 1440) with
      | nil =>
        have hl := congrArg List.length hdd
        rw [List.length_drop, List.length_nil] at hl
        omega
      | cons x t =>
        have ht := congrArg List.tail hdd
        rw [List.tail_drop, List.tail_cons] at ht
        exact ⟨x, by rw [ht]⟩
    rw [hd] at h2
    have hlt : ((history.drop (history.length - 1440 + 1)).count true : Int) ≤ 1439 := by
      have := List.count_le_length true (history.drop (history.length - 1440 + 1))
      rw [List.length_drop] at this
      omega
    have hge : (0 : Int) ≤ ((history.drop (history.length - 1440 + 1)).count true : Int) :=
      Int.natCast_nonneg _
    have hc : (if q.requests_.head? = some true then wrap32 (q.empty_requests_count_ - 1)
        else q.empty_requests_count_) =
        ((history.drop (history.length - 1440 + 1)).count true : Int) := by
      rw [h3, h2]
      cases x
      · simp
      · simp only [List.head?_cons, if_true, List.count_cons_self]
        rw [wrap32_of_int32 _ (by omega) (by omega)]
        push_cast
        omega
    rw [if_pos hbig]
    simp only [hc]
    refine ⟨?_, ?_, ?_⟩
    · cases result.isEmpty <;> simp
    · have e : (history ++ [result.isEmpty]).drop
          ((history ++ [result.isEmpty]).length - 1440) =
          history.drop (history.length - 1440 + 1) ++ [result.isEmpty] := by
        rw [List.length_append, List.length_singleton,
          show history.length + 1 - 1440 = history.length - 1440 + 1 by omega]
        exact List.drop_append_of_le_length (by omega)
      rw [e]
      cases result.isEmpty <;> simp [h2]
    · cases hb : result.isEmpty
      · simp only [Bool.false_eq_true, if_false, h2, List.tail_cons]
        rw [count_true_append]
        simp
      · simp only [if_true, h2, List.tail_cons]
        rw [count_true_append, wrap32_of_int32 _ (by omega) (by omega)]
        simp
  · have hn : history.length + 1 ≤ 1440 := by
      unfold sec_in_day_ at hbig
      omega
    have hd : history.length - 1440 = 0 := by omega
    rw [hd, List.drop_zero] at h2
    have hlt : (history.count true : Int) ≤ 1439 := by
      have := List.count_le_length true history
      omega
    have hge : (0 : Int) ≤ (history.count true : Int) := Int.natCast_nonneg _
    rw [if_neg hbig]
    refine ⟨?_, ?_, ?_⟩
    · cases result.isEmpty <;> simp
    · have e : (history ++ [result.isEmpty]).drop
          ((history ++ [result.isEmpty]).length - 1440) = history ++ [result.isEmpty] := by
        rw [List.length_append, List.length_singleton,
          show history.length + 1 - 1440 = 0 by omega, List.drop_zero]
      rw [e]
      cases result.isEmpty <;> simp [h2]
    · cases hb : result.isEmpty
      · simp only [Bool.false_eq_true, if_false, h2, h3]
        rw [count_true_append]
        simp
      · simp only [if_true, h2, h3]
        rw [count_true_append, wrap32_of_int32 _ (by omega) (by omega)]
        simp

end RequestQueueSpec

section RequestQueueRuns

variable {R : Type} [LinearOrderedField R]

theorem runRequests_cons_ok (ln : R → R) (q : RequestQueue) (call : FindRequest R)
    (rest : List (FindRequest R)) (result : List (Document R))
    (h : FindTopDocuments ln call.server call.raw_query (statusPredicate .ACTUAL) = .ok result) :
    runRequests ln q (call :: rest) =
      ((runRequests ln (AddFindRequest ln call.server q call.raw_query
          call.document_predicate).1 rest).1,
        (runRequests ln (AddFindRequest ln call.server q call.raw_query
          call.document_predicate).1 rest).2.map (fun flags => result.isEmpty :: flags)) := by
  have h2 := AddFindRequest_result ln call.server q call.raw_query call.document_predicate
  rw [h] at h2
  rw [runRequests]
  cases hA : AddFindRequest ln call.server q call.raw_query call.document_predicate with
  | mk q1 r =>
    rw [hA] at h2
    simp only at h2
    rw [h2]
    simp only
    cases hR : runRequests ln q1 rest with
    | mk q2 o => cases o <;> rfl

theorem runRequests_cons_error (ln : R → R) (q : RequestQueue) (call : FindRequest R)
    (rest : List (FindRequest R)) (e : Exn)
    (h : FindTopDocuments ln call.server call.raw_query (statusPredicate .ACTUAL) = .error e) :
    (runRequests ln q (call :: rest)).2 = none := by
  have h2 := AddFindRequest_result ln call.server q call.raw_query call.document_predicate
  rw [h] at h2
  rw [runRequests]
  cases hA : AddFindRequest ln call.server q call.raw_query call.document_predicate with
  | mk q1 r =>
    rw [hA] at h2
    simp only at h2
    rw [h2]

theorem runRequests_inv (ln : R → R) (calls : List (FindRequest R)) (q : RequestQueue)
    (history flags : List Bool) (hq : windowInv q history)
    (hlen : history.length + calls.length < 2147483648)
    (hrun : (runRequests ln q calls).2 = some flags) :
    windowInv (runRequests ln q calls).1 (history ++ flags) ∧ flags.length = calls.length := by
  induction calls generalizing q history flags with
  | nil =>
    simp only [runRequests, Option.some.injEq] at hrun
    rw [← hrun, List.append_nil]
    exact ⟨hq, rfl⟩
  | cons call rest ih =>
    simp only [List.length_cons] at hlen
    cases hf : FindTopDocuments ln call.server call.raw_query (statusPredicate .ACTUAL) with
    | error e =>
      rw [runRequests_cons_error ln q call rest e hf] at hrun
      simp at hrun
    | ok result =>
      rw [runRequests_cons_ok ln q call rest result hf] at hrun ⊢
      simp only [Option.map_eq_some'] at hrun
      obtain ⟨fl, h1, h2⟩ := hrun
      have hstep := AddFindRequest_step ln call.server q call.raw_query
        call.document_predicate result history hq (by omega) hf
      obtain ⟨i1, i2⟩ := ih _ (history ++ [result.isEmpty]) fl hstep
        (by rw [List.length_append, List.length_singleton]; omega) h1
      rw [← h2]
      rw [List.append_assoc, List.singleton_append] at i1
      exact ⟨i1, by rw [List.length_cons, List.length_cons, i2]⟩

theorem runRequests_append (ln : R → R) (l1 l2 : List (FindRequest R)) (q : RequestQueue)
    (flags : List Bool) (h : (runRequests ln q l1).2 = some flags) :
    runRequests ln q (l1 ++ l2) =
      ((runRequests ln (runRequests ln q l1).1 l2).1,
        (runRequests ln (runRequests ln q l1).1 l2).2.map (fun f2 => flags ++ f2)) := by
  induction l1 generalizing q flags with
  | nil =>
    simp only [runRequests, Option.some.injEq] at h
    rw [← h]
    simp [runRequests]
  | cons call rest ih =>
    cases hf : FindTopDocuments ln call.server call.raw_query (statusPredicate .ACTUAL) with
    | error e =>
      rw [runRequests_cons_error ln q call rest e hf] at h
      simp at h
    | ok result =>
      rw [List.cons_append, runRequests_cons_ok ln q call _ result hf]
      rw [runRequests_cons_ok ln q call rest result hf] at h ⊢
      simp only [Option.map_eq_some'] at h
      obtain ⟨fl, h1, h2⟩ := h
      rw [ih _ fl h1, ← h2]
      simp only [Option.map_map, Prod.mk.injEq, true_and]
      congr 1

theorem runRequests_replicate (ln : R → R) (call : FindRequest R) (result : List (Document R))
    (h : FindTopDocuments ln call.server call.raw_query (statusPredicate .ACTUAL) = .ok result)
    (n : Nat) (q : RequestQueue) :
    (runRequests ln q (List.replicate n call)).2 = some (List.replicate n result.isEmpty) := by
  induction n generalizing q with
  | zero => rfl
  | succ n ih =>
    rw [List.replicate_succ, runRequests_cons_ok ln q call _ result h]
    simp only [ih, Option.map_some', List.replicate_succ]

theorem windowInv_init : windowInv RequestQueue.init [] := ⟨rfl, rfl, rfl⟩

end RequestQueueRuns

section RequestQueueClaim

variable {R : Type} [LinearOrderedField R]

/-- Claim C16 (amended): after `n` calls of `AddFindRequest` on a new queue, none
of which throws and with `n` below `2^31`, the deque holds, oldest first, the
entries of the most recent `min(n, 1440)` calls, and `empty_requests_count_` is
the number of those calls whose result was empty; so the deque has at most 1440
entries and the counter lies between 0 and 1440. -/
theorem AddFindRequest_window (ln : R → R) (calls : List (FindRequest R)) (flags : List Bool)
    (hrun : (runRequests ln RequestQueue.init calls).2 = some flags)
    (hn : calls.length < 2147483648) :
    flags.length = calls.length ∧
    (runRequests ln RequestQueue.init calls).1.requests_ =
      flags.drop (flags.length - min calls.length 1440) ∧
    (runRequests ln RequestQueue.init calls).1.requests_.length = min calls.length 1440 ∧
    (runRequests ln RequestQueue.init calls).1.empty_requests_count_ =
      ((flags.drop (flags.length - min calls.length 1440)).count true : Int) ∧
    0 ≤ (runRequests ln RequestQueue.init calls).1.empty_requests_count_ ∧
    (runRequests ln RequestQueue.init calls).1.empty_requests_count_ ≤ 1440 := by
  obtain ⟨⟨_, h2, h3⟩, h4⟩ := runRequests_inv ln calls RequestQueue.init [] flags windowInv_init
    (by simpa using hn) hrun
  rw [List.nil_append] at h2
  have e : flags.length - min calls.length 1440 = flags.length - 1440 := by
    rw [h4]
    omega
  have hlen : (runRequests ln RequestQueue.init calls).1.requests_.length =
      min calls.length 1440 := by
    rw [h2, List.length_drop, h4]
    omega
  have hcount := List.count_le_length true (runRequests ln RequestQueue.init calls).1.requests_
  rw [e]
  refine ⟨h4, h2, hlen, ?_, ?_, ?_⟩
  · rw [h3, h2]
  · rw [h3]
    exact Int.natCast_nonneg _
  · rw [h3]
    omega

/-- The call in which the increment of `current_time_` leaves the range of
`int`: nothing is popped. -/
theorem AddFindRequest_overflow (ln : R → R) (search_server : Server R) (q : RequestQueue)
    (raw_query : List Char) (document_predicate : DocumentPredicate)
    (result : List (Document R))
    (h : FindTopDocuments ln search_server raw_query (statusPredicate .ACTUAL) = .ok result)
    (ht : q.current_time_ = 2147483647) :
    (AddFindRequest ln search_server q raw_query document_predicate).1 =
      ⟨q.requests_ ++ [result.isEmpty], -2147483648,
        if result.isEmpty then wrap32 (q.empty_requests_count_ + 1)
        else q.empty_requests_count_⟩ := by
  have hw : wrap32 (2147483647 + 1) = -2147483648 := by
    unfold wrap32
    norm_num
  have hno : ¬ ((-2147483648 : Int) > sec_in_day_) := by
    unfold sec_in_day_
    norm_num
  unfold AddFindRequest
  rw [h, ht]
  simp only [hw, if_neg hno]
  cases result.isEmpty <;> rfl

end RequestQueueClaim

/-- Claim C16, counterexample: `2^31` calls on a server without documents, each
returning an empty list.  The increment of `current_time_` in the last call
leaves the range of `int`; with the value reduced to `-2^31` the test
`current_time_ > sec_in_day_` fails, nothing is popped, and the deque has 1441
entries and the counter is 1441. -/
theorem AddFindRequest_window_counterexample :
    (runRequests (fun x => x) RequestQueue.init (List.replicate 2147483648 idleCall)).2 =
      some (List.replicate 2147483648 true) ∧
    (runRequests (fun x => x) RequestQueue.init
      (List.replicate 2147483648 idleCall)).1.requests_.length = 1441 ∧
    (runRequests (fun x => x) RequestQueue.init
      (List.replicate 2147483648 idleCall)).1.empty_requests_count_ = 1441 ∧
    (runRequests (fun x => x) RequestQueue.init
      (List.replicate 2147483648 idleCall)).1.current_time_ = -2147483648 := by
  have hres : FindTopDocuments (fun x => x) idleCall.server idleCall.raw_query
      (statusPredicate .ACTUAL) = .ok [] := rfl
  have hflags : ∀ (n : Nat) (q : RequestQueue),
      (runRequests (fun x => x) q (List.replicate n idleCall)).2 =
        some (List.replicate n true) :=
    fun n q => runRequests_replicate (fun x => x) idleCall [] hres n q
  have hsplit : List.replicate 2147483648 idleCall =
      List.replicate 2147483647 idleCall ++ [idleCall] :=
    List.replicate_succ' 2147483647 idleCall
  obtain ⟨⟨t1, t2, t3⟩, _⟩ := runRequests_inv (fun x => x) (List.replicate 2147483647 idleCall)
    RequestQueue.init [] _ windowInv_init
    (by rw [List.length_replicate]; simp) (hflags 2147483647 RequestQueue.init)
  rw [List.nil_append, List.length_replicate] at t1
  rw [List.nil_append, List.length_replicate, List.drop_replicate] at t2
  have e1440 : 2147483647 - (2147483647 - 1440) = 1440 := by norm_num
  rw [e1440] at t2
  rw [t2, List.count_replicate_self] at t3
  refine ⟨hflags _ _, ?_⟩
  rw [hsplit, runRequests_append _ _ _ _ _ (hflags 2147483647 RequestQueue.init),
    runRequests_cons_ok _ _ _ _ [] hres]
  generalize (runRequests (fun x => x) RequestQueue.init
    (List.replicate 2147483647 idleCall)).1 = q at t1 t2 t3
  have t4 : q.current_time_ = 2147483647 := by
    rw [t1]
    norm_num
  have t5 : q.empty_requests_count_ = 1440 := by
    rw [t3]
    norm_num
  rw [AddFindRequest_overflow (fun x => x) idleCall.server q idleCall.raw_query
    idleCall.document_predicate [] hres t4]
  simp only [runRequests, List.isEmpty_nil, if_true, t2, t5, List.length_append,
    List.length_replicate, List.length_singleton]
  refine ⟨trivial, ?_, trivial⟩
  unfold wrap32
  norm_num

/-- Claim C16 (amended), witness (scenario S5): on the corpus of scenario S1,
1439 queries without a result, one query with a result and one more query
without a result leave 1440 entries in the deque and the counter at 1439. -/
theorem AddFindRequest_window_witness :
    (runRequests (fun x => x) RequestQueue.init callsS5).2 =
      some (List.replicate 1439 true ++ [false, true]) ∧
    callsS5.length = 1441 ∧
    (runRequests (fun x => x) RequestQueue.init callsS5).1.requests_.length = 1440 ∧
    (runRequests (fun x => x) RequestQueue.init callsS5).1.empty_requests_count_ = 1439 := by
  have h1 : (runRequests (fun x => x) RequestQueue.init callsS5).2 =
      some (List.replicate 1439 true ++ [false, true]) := by decide!
  have h := AddFindRequest_window (fun x => x) callsS5
    (List.replicate 1439 true ++ [false, true]) h1 (by decide!)
  refine ⟨h1, by decide!, ?_, ?_⟩
  · rw [h.2.2.1]
    decide!
  · rw [h.2.2.2.1]
    decide!

/-! ## The sharded map -/

section ShardedMap

variable {R : Type}

theorem getD_set_nil {α : Type} (l : List (List α)) (i j : Nat) (x : List α) :
    (l.set i x).getD j [] = if i = j ∧ i < l.length then x else l.getD j [] := by
  simp only [List.getD_eq_getElem?_getD, List.getElem?_set]
  by_cases h : i = j
  · subst h
    by_cases h2 : i < l.length
    · simp [h2]
    · simp [h2, List.getElem?_eq_none (not_lt.mp h2)]
  · simp [h]

theorem ConcurrentMap.bucketIndex_lt (cm : ConcurrentMap R) (h : 0 < cm.buckets_.length)
    (key : Int) : cm.bucketIndex key < cm.buckets_.length := by
  unfold ConcurrentMap.bucketIndex
  have h1 : (0 : Int) < (cm.buckets_.length : Int) := by exact_mod_cast h
  have h2 := Int.emod_lt_of_pos key h1
  have h3 := Int.emod_nonneg key (ne_of_gt h1)
  omega

theorem ConcurrentMap.wf_create (n : Nat) (h : 0 < n) :
    (ConcurrentMap.create n : ConcurrentMap R).WF := by
  refine ⟨by simpa [ConcurrentMap.create] using h, fun i => ?_⟩
  have e : (ConcurrentMap.create n : ConcurrentMap R).buckets_.getD i [] = [] := by
    simp only [ConcurrentMap.create, List.getD_eq_getElem?_getD, List.getElem?_replicate]
    split <;> rfl
  rw [e]
  exact ⟨StdMap.wf_nil, fun key hk => absurd hk (by simp [StdMap.keys])⟩

theorem ConcurrentMap.lookup_create (n : Nat) (key : Int) :
    (ConcurrentMap.create n : ConcurrentMap R).lookup key = none := by
  have e : ∀ i, (ConcurrentMap.create n : ConcurrentMap R).buckets_.getD i [] = [] := by
    intro i
    simp only [ConcurrentMap.create, List.getD_eq_getElem?_getD, List.getElem?_replicate]
    split <;> rfl
  unfold ConcurrentMap.lookup
  rw [e]
  rfl

/-- The effect on the content and on well-formedness of replacing the shard of
`key` by `f` of it, for an `f` that keeps a shard sorted and adds no key but
`key`. -/
theorem ConcurrentMap.update_spec (cm : ConcurrentMap R) (h : cm.WF) (key : Int)
    (f : StdMap Int R → StdMap Int R)
    (hwf : ∀ m : StdMap Int R, m.WF → (f m).WF)
    (hkeys : ∀ (m : StdMap Int R) (k : Int), k ∈ StdMap.keys (f m) → k = key ∨ k ∈ StdMap.keys m) :
    (⟨cm.buckets_.set (cm.bucketIndex key) (f (cm.buckets_.getD (cm.bucketIndex key) []))⟩ :
      ConcurrentMap R).WF ∧
    ∀ k, (⟨cm.buckets_.set (cm.bucketIndex key) (f (cm.buckets_.getD (cm.bucketIndex key) []))⟩ :
      ConcurrentMap R).lookup k =
        if cm.bucketIndex k = cm.bucketIndex key then
          (f (cm.buckets_.getD (cm.bucketIndex key) [])).find k
        else cm.lookup k := by
  obtain ⟨h0, h1⟩ := h
  have hlt := cm.bucketIndex_lt h0 key
  have hidx : ∀ k, (⟨cm.buckets_.set (cm.bucketIndex key)
      (f (cm.buckets_.getD (cm.bucketIndex key) []))⟩ : ConcurrentMap R).bucketIndex k =
      cm.bucketIndex k := by
    intro k
    simp only [ConcurrentMap.bucketIndex, List.length_set]
  refine ⟨⟨by simpa using h0, fun i => ?_⟩, fun k => ?_⟩
  · simp only [hidx]
    rw [getD_set_nil]
    by_cases hi : cm.bucketIndex key = i ∧ cm.bucketIndex key < cm.buckets_.length
    · rw [if_pos hi]
      refine ⟨hwf _ (h1 _).1, fun k hk => ?_⟩
      rcases hkeys _ k hk with h2 | h2
      · rw [h2]
        exact hi.1
      · rw [← hi.1]
        exact (h1 _).2 k h2
    · rw [if_neg hi]
      exact h1 i
  · unfold ConcurrentMap.lookup
    rw [hidx k]
    simp only
    rw [getD_set_nil]
    by_cases hk : cm.bucketIndex k = cm.bucketIndex key
    · rw [if_pos hk, if_pos ⟨hk.symm, hlt⟩]
    · rw [if_neg hk, if_neg (fun h2 => hk h2.1.symm)]

theorem ConcurrentMap.addTo_spec [Zero R] [Add R] (cm : ConcurrentMap R) (h : cm.WF)
    (key : Int) (delta : R) :
    (cm.addTo key delta).WF ∧
    ∀ k, (cm.addTo key delta).lookup k =
      if key = k then some ((cm.lookup key).getD 0 + delta) else cm.lookup k := by
  obtain ⟨h1, h2⟩ := cm.update_spec h key (fun m => m.addTo key delta)
    (fun m hm => StdMap.wf_addTo hm key delta)
    (fun m k hk => by
      unfold StdMap.addTo at hk
      rw [StdMap.keys_insert] at hk
      exact hk)
  refine ⟨h1, fun k => ?_⟩
  show (⟨cm.buckets_.set (cm.bucketIndex key)
    ((cm.buckets_.getD (cm.bucketIndex key) []).addTo key delta)⟩ : ConcurrentMap R).lookup k = _
  rw [h2 k]
  by_cases hk : key = k
  · subst hk
    rw [if_pos rfl, if_pos rfl, StdMap.find_addTo, if_pos rfl]
    rfl
  · rw [if_neg hk]
    by_cases hb : cm.bucketIndex k = cm.bucketIndex key
    · rw [if_pos hb, StdMap.find_addTo, if_neg hk]
      unfold ConcurrentMap.lookup
      rw [hb]
    · rw [if_neg hb]

theorem ConcurrentMap.erase_spec (cm : ConcurrentMap R) (h : cm.WF) (key : Int) :
    (cm.erase key).WF ∧
    ∀ k, (cm.erase key).lookup k = if k = key then none else cm.lookup k := by
  obtain ⟨h1, h2⟩ := cm.update_spec h key (fun m => m.erase key)
    (fun m hm => StdMap.wf_erase hm key)
    (fun m k hk => by
      rw [StdMap.keys_erase] at hk
      exact Or.inr hk.2)
  refine ⟨h1, fun k => ?_⟩
  show (⟨cm.buckets_.set (cm.bucketIndex key)
    ((cm.buckets_.getD (cm.bucketIndex key) []).erase key)⟩ : ConcurrentMap R).lookup k = _
  rw [h2 k]
  by_cases hk : k = key
  · subst hk
    rw [if_pos rfl, if_pos rfl, StdMap.find_erase, if_pos rfl]
  · rw [if_neg hk]
    by_cases hb : cm.bucketIndex k = cm.bucketIndex key
    · rw [if_pos hb, StdMap.find_erase, if_neg hk]
      unfold ConcurrentMap.lookup
      rw [hb]
    · rw [if_neg hb]

end ShardedMap

section BuildOrdinaryMapSpec

variable {R : Type}

theorem insertAll_spec (bucket result : StdMap Int R) (hb : bucket.WF) (hr : result.WF) :
    (bucket.foldl (fun result entry => result.insert entry.1 entry.2) result).WF ∧
    ∀ k, (bucket.foldl (fun result entry => result.insert entry.1 entry.2) result).find k =
      match bucket.find k with
      | some v => some v
      | none => result.find k := by
  induction bucket generalizing result with
  | nil => exact ⟨hr, fun k => rfl⟩
  | cons e rest ih =>
    obtain ⟨k0, v0⟩ := e
    have hb2 := hb
    simp only [StdMap.WF, StdMap.keys, List.map_cons, List.pairwise_cons] at hb2
    obtain ⟨h1, h2⟩ := ih (result.insert k0 v0) hb2.2 (StdMap.wf_insert hr k0 v0)
    refine ⟨h1, fun k => ?_⟩
    simp only [List.foldl_cons]
    rw [h2 k, StdMap.find_insert]
    by_cases hk : k0 = k
    · have hnone : StdMap.find rest k = none :=
        (StdMap.find_eq_none_iff rest k).mpr (fun h3 => lt_irrefl _ (hk ▸ hb2.1 k h3))
      simp [StdMap.find, hk, hnone]
    · simp only [StdMap.find, if_neg hk]

theorem merge_spec (buckets : List (StdMap Int R)) (result : StdMap Int R)
    (hwf : ∀ b ∈ buckets, StdMap.WF b) (hr : result.WF)
    (hdis : buckets.Pairwise (fun a b => ∀ k ∈ StdMap.keys a, k ∉ StdMap.keys b))
    (hres : ∀ b ∈ buckets, ∀ k ∈ StdMap.keys result, k ∉ StdMap.keys b) :
    (buckets.foldl (fun result bucket =>
      bucket.foldl (fun result entry => result.insert entry.1 entry.2) result) result).WF ∧
    ∀ k v, (buckets.foldl (fun result bucket =>
      bucket.foldl (fun result entry => result.insert entry.1 entry.2) result) result).find k
        = some v ↔ result.find k = some v ∨ ∃ b ∈ buckets, StdMap.find b k = some v := by
  induction buckets generalizing result with
  | nil => exact ⟨hr, fun k v => by simp⟩
  | cons b rest ih =>
    obtain ⟨g1, g2⟩ := insertAll_spec b result (hwf b (List.mem_cons_self _ _)) hr
    rw [List.pairwise_cons] at hdis
    have hkeys : ∀ k, k ∈ StdMap.keys (b.foldl (fun result entry =>
        result.insert entry.1 entry.2) result) → k ∈ StdMap.keys b ∨ k ∈ StdMap.keys result := by
      intro k hk
      rw [← StdMap.find_isSome_iff, g2 k] at hk
      cases hf : StdMap.find b k with
      | none =>
        rw [hf] at hk
        exact Or.inr ((StdMap.find_isSome_iff _ _).mp hk)
      | some v => exact Or.inl ((StdMap.find_isSome_iff _ _).mp (by rw [hf]; rfl))
    obtain ⟨i1, i2⟩ := ih _ (fun b2 hb2 => hwf b2 (List.mem_cons_of_mem _ hb2)) g1 hdis.2
      (fun b2 hb2 k hk => by
        rcases hkeys k hk with h3 | h3
        · exact hdis.1 b2 hb2 k h3
        · exact hres b2 (List.mem_cons_of_mem _ hb2) k h3)
    refine ⟨i1, fun k v => ?_⟩
    simp only [List.foldl_cons]
    rw [i2 k v, g2 k]
    constructor
    · rintro (h3 | ⟨b2, hb2, h3⟩)
      · cases hf : StdMap.find b k with
        | none =>
          rw [hf] at h3
          exact Or.inl h3
        | some v2 =>
          rw [hf] at h3
          exact Or.inr ⟨b, List.mem_cons_self _ _, by rw [hf]; exact h3⟩
      · exact Or.inr ⟨b2, List.mem_cons_of_mem _ hb2, h3⟩
    · rintro (h3 | ⟨b2, hb2, h3⟩)
      · have hk : k ∉ StdMap.keys b := hres b (List.mem_cons_self _ _) k
          ((StdMap.find_isSome_iff _ _).mp (by rw [h3]; rfl))
        rw [(StdMap.find_eq_none_iff b k).mpr hk]
        exact Or.inl h3
      · rcases List.mem_cons.mp hb2 with h4 | h4
        · rw [h4] at h3
          rw [h3]
          exact Or.inl rfl
        · exact Or.inr ⟨b2, h4, h3⟩

theorem ConcurrentMap.BuildOrdinaryMap_spec (cm : ConcurrentMap R) (h : cm.WF) :
    cm.BuildOrdinaryMap.WF ∧ ∀ k, cm.BuildOrdinaryMap.find k = cm.lookup k := by
  obtain ⟨h0, h1⟩ := h
  have hget : ∀ b ∈ cm.buckets_, ∃ i, i < cm.buckets_.length ∧ cm.buckets_.getD i [] = b := by
    intro b hb
    obtain ⟨i, hi, e⟩ := List.getElem_of_mem hb
    exact ⟨i, hi, by rw [List.getD_eq_getElem _ _ hi, e]⟩
  obtain ⟨g1, g2⟩ := merge_spec cm.buckets_ [] (fun b hb => by
      obtain ⟨i, _, e⟩ := hget b hb
      rw [← e]
      exact (h1 i).1) StdMap.wf_nil
    (by
      rw [List.pairwise_iff_getElem]
      intro i j hi hj hij k hk1 hk2
      have e1 := (h1 i).2 k (by rw [List.getD_eq_getElem _ _ hi]; exact hk1)
      have e2 := (h1 j).2 k (by rw [List.getD_eq_getElem _ _ hj]; exact hk2)
      omega)
    (fun b _ k hk => absurd hk (by simp [StdMap.keys]))
  refine ⟨g1, fun k => ?_⟩
  have hiff : ∀ v, cm.BuildOrdinaryMap.find k = some v ↔ cm.lookup k = some v := by
    intro v
    unfold ConcurrentMap.BuildOrdinaryMap
    rw [g2 k v]
    constructor
    · rintro (h3 | ⟨b, hb, h3⟩)
      · simp [StdMap.find] at h3
      · obtain ⟨i, _, e⟩ := hget b hb
        have hk : k ∈ StdMap.keys b := (StdMap.find_isSome_iff _ _).mp (by rw [h3]; rfl)
        rw [← e] at hk h3
        unfold ConcurrentMap.lookup
        rw [(h1 i).2 k hk]
        exact h3
    · intro h3
      refine Or.inr ⟨cm.buckets_.getD (cm.bucketIndex k) [], ?_, h3⟩
      rw [List.getD_eq_getElem _ _ (cm.bucketIndex_lt h0 k)]
      exact List.getElem_mem _
  cases hl : cm.lookup k with
  | some v => exact (hiff v).mpr hl
  | none =>
    cases hb : cm.BuildOrdinaryMap.find k with
    | none => rfl
    | some v => rw [(hiff v).mp hb] at hl; simp at hl

end BuildOrdinaryMapSpec

/-! ## The ranges of the workers -/

theorem partsLoop_length (PART_COUNT part_length : Nat) (words : List Word)
    (count i part_begin part_end : Nat) :
    (partsLoop PART_COUNT part_length words count i part_begin part_end).length = count := by
  induction count generalizing i part_begin part_end with
  | zero => rfl
  | succ count ih => simp only [partsLoop, List.length_cons, ih]

theorem partsLoop_flatten (PART_COUNT part_length : Nat) (words : List Word)
    (count i part_begin part_end : Nat) (hPC : 1 ≤ PART_COUNT) (hi : i + count = PART_COUNT)
    (hinv : (i < PART_COUNT - 1 ∧ part_begin = i * part_length ∧
        part_end = (i + 1) * part_length) ∨
      (i = PART_COUNT - 1 ∧ part_end = words.length) ∨
      (PART_COUNT ≤ i ∧ words.length ≤ part_begin)) :
    (partsLoop PART_COUNT part_length words count i part_begin part_end).flatten =
      words.drop part_begin := by
  induction count generalizing i part_begin part_end with
  | zero =>
    rcases hinv with h | h | h
    · omega
    · omega
    · simp only [partsLoop, List.flatten_nil]
      exact (List.drop_eq_nil_of_le h.2).symm
  | succ count ih =>
    simp only [partsLoop, List.flatten_cons]
    rcases hinv with h | h | h
    · obtain ⟨h1, h2, h3⟩ := h
      rw [ih (i + 1) part_end _ (by omega) (by
        by_cases hlast : i + 1 = PART_COUNT - 1
        · exact Or.inr (Or.inl ⟨hlast, by rw [if_pos hlast]⟩)
        · refine Or.inl ⟨by omega, h3, ?_⟩
          rw [if_neg hlast, h3]
          ring)]
      have e : part_end - part_begin = part_length := by
        rw [h2, h3, Nat.add_mul, Nat.one_mul]
        omega
      have e2 : part_end = part_begin + part_length := by
        rw [h2, h3, Nat.add_mul, Nat.one_mul]
      rw [e, e2, ← List.drop_drop, List.take_append_drop]
    · obtain ⟨h1, h2⟩ := h
      rw [ih (i + 1) part_end _ (by omega) (Or.inr (Or.inr ⟨by omega, by omega⟩))]
      rw [h2, List.drop_length, List.append_nil]
      apply List.take_of_length_le
      rw [List.length_drop]
    · omega

theorem parts_flatten (PART_COUNT : Nat) (h : 2 ≤ PART_COUNT) (words : List Word) :
    (parts PART_COUNT words).flatten = words := by
  unfold parts
  rw [partsLoop_flatten _ _ _ _ _ _ _ (by omega) (by omega) (Or.inl ⟨by omega, by simp, by simp⟩)]
  rfl

theorem parts_length (PART_COUNT : Nat) (words : List Word) :
    (parts PART_COUNT words).length = PART_COUNT :=
  partsLoop_length _ _ _ _ _ _ _

theorem range_flatMap_getD (l : List (List Word)) :
    (List.range l.length).flatMap (fun i => l.getD i []) = l.flatten := by
  have e : (List.range l.length).map (fun i => l.getD i []) = l := by
    apply List.ext_getElem
    · simp
    · intro n h1 h2
      simp only [List.getElem_map, List.getElem_range]
      exact List.getD_eq_getElem _ _ h2
  rw [List.flatMap, e]

/-- The words the workers of a phase handle, taken in the order in which the
workers complete, are the words of the query in another order. -/
theorem schedule_perm (PART_COUNT : Nat) (h : 2 ≤ PART_COUNT) (words : List Word)
    (schedule : List Nat) (hs : schedule.Perm (List.range PART_COUNT)) :
    (schedule.flatMap (fun i => (parts PART_COUNT words).getD i [])).Perm words := by
  have h1 := List.Perm.flatMap_right (fun i => (parts PART_COUNT words).getD i []) hs
  have h2 := range_flatMap_getD (parts PART_COUNT words)
  rw [parts_length, parts_flatten PART_COUNT h] at h2
  rw [h2] at h1
  exact h1

/-! ## The parallel loops compute what the sequential loops compute -/

section Simulation

variable {R : Type} [LinearOrderedField R]

theorem parPlusPostingsLoop_sim (s : Server R) (document_predicate : DocumentPredicate)
    (idf : R) (freqs : List (Int × R)) (cm : ConcurrentMap R) (acc acc' : StdMap Int R)
    (hcm : cm.WF) (hrel : ∀ k, cm.lookup k = acc.find k)
    (h : plusPostingsLoop s document_predicate idf freqs acc = .ok acc') :
    ∃ cm', parPlusPostingsLoop s document_predicate idf freqs cm = .ok cm' ∧ cm'.WF ∧
      ∀ k, cm'.lookup k = acc'.find k := by
  induction freqs generalizing cm acc with
  | nil =>
    simp only [plusPostingsLoop, Except.ok.injEq] at h
    rw [← h]
    exact ⟨cm, rfl, hcm, hrel⟩
  | cons e rest ih =>
    obtain ⟨i, tf⟩ := e
    unfold plusPostingsLoop at h
    unfold parPlusPostingsLoop
    cases hd : s.documents_.atKey i with
    | error e => rw [hd] at h; simp at h
    | ok d =>
      rw [hd] at h
      simp only at h ⊢
      by_cases hp : document_predicate i d.status d.rating = true
      · rw [if_pos hp] at h ⊢
        obtain ⟨w1, w2⟩ := cm.addTo_spec hcm i (tf * idf)
        exact ih _ _ w1 (fun k => by rw [w2 k, StdMap.find_addTo, hrel i, hrel k]) h
      · rw [if_neg hp] at h ⊢
        exact ih _ _ hcm hrel h

theorem parPlusWorker_sim (ln : R → R) (s : Server R) (document_predicate : DocumentPredicate)
    (ws : List Word) (cm : ConcurrentMap R) (acc acc' : StdMap Int R)
    (hcm : cm.WF) (hrel : ∀ k, cm.lookup k = acc.find k)
    (h : plusWordsLoop ln s document_predicate ws acc = .ok acc') :
    ∃ cm', parPlusWorker ln s document_predicate ws cm = .ok cm' ∧ cm'.WF ∧
      ∀ k, cm'.lookup k = acc'.find k := by
  induction ws generalizing cm acc with
  | nil =>
    simp only [plusWordsLoop, Except.ok.injEq] at h
    rw [← h]
    exact ⟨cm, rfl, hcm, hrel⟩
  | cons w rest ih =>
    unfold plusWordsLoop at h
    unfold parPlusWorker parPlusWord
    by_cases hc : s.word_to_document_freqs_.count w = 0
    · rw [if_pos hc] at h
      rw [if_neg (fun h2 => h2 hc)]
      exact ih _ _ hcm hrel h
    · rw [if_neg hc] at h
      rw [if_pos hc]
      cases hi : ComputeWordInverseDocumentFreq ln s w with
      | error e => rw [hi] at h; simp at h
      | ok idf =>
        rw [hi] at h
        simp only at h ⊢
        cases hf : s.word_to_document_freqs_.atKey w with
        | error e => rw [hf] at h; simp at h
        | ok freqs =>
          rw [hf] at h
          simp only at h ⊢
          cases hl : plusPostingsLoop s document_predicate idf freqs acc with
          | error e => rw [hl] at h; simp at h
          | ok acc1 =>
            rw [hl] at h
            simp only at h
            obtain ⟨cm1, e1, e2, e3⟩ := parPlusPostingsLoop_sim s document_predicate idf freqs
              cm acc acc1 hcm hrel hl
            rw [e1]
            exact ih _ _ e2 e3 h

theorem plusWordsLoop_append (ln : R → R) (s : Server R) (document_predicate : DocumentPredicate)
    (l1 l2 : List Word) (acc : StdMap Int R) :
    plusWordsLoop ln s document_predicate (l1 ++ l2) acc =
      match plusWordsLoop ln s document_predicate l1 acc with
      | .error e => .error e
      | .ok acc1 => plusWordsLoop ln s document_predicate l2 acc1 := by
  induction l1 generalizing acc with
  | nil => rfl
  | cons w rest ih =>
    rw [List.cons_append]
    simp only [plusWordsLoop]
    split
    · exact ih acc
    · split
      · rfl
      · split
        · rfl
        · split
          · rfl
          · exact ih _

theorem parPlusPhase_sim (ln : R → R) (s : Server R) (document_predicate : DocumentPredicate)
    (plus_words : List Word) (schedule : List Nat) (cm : ConcurrentMap R)
    (acc acc' : StdMap Int R) (hcm : cm.WF) (hrel : ∀ k, cm.lookup k = acc.find k)
    (h : plusWordsLoop ln s document_predicate
      (schedule.flatMap (fun i => (parts 16 plus_words).getD i [])) acc = .ok acc') :
    ∃ cm', parPlusPhase ln s document_predicate plus_words schedule cm = .ok cm' ∧ cm'.WF ∧
      ∀ k, cm'.lookup k = acc'.find k := by
  induction schedule generalizing cm acc with
  | nil =>
    simp only [List.flatMap_nil, plusWordsLoop, Except.ok.injEq] at h
    rw [← h]
    exact ⟨cm, rfl, hcm, hrel⟩
  | cons i rest ih =>
    rw [List.flatMap_cons, plusWordsLoop_append] at h
    unfold parPlusPhase
    cases hl : plusWordsLoop ln s document_predicate ((parts 16 plus_words).getD i []) acc with
    | error e => rw [hl] at h; simp at h
    | ok acc1 =>
      rw [hl] at h
      simp only at h
      obtain ⟨cm1, e1, e2, e3⟩ := parPlusWorker_sim ln s document_predicate _ cm acc acc1
        hcm hrel hl
      rw [e1]
      exact ih _ _ e2 e3 h

theorem parMinusPostingsLoop_sim (freqs : List (Int × R)) (cm : ConcurrentMap R)
    (acc : StdMap Int R) (hcm : cm.WF) (hrel : ∀ k, cm.lookup k = acc.find k) :
    (parMinusPostingsLoop freqs cm).WF ∧
      ∀ k, (parMinusPostingsLoop freqs cm).lookup k = (minusPostingsLoop freqs acc).find k := by
  induction freqs generalizing cm acc with
  | nil => exact ⟨hcm, hrel⟩
  | cons e rest ih =>
    obtain ⟨i, tf⟩ := e
    obtain ⟨w1, w2⟩ := cm.erase_spec hcm i
    exact ih _ _ w1 (fun k => by rw [w2 k, StdMap.find_erase, hrel k])

theorem parMinusWorker_sim (s : Server R) (ws : List Word) (cm : ConcurrentMap R)
    (acc acc' : StdMap Int R) (hcm : cm.WF) (hrel : ∀ k, cm.lookup k = acc.find k)
    (h : minusWordsLoop s ws acc = .ok acc') :
    (parMinusWorker s ws cm).WF ∧ ∀ k, (parMinusWorker s ws cm).lookup k = acc'.find k := by
  induction ws generalizing cm acc with
  | nil =>
    simp only [minusWordsLoop, Except.ok.injEq] at h
    rw [← h]
    exact ⟨hcm, hrel⟩
  | cons w rest ih =>
    unfold minusWordsLoop at h
    unfold parMinusWorker
    by_cases hc : s.word_to_document_freqs_.count w = 0
    · rw [if_pos hc] at h
      rw [if_neg (by omega)]
      exact ih _ _ hcm hrel h
    · rw [if_neg hc] at h
      rw [if_pos (by omega)]
      cases hf : s.word_to_document_freqs_.atKey w with
      | error e => rw [hf] at h; simp at h
      | ok freqs =>
        rw [hf] at h
        simp only at h ⊢
        obtain ⟨e2, e3⟩ := parMinusPostingsLoop_sim freqs cm acc hcm hrel
        exact ih _ _ e2 e3 h

theorem minusWordsLoop_append (s : Server R) (l1 l2 : List Word) (acc : StdMap Int R) :
    minusWordsLoop s (l1 ++ l2) acc =
      match minusWordsLoop s l1 acc with
      | .error e => .error e
      | .ok acc1 => minusWordsLoop s l2 acc1 := by
  induction l1 generalizing acc with
  | nil => rfl
  | cons w rest ih =>
    rw [List.cons_append]
    simp only [minusWordsLoop]
    split
    · exact ih acc
    · split
      · rfl
      · exact ih _

theorem parMinusPhase_sim (s : Server R) (minus_words : List Word) (schedule : List Nat)
    (cm : ConcurrentMap R) (acc acc' : StdMap Int R) (hcm : cm.WF)
    (hrel : ∀ k, cm.lookup k = acc.find k)
    (h : minusWordsLoop s (schedule.flatMap (fun i => (parts 8 minus_words).getD i [])) acc
      = .ok acc') :
    (parMinusPhase s minus_words schedule cm).WF ∧
      ∀ k, (parMinusPhase s minus_words schedule cm).lookup k = acc'.find k := by
  induction schedule generalizing cm acc with
  | nil =>
    simp only [List.flatMap_nil, minusWordsLoop, Except.ok.injEq] at h
    rw [← h]
    exact ⟨hcm, hrel⟩
  | cons i rest ih =>
    rw [List.flatMap_cons, minusWordsLoop_append] at h
    unfold parMinusPhase
    cases hl : minusWordsLoop s ((parts 8 minus_words).getD i []) acc with
    | error e => rw [hl] at h; simp at h
    | ok acc1 =>
      rw [hl] at h
      simp only at h
      obtain ⟨e2, e3⟩ := parMinusWorker_sim s _ cm acc acc1 hcm hrel hl
      exact ih _ _ e2 e3 h

end Simulation

/-! ## The parallel `FindAllDocuments` -/

section ParallelSpec

variable {R : Type} [LinearOrderedField R]

theorem isMatch_perm (s : Server R) (q1 q2 : Query) (document_predicate : DocumentPredicate)
    (hp : q1.plus_words.Perm q2.plus_words) (hm : q1.minus_words.Perm q2.minus_words)
    (i : Int) : isMatch s q1 document_predicate i = isMatch s q2 document_predicate i := by
  rw [Bool.eq_iff_iff, isMatch_iff, isMatch_iff]
  simp only [hp.mem_iff, hm.mem_iff]

theorem relevanceOf_perm (ln : R → R) (s : Server R) (l1 l2 : List Word) (h : l1.Perm l2)
    (i : Int) : relevanceOf ln s l1 i = relevanceOf ln s l2 i := by
  unfold relevanceOf
  exact ((h.filter _).map _).sum_eq

/-- The result of the sequential `FindAllDocuments` does not depend on the order
of the plus words and of the minus words. -/
theorem FindAllDocuments_perm (ln : R → R) {s : Server R} (h : Inv s) (q1 q2 : Query)
    (document_predicate : DocumentPredicate)
    (hp : q1.plus_words.Perm q2.plus_words) (hm : q1.minus_words.Perm q2.minus_words) :
    FindAllDocuments ln s q1 document_predicate = FindAllDocuments ln s q2 document_predicate := by
  obtain ⟨acc1, w1, f1, e1⟩ := FindAllDocuments_spec ln h q1 document_predicate
  obtain ⟨acc2, w2, f2, e2⟩ := FindAllDocuments_spec ln h q2 document_predicate
  have e : acc1 = acc2 := by
    apply StdMap.eq_of_find w1 w2
    intro i
    rw [f1 i, f2 i, isMatch_perm s q1 q2 document_predicate hp hm i,
      relevanceOf_perm ln s _ _ hp i]
  rw [e1, e2, e]

/-- The parallel `FindAllDocuments` returns what the sequential one returns for
the words taken in the order in which the workers handle them. -/
theorem FindAllDocumentsPar_eq_scheduled (ln : R → R) {s : Server R} (h : Inv s)
    (query : Query) (document_predicate : DocumentPredicate)
    (plus_schedule minus_schedule : List Nat) :
    FindAllDocumentsPar ln s query document_predicate plus_schedule minus_schedule =
      FindAllDocuments ln s
        ⟨plus_schedule.flatMap (fun i => (parts 16 query.plus_words).getD i []),
          minus_schedule.flatMap (fun i => (parts 8 query.minus_words).getD i [])⟩
        document_predicate := by
  obtain ⟨acc1, p1, p2, _⟩ := plusWordsLoop_spec ln h document_predicate
    (plus_schedule.flatMap (fun i => (parts 16 query.plus_words).getD i [])) [] StdMap.wf_nil
  obtain ⟨acc2, m1, m2, _⟩ := @minusWordsLoop_spec R _ s
    (minus_schedule.flatMap (fun i => (parts 8 query.minus_words).getD i [])) acc1 p2
  obtain ⟨cm1, c1, c2, c3⟩ := parPlusPhase_sim ln s document_predicate query.plus_words
    plus_schedule (ConcurrentMap.create 10000) [] acc1
    (ConcurrentMap.wf_create 10000 (by decide))
    (fun k => by rw [ConcurrentMap.lookup_create]; rfl) p1
  obtain ⟨d1, d2⟩ := parMinusPhase_sim s query.minus_words minus_schedule cm1 acc1 acc2 c2 c3 m1
  obtain ⟨b1, b2⟩ := ConcurrentMap.BuildOrdinaryMap_spec _ d1
  have e : (parMinusPhase s query.minus_words minus_schedule cm1).BuildOrdinaryMap = acc2 :=
    StdMap.eq_of_find b1 m2 (fun k => by rw [b2 k, d2 k])
  simp only [FindAllDocumentsPar, FindAllDocuments, c1, p1, m1, e]

theorem Document.equal_self (d : Document R) : Document.equal d d = true := by
  simp [Document.equal]

theorem documentsEqual_self (l : List (Document R)) : documentsEqual l l = true := by
  induction l with
  | nil => rfl
  | cons d rest ih => simp [documentsEqual, Document.equal_self, ih]

/-- The property of claim C17 where no call of `RemoveDocument` has removed a
document: in a state reached with defined behaviour, for every query and
predicate and for every order in which the 16 plus-word workers and then the 8
minus-word workers run to completion, the parallel `FindAllDocuments` returns
the list the sequential one returns, which does return a list;
`FindTopDocuments` with the parallel policy returns what it returns with the
sequential one, and two lists so returned are equal under `operator==` of
`Document`.  The ranges of the 16 workers, one after the other, are the plus
words, and those of the 8 workers are the minus words. -/
theorem FindAllDocumentsPar_eq_defined {stop : StdSet Word} {s : Server R}
    (hs : ReachableDefined stop s)
    (ln : R → R) (query : Query) (document_predicate : DocumentPredicate)
    (raw_query : List Char) (plus_schedule minus_schedule : List Nat)
    (hplus : plus_schedule.Perm (List.range 16))
    (hminus : minus_schedule.Perm (List.range 8)) :
    FindAllDocumentsPar ln s query document_predicate plus_schedule minus_schedule =
      FindAllDocuments ln s query document_predicate ∧
    (∃ documents, FindAllDocuments ln s query document_predicate = .ok documents) ∧
    FindTopDocumentsPar ln s raw_query document_predicate plus_schedule minus_schedule =
      FindTopDocuments ln s raw_query document_predicate ∧
    (∀ l1 l2,
      FindTopDocumentsPar ln s raw_query document_predicate plus_schedule minus_schedule
        = .ok l1 →
      FindTopDocuments ln s raw_query document_predicate = .ok l2 →
      documentsEqual l1 l2 = true) ∧
    (parts 16 query.plus_words).length = 16 ∧
    (parts 16 query.plus_words).flatten = query.plus_words ∧
    (parts 8 query.minus_words).length = 8 ∧
    (parts 8 query.minus_words).flatten = query.minus_words := by
  have h := hs.inv
  have hall : ∀ q : Query,
      FindAllDocumentsPar ln s q document_predicate plus_schedule minus_schedule =
        FindAllDocuments ln s q document_predicate := by
    intro q
    rw [FindAllDocumentsPar_eq_scheduled ln h]
    exact FindAllDocuments_perm ln h _ q document_predicate
      (schedule_perm 16 (by decide) q.plus_words plus_schedule hplus)
      (schedule_perm 8 (by decide) q.minus_words minus_schedule hminus)
  have htop : FindTopDocumentsPar ln s raw_query document_predicate plus_schedule
      minus_schedule = FindTopDocuments ln s raw_query document_predicate := by
    unfold FindTopDocumentsPar FindTopDocuments
    cases ParseQuery s raw_query with
    | error e => rfl
    | ok q => simp only [hall q]
  obtain ⟨acc, _, _, e⟩ := FindAllDocuments_spec ln h query document_predicate
  refine ⟨hall query, ⟨_, e⟩, htop, fun l1 l2 h1 h2 => ?_, parts_length _ _,
    parts_flatten 16 (by decide) _, parts_length _ _, parts_flatten 8 (by decide) _⟩
  rw [htop, h2] at h1
  simp only [Except.ok.injEq] at h1
  rw [h1]
  exact documentsEqual_self l1

end ParallelSpec

/-- On the corpus of scenario S1 and for the query of scenario S2, with the
plus-word workers completing from the last to the first and the minus-word
workers in an order of their own, the parallel `FindAllDocuments` returns
document 3, as the sequential one does. -/
theorem FindAllDocumentsPar_eq_defined_witness :
    [15, 14, 13, 12, 11, 10, 9, 8, 7, 6, 5, 4, 3, 2, 1, 0].Perm (List.range 16) ∧
    [3, 0, 7, 1, 6, 2, 5, 4].Perm (List.range 8) ∧
    returnedIds (FindAllDocumentsPar (fun x => x) corpusS1 queryS2 (statusPredicate .ACTUAL)
      [15, 14, 13, 12, 11, 10, 9, 8, 7, 6, 5, 4, 3, 2, 1, 0] [3, 0, 7, 1, 6, 2, 5, 4])
        = some [3] ∧
    returnedIds (FindAllDocuments (fun x => x) corpusS1 queryS2 (statusPredicate .ACTUAL))
      = some [3] ∧
    parts 16 queryS2.plus_words =
      [[], [], [], [], [], [], [], [], [], [], [], [], [], [], [],
        ["пушистый".toList, "ухоженный".toList]] ∧
    FindAllDocumentsPar (fun x => x) corpusS1 queryS2 (statusPredicate .ACTUAL)
      [15, 14, 13, 12, 11, 10, 9, 8, 7, 6, 5, 4, 3, 2, 1, 0] [3, 0, 7, 1, 6, 2, 5, 4] =
        FindAllDocuments (fun x => x) corpusS1 queryS2 (statusPredicate .ACTUAL) :=
  ⟨by decide, by decide, by decide!, by decide!, by decide,
    (FindAllDocumentsPar_eq_defined corpusS1_defined (fun x => x) queryS2 (statusPredicate .ACTUAL)
      "пушистый ухоженный -кот".toList
      [15, 14, 13, 12, 11, 10, 9, 8, 7, 6, 5, 4, 3, 2, 1, 0] [3, 0, 7, 1, 6, 2, 5, 4]
      (by decide) (by decide)).1⟩

/-! ## The two tokenizers -/

theorem pieces_ne_nil (text : List Char) : pieces text ≠ [] := by
  cases text with
  | nil => simp [pieces]
  | cons c rest =>
    unfold pieces
    split
    · simp
    · split <;> simp

theorem pieces_cons_space (rest : List Char) : pieces (SPACE :: rest) = [] :: pieces rest := by
  rw [pieces, if_pos rfl]

theorem pieces_cons_other (c : Char) (rest : List Char) (piece : Word) (others : List Word)
    (hc : c ≠ SPACE) (h : pieces rest = piece :: others) :
    pieces (c :: rest) = (c :: piece) :: others := by
  rw [pieces, if_neg hc, h]

theorem pieces_of_findSpace_none (str : List Char) (h : findSpace str = none) :
    pieces str = [str] := by
  induction str with
  | nil => rfl
  | cons c rest ih =>
    unfold findSpace at h
    by_cases hc : c = SPACE
    · rw [if_pos hc] at h
      simp at h
    · rw [if_neg hc] at h
      have h2 : findSpace rest = none := by
        cases hf : findSpace rest with
        | none => rfl
        | some n => rw [hf] at h; simp at h
      exact pieces_cons_other c rest rest [] hc (ih h2)

theorem pieces_of_findSpace_some (str : List Char) (n : Nat) (h : findSpace str = some n) :
    pieces str = str.take n :: pieces (str.drop (n + 1)) := by
  induction str generalizing n with
  | nil => simp [findSpace] at h
  | cons c rest ih =>
    unfold findSpace at h
    by_cases hc : c = SPACE
    · rw [if_pos hc] at h
      have hn : n = 0 := by simpa using h.symm
      rw [hn, hc, pieces_cons_space]
      rfl
    · rw [if_neg hc] at h
      cases hf : findSpace rest with
      | none => rw [hf] at h; simp at h
      | some m =>
        rw [hf] at h
        have hn : n = m + 1 := by simpa using h.symm
        rw [hn, pieces_cons_other c rest _ _ hc (ih m hf)]
        rfl

theorem SplitIntoWordsViewLoop_pieces (fuel : Nat) (str : List Char) (result : StdSet Word)
    (hfuel : str.length < fuel) (t : Word) :
    t ∈ SplitIntoWordsViewLoop fuel str result ↔ t ∈ pieces str ∨ t ∈ result := by
  induction fuel generalizing str result with
  | zero => omega
  | succ fuel ih =>
    unfold SplitIntoWordsViewLoop
    simp only
    cases hf : findSpace str with
    | none =>
      simp only [substrTo, StdSet.mem_insert, pieces_of_findSpace_none str hf,
        List.mem_singleton]
    | some n =>
      have hlt := findSpace_lt str n hf
      simp only [substrTo]
      rw [ih _ _ (by rw [List.length_drop]; omega), StdSet.mem_insert,
        pieces_of_findSpace_some str n hf, List.mem_cons]
      tauto

theorem SplitIntoWordsView_pieces (text : List Char) (t : Word) :
    t ∈ SplitIntoWordsView text ↔ t ∈ pieces text := by
  unfold SplitIntoWordsView
  rw [SplitIntoWordsViewLoop_pieces _ _ _ (Nat.lt_succ_self _)]
  simp

theorem SplitIntoWordsViewLoop_wf (fuel : Nat) (str : List Char) (result : StdSet Word)
    (h : StdSet.WF result) : StdSet.WF (SplitIntoWordsViewLoop fuel str result) := by
  induction fuel generalizing str result with
  | zero => exact h
  | succ fuel ih =>
    unfold SplitIntoWordsViewLoop
    simp only
    cases findSpace str with
    | none => exact StdSet.wf_setInsert h _
    | some n => exact ih _ _ (StdSet.wf_setInsert h _)

theorem SplitIntoWordsView_wf (text : List Char) : StdSet.WF (SplitIntoWordsView text) :=
  SplitIntoWordsViewLoop_wf _ _ _ (by simp [StdSet.WF])

theorem SplitIntoWordsLoop_pieces (text : List Char) (word : Word) (words : List Word)
    (piece : Word) (others : List Word) (h : pieces text = piece :: others) :
    SplitIntoWordsLoop text word words =
      words ++ ((word ++ piece) :: others).filter (fun p => decide (p ≠ [])) := by
  induction text generalizing word words piece others with
  | nil =>
    simp only [pieces, List.cons.injEq] at h
    rw [← h.1, ← h.2, List.append_nil]
    unfold SplitIntoWordsLoop
    by_cases hw : word ≠ []
    · rw [if_pos hw]
      simp [hw]
    · rw [if_neg hw]
      simp [not_not.mp hw]
  | cons c rest ih =>
    unfold SplitIntoWordsLoop
    by_cases hc : c = SPACE
    · rw [if_pos hc]
      rw [hc, pieces_cons_space] at h
      simp only [List.cons.injEq] at h
      obtain ⟨p2, o2, h2⟩ : ∃ p2 o2, pieces rest = p2 :: o2 := by
        cases hp : pieces rest with
        | nil => exact absurd hp (pieces_ne_nil rest)
        | cons p2 o2 => exact ⟨p2, o2, rfl⟩
      rw [← h.1, ← h.2, List.append_nil, h2]
      by_cases hw : word ≠ []
      · rw [if_pos hw, ih [] (words ++ [word]) p2 o2 h2]
        simp [hw]
      · rw [if_neg hw, ih word words p2 o2 h2]
        simp [not_not.mp hw]
    · rw [if_neg hc]
      obtain ⟨p2, o2, h2⟩ : ∃ p2 o2, pieces rest = p2 :: o2 := by
        cases hp : pieces rest with
        | nil => exact absurd hp (pieces_ne_nil rest)
        | cons p2 o2 => exact ⟨p2, o2, rfl⟩
      rw [pieces_cons_other c rest p2 o2 hc h2] at h
      simp only [List.cons.injEq] at h
      rw [ih (word ++ [c]) words p2 o2 h2, ← h.1, ← h.2]
      simp

theorem SplitIntoWords_pieces (text : List Char) :
    SplitIntoWords text = (pieces text).filter (fun p => decide (p ≠ [])) := by
  obtain ⟨p, o, h⟩ : ∃ p o, pieces text = p :: o := by
    cases hp : pieces text with
    | nil => exact absurd hp (pieces_ne_nil text)
    | cons p o => exact ⟨p, o, rfl⟩
  unfold SplitIntoWords
  rw [SplitIntoWordsLoop_pieces text [] [] p o h, h]
  rfl

theorem joinWords_cons (w : Word) (rest : List Word) (h : rest ≠ []) :
    joinWords (w :: rest) = w ++ SPACE :: joinWords rest := by
  cases rest with
  | nil => exact absurd rfl h
  | cons w2 rest2 => rfl

theorem joinWords_cons_cons (c : Char) (piece : Word) (others : List Word) :
    joinWords ((c :: piece) :: others) = c :: joinWords (piece :: others) := by
  cases others with
  | nil => rfl
  | cons w2 rest2 => rfl

/-- The pieces of a text hold no space, and joined by single spaces they give
the text back. -/
theorem pieces_spec (text : List Char) :
    joinWords (pieces text) = text ∧ ∀ p ∈ pieces text, SPACE ∉ p := by
  induction text with
  | nil => exact ⟨rfl, fun p hp => by simp [pieces] at hp; simp [hp]⟩
  | cons c rest ih =>
    obtain ⟨p2, o2, h2⟩ : ∃ p2 o2, pieces rest = p2 :: o2 := by
      cases hp : pieces rest with
      | nil => exact absurd hp (pieces_ne_nil rest)
      | cons p2 o2 => exact ⟨p2, o2, rfl⟩
    by_cases hc : c = SPACE
    · rw [hc, pieces_cons_space]
      refine ⟨?_, fun p hp => ?_⟩
      · rw [joinWords_cons _ _ (pieces_ne_nil rest), ih.1]
        rfl
      · rcases List.mem_cons.mp hp with h3 | h3
        · rw [h3]
          simp
        · exact ih.2 p h3
    · rw [pieces_cons_other c rest p2 o2 hc h2]
      rw [h2] at ih
      refine ⟨?_, fun p hp => ?_⟩
      · rw [joinWords_cons_cons, ih.1]
      · rcases List.mem_cons.mp hp with h3 | h3
        · rw [h3]
          intro h4
          rcases List.mem_cons.mp h4 with h5 | h5
          · exact hc h5.symm
          · exact ih.2 p2 (List.mem_cons_self _ _) h5
        · exact ih.2 p (List.mem_cons_of_mem _ h3)

theorem trailing_or_double_cons_space (rest : List Char) :
    ((SPACE :: rest).getLast? = some SPACE ∨ ∃ a b, SPACE :: rest = a ++ SPACE :: SPACE :: b) ↔
      (rest = [] ∨ rest.head? = some SPACE) ∨
        (rest.getLast? = some SPACE ∨ ∃ a b, rest = a ++ SPACE :: SPACE :: b) := by
  constructor
  · rintro (h | ⟨a, b, h⟩)
    · cases rest with
      | nil => exact Or.inl (Or.inl rfl)
      | cons r rs =>
        rw [List.getLast?_cons_cons] at h
        exact Or.inr (Or.inl h)
    · cases a with
      | nil =>
        simp only [List.nil_append, List.cons.injEq, true_and] at h
        rw [h]
        exact Or.inl (Or.inr rfl)
      | cons x a2 =>
        simp only [List.cons_append, List.cons.injEq] at h
        exact Or.inr (Or.inr ⟨a2, b, h.2⟩)
  · rintro ((h | h) | (h | ⟨a, b, h⟩))
    · rw [h]
      exact Or.inl rfl
    · cases rest with
      | nil => simp at h
      | cons r rs =>
        simp only [List.head?_cons, Option.some.injEq] at h
        rw [h]
        exact Or.inr ⟨[], rs, rfl⟩
    · cases rest with
      | nil => simp at h
      | cons r rs =>
        rw [List.getLast?_cons_cons]
        exact Or.inl h
    · rw [h]
      exact Or.inr ⟨SPACE :: a, b, rfl⟩

theorem trailing_or_double_cons_other (c : Char) (rest : List Char) (hc : c ≠ SPACE) :
    ((c :: rest).getLast? = some SPACE ∨ ∃ a b, c :: rest = a ++ SPACE :: SPACE :: b) ↔
      (rest.getLast? = some SPACE ∨ ∃ a b, rest = a ++ SPACE :: SPACE :: b) := by
  constructor
  · rintro (h | ⟨a, b, h⟩)
    · cases rest with
      | nil =>
        simp only [List.getLast?_singleton, Option.some.injEq] at h
        exact absurd h hc
      | cons r rs =>
        rw [List.getLast?_cons_cons] at h
        exact Or.inl h
    · cases a with
      | nil =>
        simp only [List.nil_append, List.cons.injEq] at h
        exact absurd h.1 hc
      | cons x a2 =>
        simp only [List.cons_append, List.cons.injEq] at h
        exact Or.inr ⟨a2, b, h.2⟩
  · rintro (h | ⟨a, b, h⟩)
    · cases rest with
      | nil => simp at h
      | cons r rs =>
        rw [List.getLast?_cons_cons]
        exact Or.inl h
    · rw [h]
      exact Or.inr ⟨c :: a, b, rfl⟩

/-- The first piece of a text is empty when the text is empty or begins with a
space; a later piece is empty when the text ends with a space or has two spaces
in a row. -/
theorem empty_piece_iff (text : List Char) (piece : Word) (others : List Word)
    (h : pieces text = piece :: others) :
    (piece = [] ↔ text = [] ∨ text.head? = some SPACE) ∧
    ([] ∈ others ↔
      text.getLast? = some SPACE ∨ ∃ a b, text = a ++ SPACE :: SPACE :: b) := by
  induction text generalizing piece others with
  | nil =>
    simp only [pieces, List.cons.injEq] at h
    rw [← h.1, ← h.2]
    refine ⟨by simp, ?_⟩
    simp
  | cons c rest ih =>
    obtain ⟨p2, o2, h2⟩ : ∃ p2 o2, pieces rest = p2 :: o2 := by
      cases hp : pieces rest with
      | nil => exact absurd hp (pieces_ne_nil rest)
      | cons p2 o2 => exact ⟨p2, o2, rfl⟩
    obtain ⟨i1, i2⟩ := ih p2 o2 h2
    by_cases hc : c = SPACE
    · rw [hc, pieces_cons_space, h2] at h
      simp only [List.cons.injEq] at h
      rw [← h.1, ← h.2, hc]
      refine ⟨by simp, ?_⟩
      rw [trailing_or_double_cons_space, ← i1, ← i2, List.mem_cons]
      constructor
      · rintro (h3 | h3)
        · exact Or.inl h3.symm
        · exact Or.inr h3
      · rintro (h3 | h3)
        · exact Or.inl h3.symm
        · exact Or.inr h3
    · rw [pieces_cons_other c rest p2 o2 hc h2] at h
      simp only [List.cons.injEq] at h
      rw [← h.1, ← h.2]
      refine ⟨?_, ?_⟩
      · simp only [List.head?_cons, Option.some.injEq]
        constructor
        · intro h3
          exact absurd h3 (by simp)
        · rintro (h3 | h3)
          · exact absurd h3 (by simp)
          · exact absurd h3 hc
      · rw [trailing_or_double_cons_other c rest hc]
        exact i2

theorem nil_mem_pieces_iff (text : List Char) : [] ∈ pieces text ↔ hasEmptyPiece text := by
  obtain ⟨p, o, h⟩ : ∃ p o, pieces text = p :: o := by
    cases hp : pieces text with
    | nil => exact absurd hp (pieces_ne_nil text)
    | cons p o => exact ⟨p, o, rfl⟩
  obtain ⟨h1, h2⟩ := empty_piece_iff text p o h
  rw [h, List.mem_cons, h2, hasEmptyPiece]
  constructor
  · rintro (h3 | h3)
    · rcases h1.mp h3.symm with h4 | h4
      · exact Or.inl h4
      · exact Or.inr (Or.inl h4)
    · exact Or.inr (Or.inr h3)
  · rintro (h3 | h3 | h3)
    · exact Or.inl (h1.mpr (Or.inl h3)).symm
    · exact Or.inl (h1.mpr (Or.inr h3)).symm
    · exact Or.inr h3

/-- Claim C21 (amended): for every text, `SplitIntoWordsView(text)` is the sorted
set of the pieces into which the spaces cut the text, the empty ones included,
while `SplitIntoWords(text)` lists the non-empty pieces.  So the set holds every
element of `SplitIntoWords(text)` and, besides these, the empty string exactly
when the text is empty, begins with a space, ends with a space or has two spaces
in a row; for any other text it is the set of the elements of
`SplitIntoWords(text)`.  The pieces hold no space and, joined by single spaces,
give the text back. -/
theorem SplitIntoWordsView_spec (text : List Char) :
    StdSet.WF (SplitIntoWordsView text) ∧
    (∀ t, t ∈ SplitIntoWordsView text ↔ t ∈ pieces text) ∧
    (∀ t, t ∈ SplitIntoWords text ↔ t ∈ pieces text ∧ t ≠ []) ∧
    (∀ t, t ∈ SplitIntoWordsView text ↔
      t ∈ SplitIntoWords text ∨ (t = [] ∧ hasEmptyPiece text)) ∧
    ([] ∈ SplitIntoWordsView text ↔ hasEmptyPiece text) ∧
    (¬ hasEmptyPiece text → SplitIntoWordsView text = StdSet.ofList (SplitIntoWords text)) ∧
    joinWords (pieces text) = text ∧
    (∀ p ∈ pieces text, SPACE ∉ p) := by
  have h1 := SplitIntoWordsView_pieces text
  have h2 : ∀ t, t ∈ SplitIntoWords text ↔ t ∈ pieces text ∧ t ≠ [] := by
    intro t
    rw [SplitIntoWords_pieces, List.mem_filter, decide_eq_true_eq]
  have h3 : ∀ t, t ∈ SplitIntoWordsView text ↔
      t ∈ SplitIntoWords text ∨ (t = [] ∧ hasEmptyPiece text) := by
    intro t
    rw [h1 t, h2 t, ← nil_mem_pieces_iff]
    constructor
    · intro h
      by_cases ht : t = []
      · exact Or.inr ⟨ht, ht ▸ h⟩
      · exact Or.inl ⟨h, ht⟩
    · rintro (h | h)
      · exact h.1
      · rw [h.1]
        exact h.2
  refine ⟨SplitIntoWordsView_wf text, h1, h2, h3, ?_, fun hne => ?_, (pieces_spec text).1,
    (pieces_spec text).2⟩
  · rw [h1, nil_mem_pieces_iff]
  · apply StdSet.eq_of_mem_iff (SplitIntoWordsView_wf text) (StdSet.wf_ofList _)
    intro t
    rw [StdSet.mem_ofList, h3 t]
    exact ⟨fun h => h.elim id (fun h4 => absurd h4.2 hne), Or.inl⟩

/-- Claim C21, counterexample: for the empty text, for a text that begins or
ends with a space and for a text with two spaces in a row, `SplitIntoWordsView`
returns a set that holds the empty string, which is no element of what
`SplitIntoWords` returns. -/
theorem SplitIntoWordsView_empty_token_counterexample :
    SplitIntoWordsView [] = [[]] ∧ SplitIntoWords [] = [] ∧
    SplitIntoWordsView " cat".toList = [[], "cat".toList] ∧
    SplitIntoWords " cat".toList = ["cat".toList] ∧
    SplitIntoWordsView "cat ".toList = [[], "cat".toList] ∧
    SplitIntoWords "cat ".toList = ["cat".toList] ∧
    SplitIntoWordsView "cat  dog".toList = [[], "cat".toList, "dog".toList] ∧
    SplitIntoWords "cat  dog".toList = ["cat".toList, "dog".toList] := by
  decide

/-! ## `RequestQueue::AddFindRequest` and its predicate -/

section RequestPredicate

variable {R : Type} [LinearOrderedField R]

/-- Claim C22: for every server, queue, query and any two predicates, the calls
`AddFindRequest(raw_query, p)` and `AddFindRequest(raw_query, q)` end alike: they
return the same list, or throw the same exception, and leave the queue in the
same state; what is returned is the result of `FindTopDocuments(raw_query)`,
which selects the documents with the status `ACTUAL`. -/
theorem AddFindRequest_ignores_predicate (ln : R → R) (search_server : Server R)
    (queue : RequestQueue) (raw_query : List Char) (p q : DocumentPredicate) :
    AddFindRequest ln search_server queue raw_query p =
      AddFindRequest ln search_server queue raw_query q ∧
    (AddFindRequest ln search_server queue raw_query p).2 =
      FindTopDocuments ln search_server raw_query (statusPredicate .ACTUAL) ∧
    (AddFindRequest ln search_server queue raw_query q).2 =
      FindTopDocuments ln search_server raw_query (statusPredicate .ACTUAL) := by
  refine ⟨?_, AddFindRequest_result ln search_server queue raw_query p,
    AddFindRequest_result ln search_server queue raw_query q⟩
  unfold AddFindRequest
  rfl

end RequestPredicate

/-- Claim C22, an instance: on the corpus of scenario S1 the query `кот` with a
predicate that accepts every document and with one that rejects every document
gives the same outcome, the documents 2 and 1, although `FindTopDocuments` with
the second predicate returns nothing. -/
theorem AddFindRequest_ignores_predicate_witness :
    AddFindRequest (fun x => x) corpusS1 RequestQueue.init "кот".toList anyDocument =
      AddFindRequest (fun x => x) corpusS1 RequestQueue.init "кот".toList
        (fun _ _ _ => false) ∧
    returnedIds (AddFindRequest (fun x => x) corpusS1 RequestQueue.init "кот".toList
      (fun _ _ _ => false)).2 = some [2, 1] ∧
    (AddFindRequest (fun x => x) corpusS1 RequestQueue.init "кот".toList
      (fun _ _ _ => false)).1 = ⟨[false], 1, 0⟩ ∧
    returnedIds (FindTopDocuments (fun x => x) corpusS1 "кот".toList (fun _ _ _ => false))
      = some [] :=
  ⟨(AddFindRequest_ignores_predicate (fun x => x) corpusS1 RequestQueue.init "кот".toList
      anyDocument (fun _ _ _ => false)).1,
    by decide!, by decide!, by decide!⟩

/-! ## The calls of `RemoveDocument` that remove a document

`RemoveDocument` erases the record of the document, and with it the strings the
keys of its row refer to, before the loop that looks these keys up.  On a state
reached with defined behaviour every call for a document with words therefore
ends at the first lookup, in undefined behaviour (`RemoveDocument_defined_cases`).
The theorems of this section evaluate the code on the corpus of scenario S1.
The state they give for a call that ends in undefined behaviour is the one at
the undefined read, and where they go on from it they take the destroyed strings
to be read as the characters they held; the language guarantees nothing of what
the program does from that read on. -/

section RemoveUndefined

variable {R : Type} [LinearOrderedField R]

/-- After a successful `AddDocument` of a text with at least one non-stop word to
a server reached with defined behaviour, `RemoveDocument` of the same id ends in
undefined behaviour, the row and the postings of the document still in place. -/
theorem RemoveDocument_after_AddDocument {stop : StdSet Word} {s : Server R}
    (hs : ReachableDefined stop s) (document_id : Int) (document : List Char)
    (status : DocumentStatus) (ratings : List Int)
    (hadd : (AddDocument s document_id document status ratings).thrown = none)
    (hne : nonStopWords s document ≠ []) :
    (RemoveDocument (AddDocument s document_id document status ratings).state
      document_id).thrown = some .undefined ∧
    (RemoveDocument (AddDocument s document_id document status ratings).state
      document_id).state.word_frequencies_to_document =
        (AddDocument s document_id document status ratings).state.word_frequencies_to_document ∧
    (RemoveDocument (AddDocument s document_id document status ratings).state
      document_id).state.word_to_document_freqs_ =
        (AddDocument s document_id document status ratings).state.word_to_document_freqs_ := by
  rcases RemoveDocument_defined_cases
    (ReachableDefined.add s document_id document status ratings hs) document_id with
    ⟨hnone, _⟩ | ⟨_, h1⟩
  · obtain ⟨w0, hw0⟩ := List.exists_mem_of_ne_nil _ hne
    have h0 := (AddDocument_entry hs.inv document_id document status ratings hadd w0).2.2.2
    simp only [termFrequency, hw0, if_true, forwardEntry, hnone, Option.none_bind] at h0
    exact absurd h0 (by simp)
  · rw [h1]
    exact ⟨rfl, rfl, rfl⟩

end RemoveUndefined

/-- Claim C1, the code at the failing input: on the corpus of scenario S1 the
call `RemoveDocument(2)` erases the id and the record of document 2 and then
ends in undefined behaviour at the first lookup of its loop.  In the state at
that read document 2 is still posted under `хвост`; for the query
`ухоженный хвост -кот`, which only document 3 matches, `FindAllDocuments`
reaches `documents_.at(2)` and ends with `out_of_range` instead of returning
document 3. -/
theorem FindAllDocuments_after_RemoveDocument :
    ReachableDefined stopWordsS1 corpusS1 ∧
    (RemoveDocument corpusS1 2).thrown = some .undefined ∧
    corpusS1Removed.documents_.keys = [1, 3] ∧
    ParseQuery corpusS1Removed "ухоженный хвост -кот".toList = .ok queryGroomedTail ∧
    matchingIds corpusS1Removed queryGroomedTail (statusPredicate .ACTUAL) = [3] ∧
    posted corpusS1Removed "хвост".toList 2 ∧
    corpusS1Removed.documents_.find 2 = none ∧
    FindAllDocuments (fun x => x) corpusS1Removed queryGroomedTail (statusPredicate .ACTUAL)
      = .error .out_of_range := by
  refine ⟨corpusS1_defined, by decide!, by decide!, rfl, by decide!, by decide!, by decide!, rfl⟩

/-- Claim C4, the code at the failing input: on the corpus of scenario S1 the
call `RemoveDocument(2)` ends in undefined behaviour after erasing the record of
document 2.  In the state at that read the query `ухоженный кот хвост` is
matched by the two documents 1 and 3, and `FindTopDocuments` ends with
`out_of_range` at `documents_.at(2)` instead of returning two entries. -/
theorem FindTopDocuments_after_RemoveDocument :
    (RemoveDocument corpusS1 2).thrown = some .undefined ∧
    ParseQuery corpusS1Removed "ухоженный кот хвост".toList = .ok queryGroomedCatTail ∧
    matchingIds corpusS1Removed queryGroomedCatTail (statusPredicate .ACTUAL) = [1, 3] ∧
    min MAX_RESULT_DOCUMENT_COUNT
      (matchingIds corpusS1Removed queryGroomedCatTail (statusPredicate .ACTUAL)).length = 2 ∧
    FindTopDocuments (fun x => x) corpusS1Removed "ухоженный кот хвост".toList
      (statusPredicate .ACTUAL) = .error .out_of_range := by
  refine ⟨by decide!, rfl, by decide!, by decide!, rfl⟩

/-- Claim C6, the code at the failing input: on the corpus of scenario S1 the
call `RemoveDocument(2)` ends in undefined behaviour after erasing the record of
document 2, with the row of 2 still in the forward index.  `AddDocument(2, "x",
ACTUAL, {})` then succeeds, since 2 has no record, and adds the word `x` to that
row: `GetWordFrequencies(2)` returns a row of four words in which `x` has the
frequency 1 and whose frequencies sum to 2. -/
theorem GetWordFrequencies_after_RemoveDocument :
    (RemoveDocument corpusS1 2).thrown = some .undefined ∧
    2 ∉ corpusS1Removed.documents_.keys ∧
    2 ∈ corpusS1Removed.word_frequencies_to_document.keys ∧
    (AddDocument corpusS1Removed 2 "x".toList .ACTUAL []).thrown = none ∧
    nonStopWords corpusS1Removed "x".toList ≠ [] ∧
    ∃ row, GetWordFrequencies (AddDocument corpusS1Removed 2 "x".toList .ACTUAL []).state 2
        = .ok row ∧
      row.map Prod.fst = ["x".toList, "кот".toList, "пушистый".toList, "хвост".toList] ∧
      row.find "x".toList = some 1 ∧
      (row.map Prod.snd).sum = 2 := by
  refine ⟨by decide!, by decide!, by decide!, by decide!, by decide!, _, rfl, by decide!,
    by decide!, by decide!⟩

/-- Claim C11, the code at the failing input: document 4, `кот попугай`, is added
to the corpus of scenario S1 without an exception; `RemoveDocument(4)` then
erases the id and the record of 4 and ends in undefined behaviour at the first
lookup of its loop.  The inverted index is not the map it was before the add: it
has the word key `попугай`, which no line of `RemoveDocument` erases. -/
theorem AddDocument_RemoveDocument_undefined :
    ReachableDefined stopWordsS1 corpusS1 ∧
    (AddDocument corpusS1 4 "кот попугай".toList .ACTUAL [1]).thrown = none ∧
    (RemoveDocument corpusS1Parrot 4).thrown = some .undefined ∧
    4 ∉ (RemoveDocument corpusS1Parrot 4).state.documents_.keys ∧
    "попугай".toList ∉ corpusS1.word_to_document_freqs_.keys ∧
    "попугай".toList ∈ (RemoveDocument corpusS1Parrot 4).state.word_to_document_freqs_.keys ∧
    (RemoveDocument corpusS1Parrot 4).state.word_to_document_freqs_ ≠
      corpusS1.word_to_document_freqs_ := by
  refine ⟨corpusS1_defined, by decide!, by decide!, by decide!, by decide!, by decide!,
    by decide!⟩

/-- Claim C17, the code at the failing input: on the corpus of scenario S1 the
call `RemoveDocument(2)` ends in undefined behaviour after erasing the record of
document 2.  In the state at that read, for the query `кот хвост`, the
sequential `FindAllDocuments` ends with `out_of_range` at `documents_.at(2)`,
while in the parallel one the same exception leaves `for_each` under the
parallel policy, which ends the program; so do the two `FindTopDocuments`.
The workers run in the order of their ranges. -/
theorem FindAllDocumentsPar_after_RemoveDocument :
    (RemoveDocument corpusS1 2).thrown = some .undefined ∧
    FindAllDocuments (fun x => x) corpusS1Removed queryCatTail (statusPredicate .ACTUAL)
      = .error .out_of_range ∧
    FindAllDocumentsPar (fun x => x) corpusS1Removed queryCatTail (statusPredicate .ACTUAL)
      (List.range 16) (List.range 8) = .error .terminate ∧
    FindTopDocuments (fun x => x) corpusS1Removed "кот хвост".toList
      (statusPredicate .ACTUAL) = .error .out_of_range ∧
    FindTopDocumentsPar (fun x => x) corpusS1Removed "кот хвост".toList
      (statusPredicate .ACTUAL) (List.range 16) (List.range 8) = .error .terminate := by
  refine ⟨by decide!, rfl, rfl, rfl, rfl⟩

end SearchServer
